import Mathlib

/-!
# topfast: the stats aggregation engine of `nlstats.go`

A shallow embedding of the per-process / per-command accounting done by
`goUpdateStats`, `goExitStats`, `incCmd` and `propagateStats`, together with the
report selection of `statsByCommand` / `statsSub`.

Modelling conventions.

* Go pointers `*procInfo` and `*cmdInfo` are addresses (`Nat`) into two heaps
  `procs` and `cmds`; `nil` is `none`.  Allocation takes the next free address
  (`nprocs`, `ncmds`).  Objects are never freed: `delete(procInfos, pid)` only
  removes the map entry, so a child's `ppi` may still reach the object.
* `procInfos` (a Go map keyed by pid) is a finite partial function; `cmdInfos`
  is an association list, its list order standing for one iteration order of
  the Go map.
* `clearCounters` replaces both maps; the objects they referred to stay in the
  heaps, out of reach of the new maps.
* `uint64` fields are `Nat` with every addition reduced modulo `2^64`.
* `readProcStat` reads `/proc/[pid]/stat`; the content of `/proc` is the
  parameter `proc`, `none` standing for a failed read.
* The recursion of `propagateStats` is unbounded in Go; the embedding carries a
  recursion budget (`fuel`) and returns `none` when it is exhausted; results
  are stated for the runs that return, and the handlers are shown to return
  whenever the recorded process tree is acyclic (`Acyclic`, `Ranked`).
* `updateLongLivedStats` gets the readings delivered by the netlink requests
  as a parameter (`scan`).
* The histogram `ehist` is kept apart from `Engine` (`exitHist`, `histStep`): the
  conversion `float64(ccpu)` is the rounding `toFloat64` on exact values, and
  `int(math.Log10(·))` is a parameter of the embedding.
-/

namespace Topfast

/-- Modulus of Go's `uint64` arithmetic, `2^64`. -/
def U64 : Nat := 18446744073709551616

/-- Sort criteria constants (`scCount`, `scTime`). -/
inductive SortCriteria where
  | scCount
  | scTime
deriving DecidableEq

/-- Per-command record (`type cmdInfo struct`). -/
structure cmdInfo where
  cmd : String
  subec : Nat
  subet : Nat
  ec : Nat
  et : Nat
  spid : Int
deriving DecidableEq

/-- Per-process record (`type procInfo struct`); `ppi` and `ci` are addresses. -/
structure procInfo where
  pid : Int
  ppid : Int
  ppi : Option Nat
  ci : Option Nat
  cpu : Nat
deriving DecidableEq

/-- The global state of `nlstats.go` that the event handlers read and write. -/
structure Engine where
  procs : Nat → procInfo
  nprocs : Nat
  cmds : Nat → cmdInfo
  ncmds : Nat
  procInfos : Int → Option Nat
  cmdInfos : List (String × Nat)
  vanishedCount : Nat
  exitCount : Nat
  sample : Nat
  initCpuCounters : Bool

/-- The state at program start: both maps empty, all counters zero. -/
def Engine.empty : Engine where
  procs := fun _ => ⟨0, 0, none, none, 0⟩
  nprocs := 0
  cmds := fun _ => ⟨"", 0, 0, 0, 0, 0⟩
  ncmds := 0
  procInfos := fun _ => none
  cmdInfos := []
  vanishedCount := 0
  exitCount := 0
  sample := 0
  initCpuCounters := false

/-- Go map read `m[k]` on `cmdInfos`. -/
def mapGet : List (String × Nat) → String → Option Nat
  | [], _ => none
  | (k', v) :: t, k => if k' = k then some v else mapGet t k

/-- Go map write `m[k] = v` on `cmdInfos`: replaces the value of an existing
key, otherwise adds the entry. -/
def mapPut : List (String × Nat) → String → Nat → List (String × Nat)
  | [], k, v => [(k, v)]
  | (k', v') :: t, k, v => if k' = k then (k, v) :: t else (k', v') :: mapPut t k v

/-- Store a record at an address of the `procInfo` heap. -/
def setProc (s : Engine) (p : Nat) (r : procInfo) : Engine :=
  { s with procs := Function.update s.procs p r }

/-- Store a record at an address of the `cmdInfo` heap. -/
def setCmd (s : Engine) (c : Nat) (r : cmdInfo) : Engine :=
  { s with cmds := Function.update s.cmds c r }

/-- Go `&cmdInfo{...}` followed by `cmdInfos[cmd] = ci`: allocate a command record
and enter it in the ledger.  Returns the new address. -/
def newCmd (s : Engine) (r : cmdInfo) : Nat × Engine :=
  (s.ncmds, { s with cmds := Function.update s.cmds s.ncmds r
                     ncmds := s.ncmds + 1
                     cmdInfos := mapPut s.cmdInfos r.cmd s.ncmds })

/-- Go `&procInfo{...}` followed by `procInfos[pid] = pi`: allocate a process
record and enter it in the registry.  Returns the new address. -/
def newProc (s : Engine) (r : procInfo) : Nat × Engine :=
  (s.nprocs, { s with procs := Function.update s.procs s.nprocs r
                      nprocs := s.nprocs + 1
                      procInfos := Function.update s.procInfos r.pid (some s.nprocs) })

/-- Function `readProcStat`: command and parent pid of `pid` from `/proc/[pid]/stat`;
a failed read bumps `vanishedCount` and yields `("", -1)`. -/
def readProcStat (proc : Int → Option (String × Int)) (s : Engine) (pid : Int) :
    (String × Int) × Engine :=
  match proc pid with
  | some r => (r, s)
  | none => (("", -1), { s with vanishedCount := (s.vanishedCount + 1) % U64 })

/-- Function `incCmd`: add `et` and `ec` to the own counters of a command; the record is
`ci` when given, else the ledger entry of `cmd`, created when absent. -/
def incCmd (s : Engine) (ci : Option Nat) (cmd : String) (et ec : Nat) : Nat × Engine :=
  let ci := match ci with
    | some c => some c
    | none => mapGet s.cmdInfos cmd
  match ci with
  | some c =>
    (c, setCmd s c { s.cmds c with ec := ((s.cmds c).ec + ec) % U64
                                   et := ((s.cmds c).et + et) % U64 })
  | none => newCmd s ⟨cmd, 0, 0, ec, et, 0⟩

/-- Part of `propagateStats`, lines 419-436: the record of `pid` is the one passed in,
else the registry entry, else a new record filled from `readProcStat`. -/
def resolveProc (proc : Int → Option (String × Int)) (s : Engine) (pi : Option Nat)
    (pid : Int) : Nat × Engine :=
  match pi with
  | some p => (p, s)
  | none =>
    match s.procInfos pid with
    | some p => (p, s)
    | none =>
      let r := readProcStat proc s pid
      let a := newProc r.2 ⟨pid, r.1.2, none, none, 0⟩
      match mapGet a.2.cmdInfos r.1.1 with
      | some c => (a.1, setProc a.2 a.1 { a.2.procs a.1 with ci := some c })
      | none =>
        let b := newCmd a.2 ⟨r.1.1, 0, 0, 0, 0, 0⟩
        (a.1, setProc b.2 a.1 { b.2.procs a.1 with ci := some b.1 })

/-- Part of `propagateStats`, lines 437-444: credit the subtree counters of the command
of record `p` unless its marker `spid` already names the source pid. -/
def creditSub (s : Engine) (spid : Int) (p : Nat) (et ec : Nat) : Engine :=
  match (s.procs p).ci with
  | none => s
  | some c =>
    if spid ≠ (s.cmds c).spid then
      setCmd s c { s.cmds c with subec := ((s.cmds c).subec + ec) % U64
                                 subet := ((s.cmds c).subet + et) % U64
                                 spid := spid }
    else s

/-- Function `propagateStats`: walk up the pid chain and add cpu and execution count to
the parent commands.  Returns the record of `pid` (`nil` at the root). -/
def propagateStats (proc : Int → Option (String × Int)) :
    Nat → Engine → Int → Option Nat → Int → Nat → Nat → Option (Option Nat × Engine)
  | 0, _, _, _, _, _, _ => none
  | fuel + 1, s, spid, pi, pid, et, ec =>
    if pid ≤ 1 then some (none, s)
    else
      let a := resolveProc proc s pi pid
      let s2 := creditSub a.2 spid a.1 et ec
      if (s2.procs a.1).ppid ≠ 0 then
        match (s2.procs a.1).ppi with
        | some q =>
          match propagateStats proc fuel s2 spid (some q) (s2.procs a.1).ppid et ec with
          | none => none
          | some r => some (some a.1, r.2)
        | none =>
          match propagateStats proc fuel s2 spid none (s2.procs a.1).ppid et ec with
          | none => none
          | some r => some (some a.1, setProc r.2 a.1 { r.2.procs a.1 with ppi := r.1 })
      else some (some a.1, s2)

/-- Function `goUpdateStats`: a cpu reading of a running process. -/
def goUpdateStats (proc : Int → Option (String × Int)) (fuel : Nat) (s : Engine)
    (pid ppid : Int) (cpu : Nat) (cmd : String) : Option Engine :=
  match s.procInfos pid with
  | some p =>
    let det := if s.initCpuCounters = true then 0
      else if cpu ≥ (s.procs p).cpu then cpu - (s.procs p).cpu
      else cpu
    let a := incCmd s (s.procs p).ci cmd det 0
    let s1 := setProc a.2 p { a.2.procs p with ci := some a.1 }
    match propagateStats proc fuel s1 pid (s1.procs p).ppi ppid det 0 with
    | none => none
    | some r => some (setProc r.2 p { r.2.procs p with ppi := r.1, cpu := cpu })
  | none =>
    let n := newProc s ⟨pid, ppid, none, none, cpu⟩
    let det := if s.initCpuCounters = true then 0 else cpu
    let a := incCmd n.2 none cmd det 1
    let s1 := setProc a.2 n.1 { a.2.procs n.1 with ci := some a.1 }
    match propagateStats proc fuel s1 pid none ppid det 1 with
    | none => none
    | some r => some (setProc r.2 n.1 { r.2.procs n.1 with ppi := r.1, cpu := cpu })

/-- Function `goExitStats`: the final cpu usage of a terminated process (the histogram
statements of lines 508-516 are embedded apart, as `exitHist`). -/
def goExitStats (proc : Int → Option (String × Int)) (fuel : Nat) (s : Engine)
    (pid ppid : Int) (cpu : Nat) (cmd : String) : Option Engine :=
  let s0 := { s with exitCount := (s.exitCount + 1) % U64 }
  match s0.procInfos pid with
  | none =>
    let a := incCmd s0 none cmd cpu 1
    match propagateStats proc fuel a.2 pid none ppid cpu 1 with
    | none => none
    | some r => some r.2
  | some p =>
    let s1 := { s0 with procInfos := Function.update s0.procInfos pid none }
    let a := incCmd s1 (s1.procs p).ci cmd cpu 1
    match propagateStats proc fuel a.2 pid (s1.procs p).ppi ppid cpu 1 with
    | none => none
    | some r => some r.2

/-- One answer to a stats request: the arguments of a `goUpdateStats` call. -/
structure Reading where
  pid : Int
  ppid : Int
  cpu : Nat
  cmd : String

/-- The answers read while one request is served, each handed to `goUpdateStats`. -/
def deliver (proc : Int → Option (String × Int)) (fuel : Nat) :
    Engine → List Reading → Option Engine
  | s, [] => some s
  | s, r :: rest =>
    match goUpdateStats proc fuel s r.pid r.ppid r.cpu r.cmd with
    | none => none
    | some s1 => deliver proc fuel s1 rest

/-- Function `updateLongLivedStats`: for every pid directory of `/proc` set
`initCpuCounters` and send one stats request; `scan` lists, per request, the
answers read while it is served. -/
def updateLongLivedStats (proc : Int → Option (String × Int)) (fuel : Nat) (init : Bool) :
    Engine → List (List Reading) → Option Engine
  | s, [] => some s
  | s, answers :: rest =>
    match deliver proc fuel { s with initCpuCounters := init } answers with
    | none => none
    | some s1 => updateLongLivedStats proc fuel init s1 rest

/-- Function `clearCounters`: start a new sample with both maps empty, then re-seed the
cpu counters of the running processes (`updateLongLivedStats(true)`). -/
def clearCounters (proc : Int → Option (String × Int)) (fuel : Nat) (s : Engine)
    (scan : List (List Reading)) : Option Engine :=
  updateLongLivedStats proc fuel true
    { s with sample := (s.sample + 1) % U64
             procInfos := fun _ => none
             cmdInfos := [] } scan

/-- The value `ui` a command is ranked by in `statsByCommand`. -/
def ownMetric (sortCriteria : SortCriteria) (ci : cmdInfo) : Nat :=
  match sortCriteria with
  | .scCount => ci.ec
  | .scTime => ci.et

/-- The value `ui` a command is ranked by in `statsSub`. -/
def subMetric (sortCriteria : SortCriteria) (ci : cmdInfo) : Nat :=
  match sortCriteria with
  | .scCount => ci.subec
  | .scTime => ci.subet

/-- Statement `n[ui] = append(n[ui], ci)` seen from the key side: `ui` becomes a key of
the map `n` unless it is one already. -/
def addKey (a : List Nat) (k : Nat) : List Nat :=
  if k ∈ a then a else a ++ [k]

/-- Call `sort.Sort(sort.Reverse(a))` on the keys: descending order. -/
def sortDesc (a : List Nat) : List Nat :=
  a.insertionSort (fun x y => y ≤ x)

/-- The display loop of `statsByCommand` and `statsSub`: print a line, `i++`,
stop once `i > top`.  Returns the commands printed, in order. -/
def printTop (top : Int) : Int → List cmdInfo → List cmdInfo
  | _, [] => []
  | i, ci :: rest => ci :: (if i + 1 > top then [] else printTop top (i + 1) rest)

/-- Function `statsByCommand`: the commands listed in the per-command section, in the
order of their lines.  The ledger is iterated in its list order; a command is
selected when its metric is not zero, grouped under the metric value, and the
groups are printed by descending value. -/
def statsByCommand (sortCriteria : SortCriteria) (top : Int) (s : Engine) : List cmdInfo :=
  let cis := s.cmdInfos.map (fun e => s.cmds e.2)
  let sel := cis.filter (fun ci => decide (ownMetric sortCriteria ci ≠ 0))
  let a := sortDesc (sel.foldl (fun a ci => addKey a (ownMetric sortCriteria ci)) [])
  printTop top 0 (a.flatMap (fun k => sel.filter (fun ci => decide (ownMetric sortCriteria ci = k))))

/-- Function `statsSub`: the commands listed in the subtree section; commands without
sub processes, the vanished bucket, `init` and `systemd` are skipped. -/
def statsSub (sortCriteria : SortCriteria) (top : Int) (s : Engine) : List cmdInfo :=
  let cis := s.cmdInfos.map (fun e => s.cmds e.2)
  let kept := cis.filter (fun ci =>
    !(decide (ci.subec = 0) || decide (ci.cmd = "") || decide (ci.cmd = "init")
      || decide (ci.cmd = "systemd")))
  let sel := kept.filter (fun ci => decide (subMetric sortCriteria ci ≠ 0))
  let a := sortDesc (sel.foldl (fun a ci => addKey a (subMetric sortCriteria ci)) [])
  printTop top 0 (a.flatMap (fun k => sel.filter (fun ci => decide (subMetric sortCriteria ci = k))))

/-- The two event shapes delivered by the kernel channel. -/
inductive Event where
  | update (pid ppid : Int) (cpu : Nat) (cmd : String)
  | exit (pid ppid : Int) (cpu : Nat) (cmd : String)

/-- Pid of the process an event is about. -/
def Event.pid : Event → Int
  | .update pid _ _ _ => pid
  | .exit pid _ _ _ => pid

/-- Dispatch one event to its handler. -/
def handle (proc : Int → Option (String × Int)) (fuel : Nat) (s : Engine) : Event → Option Engine
  | .update pid ppid cpu cmd => goUpdateStats proc fuel s pid ppid cpu cmd
  | .exit pid ppid cpu cmd => goExitStats proc fuel s pid ppid cpu cmd

/-- Process a sequence of events in order (the lock serialises the handlers). -/
def run (proc : Int → Option (String × Int)) (fuel : Nat) : Engine → List Event → Option Engine
  | s, [] => some s
  | s, e :: es =>
    match handle proc fuel s e with
    | none => none
    | some s1 => run proc fuel s1 es

/-- The ledger record of a command name, if any. -/
def ledger (s : Engine) (cmd : String) : Option cmdInfo :=
  (mapGet s.cmdInfos cmd).map s.cmds


/-- Number of doublings of the bound `b` needed to exceed `x`, at most `n`. -/
def dropFrom : Nat → Nat → Nat → Nat
  | 0, _, _ => 0
  | n + 1, b, x => if x < b then 0 else 1 + dropFrom n (2 * b) x

/-- Number of low bits of an unsigned 64-bit value that do not fit into the 53-bit
significand of a `float64`: 0 below `2^53`, up to 11 below `2^64`. -/
def dropBits (x : Nat) : Nat :=
  dropFrom 11 9007199254740992 x

/-- Go conversion `float64(x)` of an unsigned 64-bit value, given by the exact value
of the resulting double: `x` rounded to 53 significant bits, to nearest, ties to
even (values below `2^53` are kept). -/
def toFloat64 (x : Nat) : Nat :=
  let q := x / 2 ^ dropBits x
  let r := x % 2 ^ dropBits x
  if 2 ^ dropBits x < 2 * r ∨ (2 * r = 2 ^ dropBits x ∧ q % 2 = 1) then
    (q + 1) * 2 ^ dropBits x
  else q * 2 ^ dropBits x

/-- The histogram statements of `goExitStats` (lines 508-516) on the array `ehist`:
a zero `ccpu` is bumped to 1; with `hist` set, the bucket `int(math.Log10(float64(ccpu)))`
is incremented.  The parameter `ilog10` stands for `int(math.Log10(f))` on the
double of exact value `f`; an index outside the 32 buckets is a run-time panic
(`none`). -/
def exitHist (ilog10 : Nat → Int) (hist : Bool) (ehist : Nat → Nat) (ccpu : Nat) :
    Option (Nat → Nat) :=
  let ccpu := if ccpu = 0 then ccpu + 1 else ccpu
  if hist = true then
    let i := ilog10 (toFloat64 ccpu)
    if 0 ≤ i ∧ i < 32 then
      some (Function.update ehist i.toNat ((ehist i.toNat + 1) % U64))
    else none
  else some ehist

/-- The histogram after one event: `goUpdateStats` has no statement on `ehist`,
`goExitStats` runs `exitHist` on the cpu value of the event. -/
def histStep (ilog10 : Nat → Int) (hist : Bool) (ehist : Nat → Nat) : Event → Option (Nat → Nat)
  | .update _ _ _ _ => some ehist
  | .exit _ _ cpu _ => exitHist ilog10 hist ehist cpu
/-- Well-formed heap: every stored address refers to an allocated object and
every registry key is the pid of its record. -/
structure WF (s : Engine) : Prop where
  hmap : ∀ k p, s.procInfos k = some p → p < s.nprocs
  hkey : ∀ k p, s.procInfos k = some p → (s.procs p).pid = k
  hppi : ∀ p q, p < s.nprocs → (s.procs p).ppi = some q → q < s.nprocs
  hci : ∀ p c, p < s.nprocs → (s.procs p).ci = some c → c < s.ncmds
  hled : ∀ k c, mapGet s.cmdInfos k = some c → c < s.ncmds
  hu64 : ∀ c, c < s.ncmds → (s.cmds c).ec < U64 ∧ (s.cmds c).et < U64 ∧
    (s.cmds c).subec < U64 ∧ (s.cmds c).subet < U64

/-- The ledger lists every allocated command record, in allocation order. -/
def LedgerInv (s : Engine) : Prop :=
  s.cmdInfos.map Prod.snd = List.range s.ncmds

/-- The metadata lookup describes an acyclic process tree: `rank` decreases
from a process to its parent. -/
def Acyclic (rank : Int → Nat) (proc : Int → Option (String × Int)) : Prop :=
  ∀ pid r, proc pid = some r → 1 < r.2 → rank r.2 < rank pid

/-- The parent links stored in the heap agree with the same `rank`. -/
structure Ranked (rank : Int → Nat) (s : Engine) : Prop where
  hobj : ∀ x, x < s.nprocs → 1 < (s.procs x).ppid →
    rank (s.procs x).ppid < rank (s.procs x).pid
  hlink : ∀ x q, x < s.nprocs → (s.procs x).ppi = some q →
    rank (s.procs q).pid < rank (s.procs x).pid

/-- Subtree counters and marker of a command address, a not yet allocated
address counting as a fresh record. -/
def subView (s : Engine) (c : Nat) : Nat × Nat × Int :=
  if c < s.ncmds then ((s.cmds c).subec, (s.cmds c).subet, (s.cmds c).spid) else (0, 0, 0)

/-- Own counters of a command address, zero when not yet allocated. -/
def ownView (s : Engine) (c : Nat) : Nat × Nat :=
  if c < s.ncmds then ((s.cmds c).ec, (s.cmds c).et) else (0, 0)

/-- What one walk of `propagateStats` with source `spid` and deltas `et`, `ec`
may have done to the state. -/
structure Ext (proc : Int → Option (String × Int)) (spid : Int) (et ec : Nat)
    (s s' : Engine) : Prop where
  nprocs_le : s.nprocs ≤ s'.nprocs
  ncmds_le : s.ncmds ≤ s'.ncmds
  map_mono : ∀ k p, s.procInfos k = some p → s'.procInfos k = some p
  led_mono : ∀ k c, mapGet s.cmdInfos k = some c → mapGet s'.cmdInfos k = some c
  led_new : ∀ k c, mapGet s'.cmdInfos k = some c →
    mapGet s.cmdInfos k = some c ∨ (mapGet s.cmdInfos k = none ∧ s.ncmds ≤ c)
  proc_old : ∀ p, p < s.nprocs → (s'.procs p).pid = (s.procs p).pid ∧
    (s'.procs p).ppid = (s.procs p).ppid ∧ (s'.procs p).ci = (s.procs p).ci ∧
    (s'.procs p).cpu = (s.procs p).cpu
  ppi_some : ∀ p q, p < s.nprocs → (s.procs p).ppi = some q → (s'.procs p).ppi = some q
  ppi_none : ∀ p, (p < s.nprocs → (s.procs p).ppi = none) → p < s'.nprocs →
    (s'.procs p).ppi = none ∨
      ∃ q, (s'.procs p).ppi = some q ∧ s'.procInfos (s'.procs p).ppid = some q
  cmd_old : ∀ c, c < s.ncmds → (s'.cmds c).cmd = (s.cmds c).cmd
  own : ∀ c, ownView s' c = ownView s c
  sub : ∀ c, subView s' c = subView s c ∨
    ((subView s c).2.2 ≠ spid ∧
      subView s' c = (((subView s c).1 + ec) % U64, ((subView s c).2.1 + et) % U64, spid))
  flags : s'.initCpuCounters = s.initCpuCounters ∧ s'.exitCount = s.exitCount ∧
    s'.sample = s.sample
  wf : WF s → WF s'
  linv : WF s → LedgerInv s → LedgerInv s'
  rk : ∀ rank, Acyclic rank proc → WF s → Ranked rank s → Ranked rank s'

/-- The chain from `(pi, pid)` is fully resolved and every command on it
already carries the marker `spid`: a further walk has nothing left to do. -/
def Settled (s : Engine) (spid : Int) : Nat → Option Nat → Int → Prop
  | 0, _, _ => False
  | n + 1, pi, pid =>
    pid ≤ 1 ∨ ∃ p, (pi = some p ∨ (pi = none ∧ s.procInfos pid = some p)) ∧
      (∀ c, (s.procs p).ci = some c → (s.cmds c).spid = spid) ∧
      ((s.procs p).ppid = 0 ∨ ((s.procs p).ppi = none ∧ (s.procs p).ppid ≤ 1 ∧ 0 < n) ∨
        ∃ q, (s.procs p).ppi = some q ∧ Settled s spid n (some q) (s.procs p).ppid)

/-- What `incCmd` does: the record `c` it credits and the state it leaves. -/
structure Inc (s : Engine) (ci : Option Nat) (cmd : String) (et ec : Nat) (c : Nat)
    (s' : Engine) : Prop where
  target : c < s'.ncmds
  given : ∀ c', ci = some c' → c = c'
  named : ci = none → mapGet s'.cmdInfos cmd = some c
  fresh : ci = none → mapGet s.cmdInfos cmd = none → c = s.ncmds
  procs_eq : s'.procs = s.procs
  nprocs_eq : s'.nprocs = s.nprocs
  map_eq : s'.procInfos = s.procInfos
  flags : s'.initCpuCounters = s.initCpuCounters ∧ s'.exitCount = s.exitCount ∧
    s'.sample = s.sample
  ncmds_le : s.ncmds ≤ s'.ncmds
  led_mono : ∀ k c', mapGet s.cmdInfos k = some c' → mapGet s'.cmdInfos k = some c'
  led_new : ∀ k c', mapGet s'.cmdInfos k = some c' →
    mapGet s.cmdInfos k = some c' ∨ (mapGet s.cmdInfos k = none ∧ s.ncmds ≤ c')
  cmd_old : ∀ c', c' < s.ncmds → (s'.cmds c').cmd = (s.cmds c').cmd
  own_target : ownView s' c = (((ownView s c).1 + ec) % U64, ((ownView s c).2 + et) % U64)
  own_other : ∀ c', c' ≠ c → ownView s' c' = ownView s c'
  sub : ∀ c', subView s' c' = subView s c'
  wf : WF s'
  linv : LedgerInv s → LedgerInv s'

/-- State of `goExitStats` before `incCmd`: exit counted, registry entry removed. -/
def exitPre (s : Engine) (pid : Int) : Engine :=
  { s with exitCount := (s.exitCount + 1) % U64
           procInfos := Function.update s.procInfos pid none }

/-- The command record cached in the registry record of `pid`, if any. -/
def cachedCi (s : Engine) (pid : Int) : Option Nat :=
  (s.procInfos pid).bind (fun p => (s.procs p).ci)

/-- The parent link cached in the registry record of `pid`, if any. -/
def cachedPpi (s : Engine) (pid : Int) : Option Nat :=
  (s.procInfos pid).bind (fun p => (s.procs p).ppi)

/-- A process table with the chain 5 → 6 → root, used in the examples. -/
def chainProc : Int → Option (String × Int) := fun p =>
  if p = 5 then some ("b", 6) else if p = 6 then some ("c", 1) else none

/-- Whether an event is an `Exit`. -/
def Event.isExit : Event → Bool
  | .exit _ _ _ _ => true
  | .update _ _ _ _ => false

/-- Sum of the own execution counts `ec` over all entries of the ledger. -/
def sumOwnEc (s : Engine) : Nat :=
  (s.cmdInfos.map (fun e => (s.cmds e.2).ec)).sum

/-- Sum of `f` over the addresses below `n`. -/
def rsum (f : Nat → Nat) (n : Nat) : Nat :=
  ((List.range n).map f).sum

/-- Cumulative cpu time carried by an event. -/
def Event.cpu : Event → Nat
  | .update _ _ cpu _ => cpu
  | .exit _ _ cpu _ => cpu

/-- The delta of an `Update` event as the specification words it: zero on a
window-reset re-seed; the whole value for a pid not in the registry; otherwise
the difference to the stored value, or the whole value when it decreased. -/
def specDelta (reseed : Bool) (stored : Option Nat) (c : Nat) : Nat :=
  if reseed = true then 0
  else match stored with
    | none => c
    | some p => if p ≤ c then c - p else c

/-- The cumulative cpu value stored in the registry record of `pid`, if any. -/
def storedCpu (s : Engine) (pid : Int) : Option Nat :=
  (s.procInfos pid).map (fun p => (s.procs p).cpu)

/-- The count `goUpdateStats` hands to `incCmd` and `propagateStats`: 0 for a
pid in the registry, 1 for a pid seen for the first time. -/
def updCnt (s : Engine) (pid : Int) : Nat :=
  if (s.procInfos pid).isSome then 0 else 1

/-- State and record of `goUpdateStats` before `incCmd`: the registry record of
`pid`, created when absent. -/
def updPre (s : Engine) (pid ppid : Int) (cpu : Nat) : Nat × Engine :=
  match s.procInfos pid with
  | some p => (p, s)
  | none => newProc s ⟨pid, ppid, none, none, cpu⟩

/-- What one `Update` event does to the state: `p` is the registry record of
the pid and `c0` the command record credited. -/
structure Upd (s : Engine) (pid : Int) (cpu : Nat) (cmd : String) (s' : Engine)
    (p c0 : Nat) : Prop where
  reg : s'.procInfos pid = some p
  rec_cpu : (s'.procs p).cpu = cpu
  rec_ci : (s'.procs p).ci = some c0
  rec_old : s.procInfos pid = some p ∨ (s.procInfos pid = none ∧ p = s.nprocs)
  target : c0 < s'.ncmds
  target_src : cachedCi s pid = some c0 ∨
    (cachedCi s pid = none ∧ mapGet s'.cmdInfos cmd = some c0)
  own_target : ownView s' c0 = (((ownView s c0).1 + updCnt s pid) % U64,
    ((ownView s c0).2 + specDelta s.initCpuCounters (storedCpu s pid) cpu) % U64)
  own_other : ∀ c, c ≠ c0 → ownView s' c = ownView s c
  sub : ∀ c, subView s' c = subView s c ∨
    ((subView s c).2.2 ≠ pid ∧
      subView s' c = (((subView s c).1 + updCnt s pid) % U64,
        ((subView s c).2.1 + specDelta s.initCpuCounters (storedCpu s pid) cpu) % U64, pid))
  nprocs_le : s.nprocs ≤ s'.nprocs
  ncmds_le : s.ncmds ≤ s'.ncmds
  map_mono : ∀ k x, s.procInfos k = some x → s'.procInfos k = some x
  other_cpu : ∀ x, x < s.nprocs → x ≠ p → (s'.procs x).cpu = (s.procs x).cpu
  led_mono : ∀ k c, mapGet s.cmdInfos k = some c → mapGet s'.cmdInfos k = some c
  led_new : ∀ k c, mapGet s'.cmdInfos k = some c →
    mapGet s.cmdInfos k = some c ∨ (mapGet s.cmdInfos k = none ∧ s.ncmds ≤ c)
  flags : s'.initCpuCounters = s.initCpuCounters ∧ s'.exitCount = s.exitCount ∧
    s'.sample = s.sample
  wf : WF s'
  linv : LedgerInv s → LedgerInv s'

/-- The state after `k` consecutive invocations of `propagateStats` with the
same source pid, start and deltas. -/
def repeatWalk (proc : Int → Option (String × Int)) (fuel : Nat) (spid : Int)
    (pi : Option Nat) (pid : Int) (et ec : Nat) : Nat → Engine → Option Engine
  | 0, s => some s
  | k + 1, s =>
    match propagateStats proc fuel s spid pi pid et ec with
    | none => none
    | some r => repeatWalk proc fuel spid pi pid et ec k r.2

/-- Subtree count and time of a command name, zero when it has no ledger entry. -/
def subTotals (s : Engine) (cmd : String) : Nat × Nat :=
  match ledger s cmd with
  | some r => (r.subec, r.subet)
  | none => (0, 0)

/-- The command records one walk of `propagateStats` reaches: `pi.ci` of every
process record it visits, in the order of the walk (the same descent as
`propagateStats`, without the return path). -/
def walkedCmds (proc : Int → Option (String × Int)) :
    Nat → Engine → Int → Option Nat → Int → Nat → Nat → List Nat
  | 0, _, _, _, _, _, _ => []
  | fuel + 1, s, spid, pi, pid, et, ec =>
    if pid ≤ 1 then []
    else
      let a := resolveProc proc s pi pid
      let s2 := creditSub a.2 spid a.1 et ec
      (match (s2.procs a.1).ci with
        | some c => [c]
        | none => []) ++
      (if (s2.procs a.1).ppid ≠ 0 then
        walkedCmds proc fuel s2 spid (s2.procs a.1).ppi (s2.procs a.1).ppid et ec
      else [])

/-- Handler `goExitStats` up to the walk: the command record credited for the process
itself and the state in which the walk starts. -/
def exitOwn (s : Engine) (pid : Int) (cpu : Nat) (cmd : String) : Nat × Engine :=
  incCmd (exitPre s pid) (cachedCi s pid) cmd cpu 1

/-- Handler `goUpdateStats` up to the walk: the command record credited for the process
itself and the state in which the walk starts. -/
def updOwn (s : Engine) (pid ppid : Int) (cpu : Nat) (cmd : String) : Nat × Engine :=
  let u := updPre s pid ppid cpu
  let a := incCmd u.2 (u.2.procs u.1).ci cmd
    (specDelta s.initCpuCounters (storedCpu s pid) cpu) (updCnt s pid)
  (a.1, setProc a.2 u.1 { a.2.procs u.1 with ci := some a.1 })

/-- Command records of the ancestors walked by an `Exit` event. -/
def exitAncestors (proc : Int → Option (String × Int)) (fuel : Nat) (s : Engine)
    (pid ppid : Int) (cpu : Nat) (cmd : String) : List Nat :=
  walkedCmds proc fuel (exitOwn s pid cpu cmd).2 pid (cachedPpi s pid) ppid cpu 1

/-- Command records of the ancestors walked by an `Update` event. -/
def updAncestors (proc : Int → Option (String × Int)) (fuel : Nat) (s : Engine)
    (pid ppid : Int) (cpu : Nat) (cmd : String) : List Nat :=
  walkedCmds proc fuel (updOwn s pid ppid cpu cmd).2 pid (cachedPpi s pid) ppid
    (specDelta s.initCpuCounters (storedCpu s pid) cpu) (updCnt s pid)

/-- The cumulative value last read for `pid` in a sequence of readings. -/
def lastCpu : List Reading → Int → Option Nat
  | [], _ => none
  | r :: rest, pid =>
    match lastCpu rest pid with
    | some c => some c
    | none => if r.pid = pid then some r.cpu else none

/-- Invariant of a re-seed: the ledger holds only records allocated since the
reset (addresses from `n0` on) and these carry no execution time. -/
structure Reseeded (n0 : Nat) (s : Engine) : Prop where
  wf : WF s
  base : n0 ≤ s.ncmds
  led : ∀ k c, mapGet s.cmdInfos k = some c → n0 ≤ c
  zero : ∀ c, n0 ≤ c → (ownView s c).2 = 0 ∧ (subView s c).2.1 = 0

/-- What the metadata lookup yields for a pid: the pair `readProcStat` returns, a
failed read giving `("", -1)`. -/
def lookupOf (proc : Int → Option (String × Int)) (pid : Int) : String × Int :=
  match proc pid with
  | some r => r
  | none => ("", -1)

/-- The pids a walk from `pid` visits when the records agree with the lookup:
`pid` and its ancestors up to the first pid `≤ 1` or parent pid `0`, within the
recursion budget. -/
def chainPids (proc : Int → Option (String × Int)) : Nat → Int → List Int
  | 0, _ => []
  | fuel + 1, pid =>
    if pid ≤ 1 then []
    else pid :: (if (lookupOf proc pid).2 ≠ 0 then chainPids proc fuel (lookupOf proc pid).2
      else [])

/-- The command names the lookup gives for the pids of `chainPids`. -/
def chainNames (proc : Int → Option (String × Int)) : Nat → Int → List String
  | 0, _ => []
  | fuel + 1, pid =>
    if pid ≤ 1 then []
    else (lookupOf proc pid).1 ::
      (if (lookupOf proc pid).2 ≠ 0 then chainNames proc fuel (lookupOf proc pid).2 else [])

/-- Own count and time of a command name, zero when it has no ledger entry. -/
def ownTotals (s : Engine) (cmd : String) : Nat × Nat :=
  match ledger s cmd with
  | some r => (r.ec, r.et)
  | none => (0, 0)

/-- Subtree counters and marker of a command name, those of a fresh record when
it has no ledger entry. -/
def subByName (s : Engine) (cmd : String) : Nat × Nat × Int :=
  match mapGet s.cmdInfos cmd with
  | some c => subView s c
  | none => (0, 0, 0)

/-- Parent pid carried by an event. -/
def Event.ppid : Event → Int
  | .update _ ppid _ _ => ppid
  | .exit _ ppid _ _ => ppid

/-- Command name carried by an event. -/
def Event.cmd : Event → String
  | .update _ _ _ cmd => cmd
  | .exit _ _ _ cmd => cmd

/-- The pid the walk of an event starts from in state `s`.  With a parent pid of
at most 1 there is no walk.  Else `propagateStats` is handed the parent link
cached in the registry record of the pid and, given one, walks from the record
it leads to, whatever parent pid the event carries. -/
def Event.start (s : Engine) (e : Event) : Int :=
  if e.ppid ≤ 1 then e.ppid
  else match cachedPpi s e.pid with
    | some q => (s.procs q).pid
    | none => e.ppid

/-- The name of the command record `incCmd` credits: the name of the record given,
else the name given. -/
def creditName (s : Engine) (ci : Option Nat) (cmd : String) : String :=
  match ci with
  | some c => (s.cmds c).cmd
  | none => cmd

/-- The command name an event credits in state `s`: the name of the command
record cached for its pid when there is one, else the name the event carries. -/
def Event.ownName (s : Engine) (e : Event) : String :=
  creditName s (cachedCi s e.pid) e.cmd

/-- The count an event hands to `incCmd` and `propagateStats` in state `s`: 1 for an
`Exit`, and for an `Update` 1 or 0 as its pid is new or in the registry. -/
def Event.count (s : Engine) : Event → Nat
  | .update pid _ _ _ => updCnt s pid
  | .exit _ _ _ _ => 1

/-- The time an event hands to `incCmd` and `propagateStats` in state `s`: the cpu
value of an `Exit`, the delta of an `Update`. -/
def Event.delta (s : Engine) : Event → Nat
  | .update pid _ cpu _ => specDelta s.initCpuCounters (storedCpu s pid) cpu
  | .exit _ _ cpu _ => cpu

/-- Every ledger entry leads to a command record of that name. -/
structure Named (s : Engine) : Prop where
  key : ∀ k c, mapGet s.cmdInfos k = some c → (s.cmds c).cmd = k

/-- The process records in use agree with the metadata lookup.  The records in
use are those from address `n0` on (what `clearCounters` left behind lies
below): the registry and the cached parent links lead to such records only, and
the command record of each is the ledger entry of its name, and a cached parent
link leads to the record of a pid above 1.  Except for the records of the pids
in `L`, parent pid and command are what the lookup gives for the pid of the
record, and a cached parent link leads to a record of that parent pid. -/
structure Agrees (proc : Int → Option (String × Int)) (L : List Int) (n0 : Nat)
    (s : Engine) : Prop where
  base : n0 ≤ s.nprocs
  reg : ∀ k x, s.procInfos k = some x → n0 ≤ x
  up : ∀ x y, n0 ≤ x → x < s.nprocs → (s.procs x).ppi = some y → n0 ≤ y
  cin : ∀ x c, n0 ≤ x → x < s.nprocs → (s.procs x).ci = some c →
    mapGet s.cmdInfos (s.cmds c).cmd = some c
  ppid : ∀ x, n0 ≤ x → x < s.nprocs → (s.procs x).pid ∉ L →
    (s.procs x).ppid = (lookupOf proc (s.procs x).pid).2
  ci : ∀ x, n0 ≤ x → x < s.nprocs → (s.procs x).pid ∉ L →
    ∃ c, (s.procs x).ci = some c ∧ (s.cmds c).cmd = (lookupOf proc (s.procs x).pid).1
  link : ∀ x y, n0 ≤ x → x < s.nprocs → (s.procs x).pid ∉ L → (s.procs x).ppi = some y →
    (s.procs y).pid = (s.procs x).ppid
  par : ∀ x y, n0 ≤ x → x < s.nprocs → (s.procs x).ppi = some y → 1 < (s.procs y).pid

/-- Totals `(count, time)` after one event: credited with the count and the time
of the event when `sel` selects it. -/
def creditIf (cnt det : Event → Nat) (sel : Event → Bool) (t : Nat × Nat) (e : Event) :
    Nat × Nat :=
  if sel e = true then ((t.1 + cnt e) % U64, (t.2 + det e) % U64) else t

/-- Totals after the events of a list, each credited through `creditIf`. -/
def creditAll (cnt det : Event → Nat) (sel : Event → Bool) (evs : List Event)
    (t : Nat × Nat) : Nat × Nat :=
  evs.foldl (creditIf cnt det sel) t

/-- A rank for the process table `chainProc`: the root side lowest. -/
def chainRank (k : Int) : Nat :=
  if k = 6 then 0 else if k = 5 then 1 else 2

/-- The process table `chainProc` with an entry for pid 10, command "a" below
pid 5: what the records say once pid 10 has been registered by an `Update`. -/
def chainView : Int → Option (String × Int) := fun p =>
  if p = 10 then some ("a", 5) else chainProc p
theorem mapGet_mapPut (m : List (String × Nat)) (k k' : String) (v : Nat) :
    mapGet (mapPut m k v) k' = if k = k' then some v else mapGet m k' := by
  induction m with
  | nil => simp [mapPut, mapGet]
  | cons h t ih =>
    obtain ⟨a, b⟩ := h
    by_cases h1 : a = k
    · subst h1
      by_cases h2 : a = k' <;> simp [mapPut, mapGet, h2]
    · by_cases h2 : a = k'
      · subst h2
        simp [mapPut, mapGet, h1, Ne.symm h1]
      · simp [mapPut, mapGet, h1, h2, ih]

theorem mapPut_of_none (m : List (String × Nat)) (k : String) (v : Nat)
    (h : mapGet m k = none) : mapPut m k v = m ++ [(k, v)] := by
  induction m with
  | nil => rfl
  | cons e t ih =>
    obtain ⟨a, b⟩ := e
    by_cases h1 : a = k
    · simp [mapGet, h1] at h
    · simp only [mapGet, h1, if_false] at h
      simp [mapPut, h1, ih h]

theorem Ext.refl (proc : Int → Option (String × Int)) (spid : Int) (et ec : Nat)
    (s : Engine) : Ext proc spid et ec s s where
  nprocs_le := le_refl _
  ncmds_le := le_refl _
  map_mono := fun _ _ h => h
  led_mono := fun _ _ h => h
  led_new := fun _ _ h => Or.inl h
  proc_old := fun _ _ => ⟨rfl, rfl, rfl, rfl⟩
  ppi_some := fun _ _ _ h => h
  ppi_none := fun _ h hp => Or.inl (h hp)
  cmd_old := fun _ _ => rfl
  own := fun _ => rfl
  sub := fun _ => Or.inl rfl
  flags := ⟨rfl, rfl, rfl⟩
  wf := fun h => h
  linv := fun _ h => h
  rk := fun _ _ _ h => h

theorem Ext.trans {proc : Int → Option (String × Int)} {spid : Int} {et ec : Nat}
    {s s1 s2 : Engine} (h1 : Ext proc spid et ec s s1) (h2 : Ext proc spid et ec s1 s2) :
    Ext proc spid et ec s s2 where
  nprocs_le := le_trans h1.nprocs_le h2.nprocs_le
  ncmds_le := le_trans h1.ncmds_le h2.ncmds_le
  map_mono := fun k p h => h2.map_mono k p (h1.map_mono k p h)
  led_mono := fun k c h => h2.led_mono k c (h1.led_mono k c h)
  led_new := fun k c h => by
    rcases h2.led_new k c h with a | ⟨a, b⟩
    · exact h1.led_new k c a
    · right
      constructor
      · cases hk : mapGet s.cmdInfos k with
        | none => rfl
        | some c' => rw [h1.led_mono k c' hk] at a; cases a
      · exact le_trans h1.ncmds_le b
  proc_old := fun p hp => by
    have a := h1.proc_old p hp
    have b := h2.proc_old p (lt_of_lt_of_le hp h1.nprocs_le)
    exact ⟨b.1.trans a.1, b.2.1.trans a.2.1, b.2.2.1.trans a.2.2.1, b.2.2.2.trans a.2.2.2⟩
  ppi_some := fun p q hp h =>
    h2.ppi_some p q (lt_of_lt_of_le hp h1.nprocs_le) (h1.ppi_some p q hp h)
  ppi_none := fun p h hp => by
    by_cases hp1 : p < s1.nprocs
    · rcases h1.ppi_none p h hp1 with hn | ⟨q, hq, hm⟩
      · exact h2.ppi_none p (fun _ => hn) hp
      · refine Or.inr ⟨q, h2.ppi_some p q hp1 hq, ?_⟩
        rw [(h2.proc_old p hp1).2.1]
        exact h2.map_mono _ _ hm
    · exact h2.ppi_none p (fun h' => absurd h' hp1) hp
  cmd_old := fun c hc => (h2.cmd_old c (lt_of_lt_of_le hc h1.ncmds_le)).trans (h1.cmd_old c hc)
  own := fun c => (h2.own c).trans (h1.own c)
  sub := fun c => by
    rcases h1.sub c with a | ⟨a1, a2⟩
    · rcases h2.sub c with b | ⟨b1, b2⟩
      · exact Or.inl (b.trans a)
      · rw [a] at b1 b2
        exact Or.inr ⟨b1, b2⟩
    · rcases h2.sub c with b | ⟨b1, _⟩
      · exact Or.inr ⟨a1, b.trans a2⟩
      · rw [a2] at b1
        exact absurd rfl b1
  flags := ⟨h2.flags.1.trans h1.flags.1, h2.flags.2.1.trans h1.flags.2.1,
    h2.flags.2.2.trans h1.flags.2.2⟩
  wf := fun h => h2.wf (h1.wf h)
  linv := fun hw h => h2.linv (h1.wf hw) (h1.linv hw h)
  rk := fun rank ha hw h => h2.rk rank ha (h1.wf hw) (h1.rk rank ha hw h)

theorem subView_congr {s s' : Engine} (h1 : s'.ncmds = s.ncmds) (h2 : s'.cmds = s.cmds)
    (c : Nat) : subView s' c = subView s c := by
  simp [subView, h1, h2]

theorem ownView_congr {s s' : Engine} (h1 : s'.ncmds = s.ncmds) (h2 : s'.cmds = s.cmds)
    (c : Nat) : ownView s' c = ownView s c := by
  simp [ownView, h1, h2]

/-- A step that touches neither heap nor map is within the frame. -/
theorem Ext.of_same (proc : Int → Option (String × Int)) (spid : Int) (et ec : Nat)
    {s s' : Engine} (h1 : s'.procs = s.procs) (h2 : s'.nprocs = s.nprocs)
    (h3 : s'.cmds = s.cmds) (h4 : s'.ncmds = s.ncmds) (h5 : s'.procInfos = s.procInfos)
    (h6 : s'.cmdInfos = s.cmdInfos)
    (h7 : s'.initCpuCounters = s.initCpuCounters ∧ s'.exitCount = s.exitCount ∧
      s'.sample = s.sample) : Ext proc spid et ec s s' where
  nprocs_le := by rw [h2]
  ncmds_le := by rw [h4]
  map_mono := fun _ _ h => by rw [h5]; exact h
  led_mono := fun _ _ h => by rw [h6]; exact h
  led_new := fun _ _ h => by rw [h6] at h; exact Or.inl h
  proc_old := fun _ _ => by rw [h1]; exact ⟨rfl, rfl, rfl, rfl⟩
  ppi_some := fun _ _ _ h => by rw [h1]; exact h
  ppi_none := fun p h hp => by rw [h1]; rw [h2] at hp; exact Or.inl (h hp)
  cmd_old := fun _ _ => by rw [h3]
  own := fun c => ownView_congr h4 h3 c
  sub := fun c => Or.inl (subView_congr h4 h3 c)
  flags := h7
  wf := fun h => by
    constructor
    · rw [h5, h2]; exact h.hmap
    · rw [h5, h1]; exact h.hkey
    · rw [h2, h1]; exact h.hppi
    · rw [h2, h1, h4]; exact h.hci
    · rw [h6, h4]; exact h.hled
    · rw [h4, h3]; exact h.hu64
  linv := fun _ h => by
    unfold LedgerInv at *
    rw [h6, h4]; exact h
  rk := fun rank _ _ h => by
    constructor
    · rw [h2, h1]; exact h.hobj
    · rw [h2, h1]; exact h.hlink

/-- Frame of allocating a command record for a name not yet in the ledger. -/
theorem newCmd_ext (proc : Int → Option (String × Int)) (spid : Int) (et ec : Nat)
    (s : Engine) (name : String) (h1 : mapGet s.cmdInfos name = none) :
    Ext proc spid et ec s (newCmd s ⟨name, 0, 0, 0, 0, 0⟩).2 := by
  simp only [newCmd]
  constructor
  · exact le_refl _
  · exact Nat.le_succ _
  · exact fun _ _ h => h
  · intro k c hk
    simp only [mapGet_mapPut]
    split
    · next h => subst h; rw [h1] at hk; cases hk
    · exact hk
  · intro k c hk
    simp only [mapGet_mapPut] at hk
    split at hk
    · next h =>
      subst h
      cases hk
      exact Or.inr ⟨h1, le_refl _⟩
    · exact Or.inl hk
  · exact fun _ _ => ⟨rfl, rfl, rfl, rfl⟩
  · exact fun _ _ _ h => h
  · exact fun _ h hp => Or.inl (h hp)
  · intro c hc
    have : c ≠ s.ncmds := by omega
    simp [Function.update_apply, this]
  · intro c
    simp only [ownView, Function.update_apply]
    by_cases h : c = s.ncmds
    · simp [h]
    · by_cases h' : c < s.ncmds
      · have : c < s.ncmds + 1 := by omega
        simp [h, h', this]
      · have : ¬ c < s.ncmds + 1 := by omega
        simp [h', this]
  · intro c
    left
    simp only [subView, Function.update_apply]
    by_cases h : c = s.ncmds
    · simp [h]
    · by_cases h' : c < s.ncmds
      · have : c < s.ncmds + 1 := by omega
        simp [h, h', this]
      · have : ¬ c < s.ncmds + 1 := by omega
        simp [h', this]
  · exact ⟨rfl, rfl, rfl⟩
  · intro hwf
    constructor
    · exact hwf.hmap
    · exact hwf.hkey
    · exact hwf.hppi
    · intro p c hp hc
      have := hwf.hci p c hp hc
      simp only; omega
    · intro k c hk
      simp only [mapGet_mapPut] at hk ⊢
      split at hk
      · cases hk; omega
      · have := hwf.hled k c hk; omega
    · intro c hc
      simp only [Function.update_apply] at hc ⊢
      by_cases h : c = s.ncmds
      · simp [h, U64]
      · simp only [h, if_false]
        exact hwf.hu64 c (by omega)
  · intro _ hl
    unfold LedgerInv at *
    simp only [mapPut_of_none _ _ _ h1, List.map_append, List.map_cons, List.map_nil, hl,
      List.range_succ]
  · intro rank _ _ h
    exact ⟨h.hobj, h.hlink⟩

/-- Allocating a process record for a pid not yet in the registry keeps the
heap well-formed. -/
theorem newProc_wf (s : Engine) (r : procInfo) (h2 : r.ppi = none)
    (h3 : ∀ c, r.ci = some c → c < s.ncmds) (hwf : WF s) : WF (newProc s r).2 := by
  simp only [newProc]
  constructor
  · intro k p hk
    simp only [Function.update_apply] at hk ⊢
    split at hk
    · cases hk; omega
    · have := hwf.hmap k p hk; omega
  · intro k p hk
    simp only [Function.update_apply] at hk ⊢
    split at hk
    · next h => cases hk; simp [h]
    · have h5 := hwf.hmap k p hk
      have : p ≠ s.nprocs := by omega
      simp only [this, if_false]
      exact hwf.hkey k p hk
  · intro p q hp hq
    simp only [Function.update_apply] at hp hq ⊢
    by_cases h : p = s.nprocs
    · simp [h, h2] at hq
    · simp only [h, if_false] at hq
      have := hwf.hppi p q (by omega) hq; omega
  · intro p c hp hq
    simp only [Function.update_apply] at hp hq ⊢
    by_cases h : p = s.nprocs
    · simp only [h, if_true] at hq
      exact h3 c hq
    · simp only [h, if_false] at hq
      exact hwf.hci p c (by omega) hq
  · exact hwf.hled
  · exact hwf.hu64

/-- Allocating a process record whose parent has a smaller rank keeps the
heap ranked. -/
theorem newProc_ranked (rank : Int → Nat) (s : Engine) (r : procInfo) (h2 : r.ppi = none)
    (h4 : 1 < r.ppid → rank r.ppid < rank r.pid) (hwf : WF s) (h : Ranked rank s) :
    Ranked rank (newProc s r).2 := by
  simp only [newProc]
  constructor
  · intro x hx hlt
    simp only [Function.update_apply] at hx hlt ⊢
    by_cases hh : x = s.nprocs
    · simp only [hh, if_true] at hlt ⊢
      exact h4 hlt
    · simp only [hh, if_false] at hlt ⊢
      exact h.hobj x (by omega) hlt
  · intro x q hx hq
    simp only [Function.update_apply] at hx hq ⊢
    by_cases hh : x = s.nprocs
    · simp [hh, h2] at hq
    · simp only [hh, if_false] at hq ⊢
      have hq' := hwf.hppi x q (by omega) hq
      have : q ≠ s.nprocs := by omega
      simp only [this, if_false]
      exact h.hlink x q (by omega) hq

/-- Frame of allocating a process record for a pid not yet in the registry. -/
theorem newProc_ext (proc : Int → Option (String × Int)) (spid : Int) (et ec : Nat)
    (s : Engine) (r : procInfo) (h1 : s.procInfos r.pid = none) (h2 : r.ppi = none)
    (h3 : ∀ c, r.ci = some c → c < s.ncmds)
    (h4 : ∀ rank, Acyclic rank proc → 1 < r.ppid → rank r.ppid < rank r.pid)
    (hwf : WF s) :
    Ext proc spid et ec s (newProc s r).2 :=
  { nprocs_le := Nat.le_succ _
    ncmds_le := le_refl _
    map_mono := by
      intro k p hk
      simp only [newProc, Function.update_apply]
      split
      · next h => subst h; rw [h1] at hk; cases hk
      · exact hk
    led_mono := fun _ _ h => h
    led_new := fun _ _ h => Or.inl h
    proc_old := by
      intro p hp
      have : p ≠ s.nprocs := by omega
      simp [newProc, Function.update_apply, this]
    ppi_some := by
      intro p q hp hq
      have : p ≠ s.nprocs := by omega
      simp [newProc, Function.update_apply, this, hq]
    ppi_none := by
      intro p hp hp'
      left
      simp only [newProc, Function.update_apply] at hp' ⊢
      by_cases h : p = s.nprocs
      · simp [h, h2]
      · simp only [h, if_false]
        exact hp (by omega)
    cmd_old := fun _ _ => rfl
    own := fun _ => rfl
    sub := fun _ => Or.inl rfl
    flags := ⟨rfl, rfl, rfl⟩
    wf := fun _ => newProc_wf s r h2 h3 hwf
    linv := fun _ h => h
    rk := fun rank ha _ h => newProc_ranked rank s r h2 (h4 rank ha) hwf h }

theorem readProcStat_heap (proc : Int → Option (String × Int)) (s : Engine) (pid : Int) :
    (readProcStat proc s pid).2.procs = s.procs ∧
    (readProcStat proc s pid).2.nprocs = s.nprocs ∧
    (readProcStat proc s pid).2.cmds = s.cmds ∧
    (readProcStat proc s pid).2.ncmds = s.ncmds ∧
    (readProcStat proc s pid).2.procInfos = s.procInfos ∧
    (readProcStat proc s pid).2.cmdInfos = s.cmdInfos ∧
    ((readProcStat proc s pid).2.initCpuCounters = s.initCpuCounters ∧
      (readProcStat proc s pid).2.exitCount = s.exitCount ∧
      (readProcStat proc s pid).2.sample = s.sample) := by
  unfold readProcStat
  split <;> exact ⟨rfl, rfl, rfl, rfl, rfl, rfl, rfl, rfl, rfl⟩

theorem readProcStat_rank (proc : Int → Option (String × Int)) (s : Engine) (pid : Int)
    (rank : Int → Nat) (ha : Acyclic rank proc) (h : 1 < (readProcStat proc s pid).1.2) :
    rank (readProcStat proc s pid).1.2 < rank pid := by
  unfold readProcStat at h ⊢
  split at h
  · next r hr =>
    simp only [hr]
    exact ha pid r hr h
  · simp at h

/-- The creation branch of `resolveProc`, with the command looked up first. -/
theorem resolveProc_new (proc : Int → Option (String × Int)) (s : Engine) (pid : Int)
    (hm : s.procInfos pid = none) :
    resolveProc proc s none pid =
      match mapGet (readProcStat proc s pid).2.cmdInfos (readProcStat proc s pid).1.1 with
      | some c => newProc (readProcStat proc s pid).2
          ⟨pid, (readProcStat proc s pid).1.2, none, some c, 0⟩
      | none => newProc (newCmd (readProcStat proc s pid).2
          ⟨(readProcStat proc s pid).1.1, 0, 0, 0, 0, 0⟩).2
          ⟨pid, (readProcStat proc s pid).1.2, none,
            some (readProcStat proc s pid).2.ncmds, 0⟩ := by
  simp only [resolveProc, hm]
  cases hg : mapGet (readProcStat proc s pid).2.cmdInfos (readProcStat proc s pid).1.1 with
  | some c => simp [newProc, hg, setProc]
  | none => simp [newProc, hg, setProc, newCmd]

/-- Result of `resolveProc`: the record found or created, with the frame. -/
theorem resolveProc_ext (proc : Int → Option (String × Int)) (s : Engine) (pi : Option Nat)
    (pid : Int) (spid : Int) (et ec : Nat) (hpi : ∀ p, pi = some p → p < s.nprocs)
    (hwf : WF s) :
    Ext proc spid et ec s (resolveProc proc s pi pid).2 ∧
    (resolveProc proc s pi pid).1 < (resolveProc proc s pi pid).2.nprocs ∧
    (pi = none → (resolveProc proc s pi pid).2.procInfos pid
      = some (resolveProc proc s pi pid).1) ∧
    (∀ p, pi = some p → (resolveProc proc s pi pid).1 = p) ∧
    (∀ c, subView (resolveProc proc s pi pid).2 c = subView s c) := by
  cases pi with
  | some p =>
    simp only [resolveProc]
    exact ⟨Ext.refl _ _ _ _ _, hpi p rfl, by simp, by simp, fun _ => trivial⟩
  | none =>
    cases hm : s.procInfos pid with
    | some p =>
      simp only [resolveProc, hm]
      exact ⟨Ext.refl _ _ _ _ _, hwf.hmap _ _ hm, by simp, by simp, fun _ => trivial⟩
    | none =>
      obtain ⟨r1, r2, r3, r4, r5, r6, r7⟩ := readProcStat_heap proc s pid
      have e0 : Ext proc spid et ec s (readProcStat proc s pid).2 :=
        Ext.of_same proc spid et ec r1 r2 r3 r4 r5 r6 r7
      have hwf0 := e0.wf hwf
      have hrk := readProcStat_rank proc s pid
      rw [resolveProc_new proc s pid hm]
      generalize readProcStat proc s pid = rd at r1 r2 r3 r4 r5 r6 r7 e0 hwf0 hrk
      cases hg : mapGet rd.2.cmdInfos rd.1.1 with
      | some c =>
        simp only
        have e1 := newProc_ext proc spid et ec rd.2 ⟨pid, rd.1.2, none, some c, 0⟩
          (by rw [r5]; exact hm) rfl
          (by intro c' hc'; cases hc'; exact hwf0.hled _ _ hg)
          (fun rank ha h => hrk rank ha h) hwf0
        refine ⟨e0.trans e1, by simp [newProc], by simp [newProc], by simp, ?_⟩
        intro c'
        rw [← subView_congr r4 r3 c']
        exact subView_congr rfl rfl c'
      | none =>
        simp only
        have e1 := newCmd_ext proc spid et ec rd.2 rd.1.1 hg
        have hwf1 := e1.wf hwf0
        have e2 := newProc_ext proc spid et ec (newCmd rd.2 ⟨rd.1.1, 0, 0, 0, 0, 0⟩).2
          ⟨pid, rd.1.2, none, some rd.2.ncmds, 0⟩
          (by simp only [newCmd]; rw [r5]; exact hm) rfl
          (by intro c' hc'; cases hc'; simp [newCmd])
          (fun rank ha h => hrk rank ha h) hwf1
        refine ⟨(e0.trans e1).trans e2, by simp [newProc], by simp [newProc], by simp, ?_⟩
        intro c'
        rw [← subView_congr r4 r3 c']
        simp only [subView, newProc, newCmd, Function.update_apply]
        by_cases h : c' = rd.2.ncmds
        · simp [h]
        · by_cases h' : c' < rd.2.ncmds
          · have : c' < rd.2.ncmds + 1 := by omega
            simp [h, h', this]
          · have : ¬ c' < rd.2.ncmds + 1 := by omega
            simp [h', this]


/-- Frame of `creditSub`, with the marker it leaves. -/
theorem creditSub_ext (proc : Int → Option (String × Int)) (s : Engine) (spid : Int)
    (p : Nat) (et ec : Nat) (hp : p < s.nprocs) (hwf : WF s) :
    Ext proc spid et ec s (creditSub s spid p et ec) ∧
    (creditSub s spid p et ec).procs = s.procs ∧
    (creditSub s spid p et ec).procInfos = s.procInfos ∧
    (creditSub s spid p et ec).nprocs = s.nprocs ∧
    (∀ c, (s.procs p).ci = some c → ((creditSub s spid p et ec).cmds c).spid = spid) ∧
    (∀ c, (s.procs p).ci ≠ some c → subView (creditSub s spid p et ec) c = subView s c) := by
  cases hci : (s.procs p).ci with
  | none =>
    have e : creditSub s spid p et ec = s := by simp [creditSub, hci]
    rw [e]
    exact ⟨Ext.refl _ _ _ _ _, rfl, rfl, rfl, by simp, fun _ _ => rfl⟩
  | some c =>
    have hc : c < s.ncmds := hwf.hci p c hp hci
    by_cases hs : spid = (s.cmds c).spid
    · have e : creditSub s spid p et ec = s := by simp [creditSub, hci, hs]
      rw [e]
      refine ⟨Ext.refl _ _ _ _ _, rfl, rfl, rfl, ?_, fun _ _ => rfl⟩
      intro c' hc'
      cases hc'
      exact hs.symm
    · have e : creditSub s spid p et ec
          = setCmd s c { s.cmds c with subec := ((s.cmds c).subec + ec) % U64
                                       subet := ((s.cmds c).subet + et) % U64
                                       spid := spid } := by
        simp [creditSub, hci, hs]
      rw [e]
      refine ⟨?_, rfl, rfl, rfl, ?_, ?_⟩
      · exact
          { nprocs_le := le_refl _
            ncmds_le := le_refl _
            map_mono := fun _ _ h => h
            led_mono := fun _ _ h => h
            led_new := fun _ _ h => Or.inl h
            proc_old := fun _ _ => ⟨rfl, rfl, rfl, rfl⟩
            ppi_some := fun _ _ _ h => h
            ppi_none := fun _ h hp' => Or.inl (h hp')
            cmd_old := by
              intro c' _
              simp only [setCmd, Function.update_apply]
              split
              · next h => rw [h]
              · rfl
            own := by
              intro c'
              simp only [ownView, setCmd, Function.update_apply]
              by_cases h : c' = c
              · simp [h]
              · simp [h]
            sub := by
              intro c'
              simp only [subView, setCmd, Function.update_apply]
              by_cases h : c' = c
              · right
                subst h
                simp only [hc, if_true]
                exact ⟨fun h' => hs h'.symm, trivial⟩
              · left
                simp [h]
            flags := ⟨rfl, rfl, rfl⟩
            wf := by
              intro _
              refine ⟨hwf.hmap, hwf.hkey, hwf.hppi, hwf.hci, hwf.hled, ?_⟩
              intro c' hc'
              have hb := hwf.hu64 c' hc'
              have hpos : 0 < U64 := by simp [U64]
              simp only [setCmd, Function.update_apply]
              by_cases h : c' = c
              · subst h
                simp only [if_true]
                exact ⟨hb.1, hb.2.1, Nat.mod_lt _ hpos, Nat.mod_lt _ hpos⟩
              · simp only [h, if_false]
                exact hb
            linv := fun _ h => h
            rk := fun _ _ _ h => ⟨h.hobj, h.hlink⟩ }
      · intro c' hc'
        cases hc'
        simp [setCmd]
      · intro c' hc'
        have : c' ≠ c := fun h => hc' (by rw [h])
        simp [subView, setCmd, Function.update_apply, this]

/-- A marker that already names the source survives the walk. -/
theorem Ext.spid_keep {proc : Int → Option (String × Int)} {spid : Int} {et ec : Nat} {s s' : Engine} (h : Ext proc spid et ec s s')
    (c : Nat) (hc : c < s.ncmds) (hm : (s.cmds c).spid = spid) : (s'.cmds c).spid = spid := by
  have hc' : c < s'.ncmds := lt_of_lt_of_le hc h.ncmds_le
  rcases h.sub c with a | ⟨a, _⟩
  · simp only [subView, hc, hc', if_true] at a
    have := congrArg (fun x => x.2.2) a
    simp only at this
    rw [this, hm]
  · simp only [subView, hc, if_true] at a
    exact absurd hm a

/-- Frame of the assignment `pi.ppi = ...` after the recursive call. -/
theorem setPpi_ext (proc : Int → Option (String × Int)) (s : Engine) (spid : Int)
    (et ec : Nat) (p : Nat) (r : Option Nat) (hp : p < s.nprocs)
    (h1 : (s.procs p).ppi = none ∨ (s.procs p).ppi = r)
    (h2 : r = none ∨ ∃ q, r = some q ∧ q < s.nprocs ∧
      s.procInfos (s.procs p).ppid = some q ∧ 1 < (s.procs p).ppid) :
    Ext proc spid et ec s (setProc s p { s.procs p with ppi := r }) := by
  have hother : ∀ x, x ≠ p →
      (setProc s p { s.procs p with ppi := r }).procs x = s.procs x := by
    intro x hx
    simp [setProc, Function.update_apply, hx]
  have hself : (setProc s p { s.procs p with ppi := r }).procs p
      = { s.procs p with ppi := r } := by
    simp [setProc]
  exact
    { nprocs_le := le_refl _
      ncmds_le := le_refl _
      map_mono := fun _ _ h => h
      led_mono := fun _ _ h => h
      led_new := fun _ _ h => Or.inl h
      proc_old := by
        intro p' _
        by_cases h : p' = p
        · subst h; rw [hself]; exact ⟨rfl, rfl, rfl, rfl⟩
        · rw [hother p' h]; exact ⟨rfl, rfl, rfl, rfl⟩
      ppi_some := by
        intro p' q _ hq
        by_cases h : p' = p
        · subst h
          rw [hself]
          rcases h1 with a | a
          · rw [a] at hq; cases hq
          · simp only; rw [← a, hq]
        · rw [hother p' h]; exact hq
      ppi_none := by
        intro p' hp1 hp2
        by_cases h : p' = p
        · subst h
          rw [hself]
          rcases h2 with a | ⟨q, a, _, c, _⟩
          · exact Or.inl a
          · exact Or.inr ⟨q, a, c⟩
        · rw [hother p' h]
          exact Or.inl (hp1 hp2)
      cmd_old := fun _ _ => rfl
      own := fun _ => rfl
      sub := fun _ => Or.inl rfl
      flags := ⟨rfl, rfl, rfl⟩
      wf := by
        intro hwf
        constructor
        · exact hwf.hmap
        · intro k x hk
          have := hwf.hkey k x hk
          by_cases h : x = p
          · subst h; rw [hself]; exact this
          · rw [hother x h]; exact this
        · intro p' q hp' hq
          by_cases h : p' = p
          · subst h
            rw [hself] at hq
            rcases h2 with a | ⟨q', a, b, _⟩
            · rw [a] at hq; cases hq
            · rw [a] at hq; cases hq; exact b
          · rw [hother p' h] at hq
            exact hwf.hppi p' q hp' hq
        · intro p' c hp' hq
          by_cases h : p' = p
          · subst h
            rw [hself] at hq
            exact hwf.hci p' c hp' hq
          · rw [hother p' h] at hq
            exact hwf.hci p' c hp' hq
        · exact hwf.hled
        · exact hwf.hu64
      linv := fun _ h => h
      rk := by
        intro rank _ hwf hr
        have hpid : ∀ x, ((setProc s p { s.procs p with ppi := r }).procs x).pid
            = (s.procs x).pid := by
          intro x
          by_cases h : x = p
          · subst h; rw [hself]
          · rw [hother x h]
        have hppid : ∀ x, ((setProc s p { s.procs p with ppi := r }).procs x).ppid
            = (s.procs x).ppid := by
          intro x
          by_cases h : x = p
          · subst h; rw [hself]
          · rw [hother x h]
        constructor
        · intro x hx hlt
          rw [hpid, hppid] at *
          exact hr.hobj x hx hlt
        · intro x q hx hq
          rw [hpid, hpid]
          by_cases h : x = p
          · subst h
            rw [hself] at hq
            rcases h2 with a | ⟨q', a, _, c, d⟩
            · rw [a] at hq; cases hq
            · rw [a] at hq
              cases hq
              rw [hwf.hkey _ _ c]
              exact hr.hobj x hx d
          · rw [hother x h] at hq
            exact hr.hlink x q hx hq }

/-- Setting `p.ppi` to the record the chain already uses keeps the chain settled. -/
theorem Settled.setPpi {s : Engine} {spid : Int} (p q : Nat)
    (h1 : (s.procs p).ppi = none ∨ (s.procs p).ppi = some q) (h2 : 1 < (s.procs p).ppid) :
    ∀ n pi pid, Settled s spid n pi pid →
      Settled (setProc s p { s.procs p with ppi := some q }) spid n pi pid := by
  intro n
  induction n with
  | zero => intro pi pid h; exact h
  | succ n ih =>
    intro pi pid h
    simp only [Settled] at h ⊢
    rcases h with h | ⟨x, hx, hm, hn⟩
    · exact Or.inl h
    · refine Or.inr ⟨x, ?_, ?_, ?_⟩
      · simpa [setProc] using hx
      · intro c hc
        simp only [setProc, Function.update_apply] at hc ⊢
        apply hm
        by_cases h : x = p
        · subst h; simpa using hc
        · simpa [h] using hc
      · by_cases h : x = p
        · subst h
          right; right
          refine ⟨q, by simp [setProc], ?_⟩
          have hpp : ((setProc s x { s.procs x with ppi := some q }).procs x).ppid
              = (s.procs x).ppid := by simp [setProc]
          rw [hpp]
          apply ih
          rcases hn with a | ⟨_, a, _⟩ | ⟨q', a, b⟩
          · omega
          · omega
          · rcases h1 with c | c
            · rw [c] at a; cases a
            · rw [c] at a; cases a; exact b
        · have hpx : (setProc s p { s.procs p with ppi := some q }).procs x = s.procs x := by
            simp [setProc, Function.update_apply, h]
          rw [hpx]
          rcases hn with a | a | ⟨q', a, b⟩
          · exact Or.inl a
          · exact Or.inr (Or.inl a)
          · exact Or.inr (Or.inr ⟨q', a, ih _ _ b⟩)

/-- Main lemma on one walk: its frame, the settled chain it leaves and the
record it returns. -/
theorem propagateStats_ext (proc : Int → Option (String × Int)) :
    ∀ (n : Nat) (s : Engine) (spid : Int) (pi : Option Nat) (pid : Int) (et ec : Nat)
      (r : Option Nat × Engine), WF s → (∀ p, pi = some p → p < s.nprocs) →
      propagateStats proc n s spid pi pid et ec = some r →
      Ext proc spid et ec s r.2 ∧ Settled r.2 spid n pi pid ∧
      ((pid ≤ 1 ∧ r = (none, s)) ∨
        (1 < pid ∧ ∃ p, r.1 = some p ∧ p < r.2.nprocs ∧
          (pi = none → r.2.procInfos pid = some p) ∧ (∀ p', pi = some p' → p = p'))) := by
  intro n
  induction n with
  | zero => intro s spid pi pid et ec r _ _ h; simp [propagateStats] at h
  | succ n ih =>
    intro s spid pi pid et ec r hwf hpi h
    simp only [propagateStats] at h
    by_cases hpid : pid ≤ 1
    · simp only [hpid, if_true, Option.some.injEq] at h
      subst h
      exact ⟨Ext.refl _ _ _ _ _, by simp [Settled, hpid], Or.inl ⟨hpid, rfl⟩⟩
    · simp only [hpid, if_false] at h
      obtain ⟨ha1, ha2, ha3, ha4, _⟩ := resolveProc_ext proc s pi pid spid et ec hpi hwf
      generalize resolveProc proc s pi pid = a at h ha1 ha2 ha3 ha4
      obtain ⟨p, s1⟩ := a
      simp only at h ha1 ha2 ha3 ha4
      have hwf1 : WF s1 := ha1.wf hwf
      obtain ⟨hc1, hc2, hc3, hc4, hc5, _⟩ := creditSub_ext proc s1 spid p et ec ha2 hwf1
      generalize creditSub s1 spid p et ec = s2 at h hc1 hc2 hc3 hc4 hc5
      have hwf2 : WF s2 := hc1.wf hwf1
      have hp2 : p < s2.nprocs := by rw [hc4]; exact ha2
      have hmark : ∀ c, (s2.procs p).ci = some c → (s2.cmds c).spid = spid := by
        intro c hc
        apply hc5
        rw [← hc2]; exact hc
      have hres2 : pi = some p ∨ (pi = none ∧ s2.procInfos pid = some p) := by
        cases pi with
        | some p' => left; rw [ha4 p' rfl]
        | none => right; exact ⟨rfl, by rw [hc3]; exact ha3 rfl⟩
      have hret : ∀ s' : Engine, Ext proc spid et ec s2 s' →
          (1 < pid ∧ ∃ p0, some p = some p0 ∧ p0 < s'.nprocs ∧
          (pi = none → s'.procInfos pid = some p0) ∧ (∀ p', pi = some p' → p0 = p')) := by
        intro s' hs'
        refine ⟨by omega, p, rfl, lt_of_lt_of_le hp2 hs'.nprocs_le, ?_, ?_⟩
        · intro hn
          rcases hres2 with a | ⟨_, a⟩
          · rw [hn] at a; cases a
          · exact hs'.map_mono _ _ a
        · intro p' hp'
          exact ha4 p' hp'
      by_cases hpp : (s2.procs p).ppid = 0
      · simp only [hpp, ne_eq, not_true_eq_false, if_false, Option.some.injEq] at h
        subst h
        refine ⟨ha1.trans hc1, ?_, Or.inr (hret s2 (Ext.refl _ _ _ _ _))⟩
        simp only [Settled]
        exact Or.inr ⟨p, hres2, hmark, Or.inl hpp⟩
      · simp only [ne_eq, hpp, not_false_eq_true, if_true] at h
        cases hq : (s2.procs p).ppi with
        | some q =>
          simp only [hq] at h
          cases hrec : propagateStats proc n s2 spid (some q) (s2.procs p).ppid et ec with
          | none => simp [hrec] at h
          | some r3 =>
            simp only [hrec, Option.some.injEq] at h
            subst h
            have hq2 : q < s2.nprocs := hwf2.hppi p q hp2 hq
            obtain ⟨e3, t3, _⟩ := ih s2 spid (some q) (s2.procs p).ppid et ec r3 hwf2
              (by intro p' hp'; cases hp'; exact hq2) hrec
            refine ⟨(ha1.trans hc1).trans e3, ?_, Or.inr (hret r3.2 e3)⟩
            simp only [Settled]
            refine Or.inr ⟨p, ?_, ?_, ?_⟩
            · rcases hres2 with a | ⟨a, b⟩
              · exact Or.inl a
              · exact Or.inr ⟨a, e3.map_mono _ _ b⟩
            · intro c hc
              rw [(e3.proc_old p hp2).2.2.1] at hc
              exact e3.spid_keep c (hwf2.hci p c hp2 hc) (hmark c hc)
            · right; right
              refine ⟨q, e3.ppi_some p q hp2 hq, ?_⟩
              rw [(e3.proc_old p hp2).2.1]
              exact t3
        | none =>
          simp only [hq] at h
          cases hrec : propagateStats proc n s2 spid none (s2.procs p).ppid et ec with
          | none => simp [hrec] at h
          | some r3 =>
            simp only [hrec, Option.some.injEq] at h
            subst h
            obtain ⟨e3, t3, hr3⟩ := ih s2 spid none (s2.procs p).ppid et ec r3 hwf2
              (by intro p' hp'; cases hp') hrec
            have hp3 : p < r3.2.nprocs := lt_of_lt_of_le hp2 e3.nprocs_le
            have hppid3 : (r3.2.procs p).ppid = (s2.procs p).ppid := (e3.proc_old p hp2).2.1
            have hci3 : (r3.2.procs p).ci = (s2.procs p).ci := (e3.proc_old p hp2).2.2.1
            have hn0 : 0 < n := by
              cases n with
              | zero => simp [propagateStats] at hrec
              | succ m => omega
            have hmark3 : ∀ c, (r3.2.procs p).ci = some c → (r3.2.cmds c).spid = spid := by
              intro c hc
              rw [hci3] at hc
              exact e3.spid_keep c (hwf2.hci p c hp2 hc) (hmark c hc)
            rcases hr3 with ⟨hle, hr⟩ | ⟨hlt, q, hrq, hq3, hmq, _⟩
            · -- the parent is the root: nothing was walked
              subst hr
              simp only at e3 t3 hp3 hppid3 hci3 hmark3 ⊢
              have e4 := setPpi_ext proc s2 spid et ec p none hp2 (Or.inl hq) (Or.inl rfl)
              refine ⟨(ha1.trans hc1).trans e4, ?_, Or.inr (hret _ e4)⟩
              simp only [Settled]
              refine Or.inr ⟨p, ?_, ?_, ?_⟩
              · simpa [setProc] using hres2
              · intro c hc
                simp only [setProc, Function.update_same] at hc ⊢
                exact hmark c hc
              · right; left
                simp only [setProc, Function.update_same]
                exact ⟨trivial, hle, hn0⟩
            · have hmq' : r3.2.procInfos (r3.2.procs p).ppid = some q := by
                rw [hppid3]; exact hmq rfl
              have hppi3 : (r3.2.procs p).ppi = none ∨ (r3.2.procs p).ppi = some q := by
                rcases e3.ppi_none p (fun _ => hq) hp3 with a | ⟨q', a, b⟩
                · exact Or.inl a
                · right
                  rw [hmq'] at b
                  cases b
                  exact a
              have hlt3 : 1 < (r3.2.procs p).ppid := by rw [hppid3]; exact hlt
              have e4 := setPpi_ext proc r3.2 spid et ec p r3.1 hp3 (by rw [hrq]; exact hppi3)
                (Or.inr ⟨q, hrq, hq3, hmq', hlt3⟩)
              refine ⟨((ha1.trans hc1).trans e3).trans e4, ?_, Or.inr (hret _ (e3.trans e4))⟩
              rw [hrq]
              have t3' : Settled r3.2 spid n (some q) (r3.2.procs p).ppid := by
                rw [hppid3]
                cases n with
                | zero => exact t3
                | succ m =>
                  simp only [Settled] at t3 ⊢
                  rcases t3 with t | ⟨x, hx, hm, hn⟩
                  · exact Or.inl t
                  · refine Or.inr ⟨x, Or.inl ?_, hm, hn⟩
                    rcases hx with a | ⟨_, a⟩
                    · cases a
                    · rw [hmq rfl] at a
                      exact a
              have t4 := Settled.setPpi p q hppi3 hlt3 n (some q) (r3.2.procs p).ppid t3'
              simp only [Settled]
              refine Or.inr ⟨p, ?_, ?_, ?_⟩
              · rcases hres2 with a | ⟨a, b⟩
                · exact Or.inl a
                · exact Or.inr ⟨a, by simpa [setProc] using e3.map_mono _ _ b⟩
              · intro c hc
                simp only [setProc, Function.update_same] at hc ⊢
                exact hmark3 c hc
              · right; right
                refine ⟨q, by simp [setProc], ?_⟩
                have hpp' : ((setProc r3.2 p { r3.2.procs p with ppi := some q }).procs p).ppid
                    = (r3.2.procs p).ppid := by simp [setProc]
                rw [hpp']
                exact t4


theorem setProc_ppi_self (s : Engine) (p : Nat) (r : Option Nat)
    (h : (s.procs p).ppi = r) : setProc s p { s.procs p with ppi := r } = s := by
  have e : ({ s.procs p with ppi := r } : procInfo) = s.procs p := by
    subst h; rfl
  rw [e]
  simp [setProc]

theorem creditSub_marked (s : Engine) (spid : Int) (p : Nat) (et ec : Nat)
    (h : ∀ c, (s.procs p).ci = some c → (s.cmds c).spid = spid) :
    creditSub s spid p et ec = s := by
  unfold creditSub
  cases hci : (s.procs p).ci with
  | none => rfl
  | some c => simp [h c hci]

/-- On a settled chain a walk returns and changes nothing. -/
theorem propagateStats_of_settled (proc : Int → Option (String × Int)) :
    ∀ (n : Nat) (s : Engine) (spid : Int) (pi : Option Nat) (pid : Int) (et ec : Nat),
      Settled s spid n pi pid →
      ∃ r, propagateStats proc n s spid pi pid et ec = some (r, s) := by
  intro n
  induction n with
  | zero => intro s spid pi pid et ec h; exact absurd h (by simp [Settled])
  | succ n ih =>
    intro s spid pi pid et ec h
    simp only [propagateStats]
    by_cases hpid : pid ≤ 1
    · exact ⟨none, by simp [hpid]⟩
    · simp only [hpid, if_false]
      simp only [Settled] at h
      rcases h with h | ⟨p, hres, hm, hn⟩
      · exact absurd h hpid
      · have e1 : resolveProc proc s pi pid = (p, s) := by
          rcases hres with a | ⟨a, b⟩
          · subst a; rfl
          · subst a; simp [resolveProc, b]
        rw [e1]
        simp only
        rw [creditSub_marked s spid p et ec hm]
        by_cases hpp : (s.procs p).ppid = 0
        · exact ⟨some p, by simp [hpp]⟩
        · simp only [ne_eq, hpp, not_false_eq_true, if_true]
          rcases hn with a | ⟨a, b, c⟩ | ⟨q, a, b⟩
          · exact absurd a hpp
          · rw [a]
            simp only
            obtain ⟨m, rfl⟩ : ∃ m, n = m + 1 := ⟨n - 1, by omega⟩
            refine ⟨some p, ?_⟩
            simp only [propagateStats, b, if_true]
            rw [setProc_ppi_self s p none a]
          · rw [a]
            simp only
            obtain ⟨r, hr⟩ := ih s spid (some q) (s.procs p).ppid et ec b
            exact ⟨some p, by rw [hr]⟩

/-- With an acyclic process tree and a budget above every rank the walk returns. -/
theorem propagateStats_total (proc : Int → Option (String × Int)) (rank : Int → Nat)
    (ha : Acyclic rank proc) :
    ∀ (n : Nat) (s : Engine) (spid : Int) (pi : Option Nat) (pid : Int) (et ec : Nat),
      WF s → Ranked rank s →
      (∀ p, pi = some p → p < s.nprocs ∧ rank (s.procs p).pid + 2 ≤ n) →
      (pi = none → rank pid + 2 ≤ n) →
      ∃ r, propagateStats proc n s spid pi pid et ec = some r := by
  intro n
  induction n with
  | zero =>
    intro s spid pi pid et ec _ _ h1 h2
    cases pi with
    | none => have := h2 rfl; omega
    | some p => have := (h1 p rfl).2; omega
  | succ n ih =>
    intro s spid pi pid et ec hwf hr h1 h2
    simp only [propagateStats]
    by_cases hpid : pid ≤ 1
    · rw [if_pos hpid]; exact ⟨_, rfl⟩
    · simp only [hpid, if_false]
      obtain ⟨ha1, ha2, ha3, ha4, _⟩ := resolveProc_ext proc s pi pid spid et ec
        (fun p hp => (h1 p hp).1) hwf
      have hrank1 : rank ((resolveProc proc s pi pid).2.procs (resolveProc proc s pi pid).1).pid
          + 2 ≤ n + 1 := by
        cases pi with
        | some p =>
          rw [ha4 p rfl, (ha1.proc_old p (h1 p rfl).1).1]
          exact (h1 p rfl).2
        | none =>
          rw [(ha1.wf hwf).hkey _ _ (ha3 rfl)]
          exact h2 rfl
      generalize resolveProc proc s pi pid = a at ha1 ha2 ha3 ha4 hrank1
      obtain ⟨p, s1⟩ := a
      simp only at ha1 ha2 ha3 ha4 hrank1 ⊢
      have hwf1 : WF s1 := ha1.wf hwf
      have hr1 : Ranked rank s1 := ha1.rk rank ha hwf hr
      obtain ⟨hc1, hc2, hc3, hc4, _, _⟩ := creditSub_ext proc s1 spid p et ec ha2 hwf1
      generalize creditSub s1 spid p et ec = s2 at hc1 hc2 hc3 hc4
      have hwf2 : WF s2 := hc1.wf hwf1
      have hr2 : Ranked rank s2 := hc1.rk rank ha hwf1 hr1
      have hp2 : p < s2.nprocs := by rw [hc4]; exact ha2
      have hrank2 : rank (s2.procs p).pid + 2 ≤ n + 1 := by rw [hc2]; exact hrank1
      by_cases hpp : (s2.procs p).ppid = 0
      · simp only [hpp, ne_eq, not_true_eq_false, if_false]; exact ⟨_, rfl⟩
      · simp only [ne_eq, hpp, not_false_eq_true, if_true]
        cases hq : (s2.procs p).ppi with
        | some q =>
          simp only
          have hq2 := hwf2.hppi p q hp2 hq
          have hl := hr2.hlink p q hp2 hq
          obtain ⟨r, hr'⟩ := ih s2 spid (some q) (s2.procs p).ppid et ec hwf2 hr2
            (by intro p' hp'; cases hp'; exact ⟨hq2, by omega⟩) (by intro h; cases h)
          rw [hr']; exact ⟨_, rfl⟩
        | none =>
          simp only
          by_cases hle : (s2.procs p).ppid ≤ 1
          · obtain ⟨m, rfl⟩ : ∃ m, n = m + 1 := ⟨n - 1, by omega⟩
            simp only [propagateStats, hle, if_true]; exact ⟨_, rfl⟩
          · have hl := hr2.hobj p hp2 (by omega)
            obtain ⟨r, hr'⟩ := ih s2 spid none (s2.procs p).ppid et ec hwf2 hr2
              (by intro p' hp'; cases hp') (by intro _; omega)
            rw [hr']; exact ⟨_, rfl⟩


theorem U64_pos : 0 < U64 := by simp [U64]

/-- Specification of `incCmd` on a well-formed state. -/
theorem incCmd_inc (s : Engine) (ci : Option Nat) (cmd : String) (et ec : Nat)
    (hwf : WF s) (hci : ∀ c, ci = some c → c < s.ncmds) (het : et < U64) (hec : ec < U64) :
    Inc s ci cmd et ec (incCmd s ci cmd et ec).1 (incCmd s ci cmd et ec).2 := by
  have upd : ∀ c, c < s.ncmds →
      Inc s ci cmd et ec c
        (setCmd s c { s.cmds c with ec := ((s.cmds c).ec + ec) % U64
                                    et := ((s.cmds c).et + et) % U64 }) →
      (ci = some c ∨ (ci = none ∧ mapGet s.cmdInfos cmd = some c)) →
      Inc s ci cmd et ec (incCmd s ci cmd et ec).1 (incCmd s ci cmd et ec).2 := by
    intro c _ h hc
    have e : incCmd s ci cmd et ec
        = (c, setCmd s c { s.cmds c with ec := ((s.cmds c).ec + ec) % U64
                                         et := ((s.cmds c).et + et) % U64 }) := by
      rcases hc with a | ⟨a, b⟩
      · subst a; rfl
      · subst a; simp [incCmd, b]
    rw [e]
    exact h
  have mk : ∀ c, c < s.ncmds →
      (ci = some c ∨ (ci = none ∧ mapGet s.cmdInfos cmd = some c)) →
      Inc s ci cmd et ec c
        (setCmd s c { s.cmds c with ec := ((s.cmds c).ec + ec) % U64
                                    et := ((s.cmds c).et + et) % U64 }) := by
    intro c hc hsrc
    exact
      { target := hc
        given := by
          intro c' h
          rcases hsrc with a | ⟨a, _⟩
          · rw [a] at h; cases h; rfl
          · rw [a] at h; cases h
        named := by
          intro h
          rcases hsrc with a | ⟨_, b⟩
          · rw [a] at h; cases h
          · exact b
        fresh := by
          intro h h'
          rcases hsrc with a | ⟨_, b⟩
          · rw [a] at h; cases h
          · rw [b] at h'; cases h'
        procs_eq := rfl
        nprocs_eq := rfl
        map_eq := rfl
        flags := ⟨rfl, rfl, rfl⟩
        ncmds_le := le_refl _
        led_mono := fun _ _ h => h
        led_new := fun _ _ h => Or.inl h
        cmd_old := by
          intro c' _
          simp only [setCmd, Function.update_apply]
          split
          · next h => rw [h]
          · rfl
        own_target := by
          simp [ownView, setCmd, hc]
        own_other := by
          intro c' h
          simp [ownView, setCmd, Function.update_apply, h]
        sub := by
          intro c'
          simp only [subView, setCmd, Function.update_apply]
          by_cases h : c' = c
          · subst h; simp
          · simp [h]
        wf := by
          refine ⟨hwf.hmap, hwf.hkey, hwf.hppi, hwf.hci, hwf.hled, ?_⟩
          intro c' hc'
          have hb := hwf.hu64 c' hc'
          simp only [setCmd, Function.update_apply]
          by_cases h : c' = c
          · subst h
            simp only [if_true]
            exact ⟨Nat.mod_lt _ U64_pos, Nat.mod_lt _ U64_pos, hb.2.2.1, hb.2.2.2⟩
          · simp only [h, if_false]
            exact hb
        linv := fun h => h }
  cases ci with
  | some c => exact upd c (hci c rfl) (mk c (hci c rfl) (Or.inl rfl)) (Or.inl rfl)
  | none =>
    cases hg : mapGet s.cmdInfos cmd with
    | some c =>
      have hc := hwf.hled cmd c hg
      exact upd c hc (mk c hc (Or.inr ⟨rfl, hg⟩)) (Or.inr ⟨rfl, hg⟩)
    | none =>
      have e : incCmd s none cmd et ec = newCmd s ⟨cmd, 0, 0, ec, et, 0⟩ := by
        simp [incCmd, hg]
      rw [e]
      simp only [newCmd]
      exact
        { target := Nat.lt_succ_self _
          given := by intro c' h; cases h
          named := by intro _; simp [mapGet_mapPut]
          fresh := fun _ _ => rfl
          procs_eq := rfl
          nprocs_eq := rfl
          map_eq := rfl
          flags := ⟨rfl, rfl, rfl⟩
          ncmds_le := Nat.le_succ _
          led_mono := by
            intro k c hk
            simp only [mapGet_mapPut]
            split
            · next h => subst h; rw [hg] at hk; cases hk
            · exact hk
          led_new := by
            intro k c hk
            simp only [mapGet_mapPut] at hk
            split at hk
            · next h =>
              subst h
              cases hk
              exact Or.inr ⟨hg, le_refl _⟩
            · exact Or.inl hk
          cmd_old := by
            intro c hc
            have : c ≠ s.ncmds := by omega
            simp [Function.update_apply, this]
          own_target := by
            simp [ownView, Nat.mod_eq_of_lt het, Nat.mod_eq_of_lt hec]
          own_other := by
            intro c h
            simp only [ownView, Function.update_apply, h, if_false]
            by_cases h' : c < s.ncmds
            · have : c < s.ncmds + 1 := by omega
              simp [h', this]
            · have : ¬ c < s.ncmds + 1 := by omega
              simp [h', this]
          sub := by
            intro c
            simp only [subView, Function.update_apply]
            by_cases h : c = s.ncmds
            · simp [h]
            · by_cases h' : c < s.ncmds
              · have : c < s.ncmds + 1 := by omega
                simp [h, h', this]
              · have : ¬ c < s.ncmds + 1 := by omega
                simp [h', this]
          wf := by
            refine ⟨hwf.hmap, hwf.hkey, hwf.hppi, ?_, ?_, ?_⟩
            · intro p c hp hc
              have := hwf.hci p c hp hc
              simp only; omega
            · intro k c hk
              simp only [mapGet_mapPut] at hk ⊢
              split at hk
              · cases hk; omega
              · have := hwf.hled k c hk; omega
            · intro c hc
              simp only [Function.update_apply] at hc ⊢
              by_cases h : c = s.ncmds
              · simp only [h, if_true]
                exact ⟨hec, het, U64_pos, U64_pos⟩
              · simp only [h, if_false]
                exact hwf.hu64 c (by omega)
          linv := by
            intro hl
            unfold LedgerInv at *
            simp only [mapPut_of_none _ _ _ hg, List.map_append, List.map_cons, List.map_nil,
              hl, List.range_succ] }

/-- Both branches of `goExitStats` in one form. -/
theorem goExitStats_eq (proc : Int → Option (String × Int)) (fuel : Nat) (s : Engine)
    (pid ppid : Int) (cpu : Nat) (cmd : String) :
    goExitStats proc fuel s pid ppid cpu cmd =
      (propagateStats proc fuel (incCmd (exitPre s pid) (cachedCi s pid) cmd cpu 1).2
        pid (cachedPpi s pid) ppid cpu 1).map (fun r => r.2) := by
  unfold goExitStats
  cases h : s.procInfos pid with
  | none =>
    have e : exitPre s pid = { s with exitCount := (s.exitCount + 1) % U64 } := by
      unfold exitPre
      have : Function.update s.procInfos pid none = s.procInfos := by
        rw [← h]; exact Function.update_eq_self pid s.procInfos
      rw [this]
    simp only [h, cachedCi, cachedPpi, Option.bind, e]
    cases propagateStats proc fuel
      (incCmd { s with exitCount := (s.exitCount + 1) % U64 } none cmd cpu 1).2
      pid none ppid cpu 1 <;> rfl
  | some p =>
    simp only [h, cachedCi, cachedPpi, Option.bind, exitPre]
    cases propagateStats proc fuel
      (incCmd { s with exitCount := (s.exitCount + 1) % U64
                       procInfos := Function.update s.procInfos pid none }
        (s.procs p).ci cmd cpu 1).2
      pid (s.procs p).ppi ppid cpu 1 <;> rfl

theorem exitPre_wf (s : Engine) (pid : Int) (hwf : WF s) : WF (exitPre s pid) := by
  refine ⟨?_, ?_, hwf.hppi, hwf.hci, hwf.hled, hwf.hu64⟩
  · intro k p hk
    simp only [exitPre, Function.update_apply] at hk
    split at hk
    · cases hk
    · exact hwf.hmap k p hk
  · intro k p hk
    simp only [exitPre, Function.update_apply] at hk
    split at hk
    · cases hk
    · exact hwf.hkey k p hk

theorem cachedCi_lt (s : Engine) (pid : Int) (hwf : WF s) :
    ∀ c, cachedCi s pid = some c → c < s.ncmds := by
  intro c h
  unfold cachedCi at h
  cases hp : s.procInfos pid with
  | none => simp [hp] at h
  | some p =>
    simp only [hp, Option.bind] at h
    exact hwf.hci p c (hwf.hmap pid p hp) h

theorem cachedPpi_lt (s : Engine) (pid : Int) (hwf : WF s) :
    ∀ q, cachedPpi s pid = some q → q < s.nprocs := by
  intro q h
  unfold cachedPpi at h
  cases hp : s.procInfos pid with
  | none => simp [hp] at h
  | some p =>
    simp only [hp, Option.bind] at h
    exact hwf.hppi p q (hwf.hmap pid p hp) h


theorem ownView_zero (s : Engine) (c : Nat) (h : s.ncmds ≤ c) : ownView s c = (0, 0) := by
  have : ¬ c < s.ncmds := by omega
  simp [ownView, this]

theorem Ranked.of_procs {rank : Int → Nat} {s s' : Engine} (h : Ranked rank s)
    (h1 : s'.procs = s.procs) (h2 : s'.nprocs = s.nprocs) : Ranked rank s' := by
  constructor
  · rw [h1, h2]; exact h.hobj
  · rw [h1, h2]; exact h.hlink

/-- One `Exit` event: the own credit followed by the walk. -/
theorem goExitStats_spec (proc : Int → Option (String × Int)) (fuel : Nat) (s : Engine)
    (pid ppid : Int) (cpu : Nat) (cmd : String) (s' : Engine) (hwf : WF s) (hcpu : cpu < U64)
    (h : goExitStats proc fuel s pid ppid cpu cmd = some s') :
    ∃ c0 sm, Inc (exitPre s pid) (cachedCi s pid) cmd cpu 1 c0 sm ∧
      Ext proc pid cpu 1 sm s' ∧
      (∃ r, propagateStats proc fuel sm pid (cachedPpi s pid) ppid cpu 1 = some (r, s')) := by
  rw [goExitStats_eq] at h
  have hinc := incCmd_inc (exitPre s pid) (cachedCi s pid) cmd cpu 1 (exitPre_wf s pid hwf)
    (cachedCi_lt s pid hwf) hcpu (by simp [U64])
  generalize incCmd (exitPre s pid) (cachedCi s pid) cmd cpu 1 = a at h hinc
  cases hr : propagateStats proc fuel a.2 pid (cachedPpi s pid) ppid cpu 1 with
  | none => simp [hr] at h
  | some r =>
    simp only [hr, Option.map_some', Option.some.injEq] at h
    subst h
    obtain ⟨e, _, _⟩ := propagateStats_ext proc fuel a.2 pid (cachedPpi s pid) ppid cpu 1 r
      hinc.wf (by
        intro p hp
        rw [hinc.nprocs_eq]
        exact cachedPpi_lt s pid hwf p hp) hr
    exact ⟨a.1, a.2, hinc, e, r.1, hr⟩

/-- An `Exit` event returns when the process tree is acyclic. -/
theorem goExitStats_total (proc : Int → Option (String × Int)) (rank : Int → Nat)
    (ha : Acyclic rank proc) (fuel : Nat) (hf : ∀ k, rank k + 2 ≤ fuel) (s : Engine)
    (pid ppid : Int) (cpu : Nat) (cmd : String) (hwf : WF s) (hr : Ranked rank s)
    (hcpu : cpu < U64) :
    ∃ s', goExitStats proc fuel s pid ppid cpu cmd = some s' ∧ WF s' ∧ Ranked rank s' := by
  rw [goExitStats_eq]
  have hinc := incCmd_inc (exitPre s pid) (cachedCi s pid) cmd cpu 1 (exitPre_wf s pid hwf)
    (cachedCi_lt s pid hwf) hcpu (by simp [U64])
  generalize incCmd (exitPre s pid) (cachedCi s pid) cmd cpu 1 = a at hinc
  have hra : Ranked rank a.2 := hr.of_procs hinc.procs_eq hinc.nprocs_eq
  have hpi : ∀ p, cachedPpi s pid = some p → p < a.2.nprocs := by
    intro p hp
    rw [hinc.nprocs_eq]
    exact cachedPpi_lt s pid hwf p hp
  obtain ⟨r, hr'⟩ := propagateStats_total proc rank ha fuel a.2 pid (cachedPpi s pid) ppid cpu 1
    hinc.wf hra (fun p hp => ⟨hpi p hp, hf _⟩) (fun _ => hf _)
  obtain ⟨e, _, _⟩ := propagateStats_ext proc fuel a.2 pid (cachedPpi s pid) ppid cpu 1 r
    hinc.wf hpi hr'
  exact ⟨r.2, by rw [hr']; rfl, e.wf hinc.wf, e.rk rank ha hinc.wf hra⟩

theorem incCmd_procs (s : Engine) (ci : Option Nat) (cmd : String) (et ec : Nat) :
    (incCmd s ci cmd et ec).2.procs = s.procs := by
  cases ci with
  | some c => rfl
  | none => cases h : mapGet s.cmdInfos cmd <;> simp [incCmd, h, setCmd, newCmd]

/-- Both branches of `goUpdateStats` in one form. -/
theorem goUpdateStats_eq (proc : Int → Option (String × Int)) (fuel : Nat) (s : Engine)
    (pid ppid : Int) (cpu : Nat) (cmd : String) :
    goUpdateStats proc fuel s pid ppid cpu cmd =
      (propagateStats proc fuel
        (setProc (incCmd (updPre s pid ppid cpu).2
            ((updPre s pid ppid cpu).2.procs (updPre s pid ppid cpu).1).ci cmd
            (specDelta s.initCpuCounters (storedCpu s pid) cpu) (updCnt s pid)).2
          (updPre s pid ppid cpu).1
          { (incCmd (updPre s pid ppid cpu).2
              ((updPre s pid ppid cpu).2.procs (updPre s pid ppid cpu).1).ci cmd
              (specDelta s.initCpuCounters (storedCpu s pid) cpu)
              (updCnt s pid)).2.procs (updPre s pid ppid cpu).1 with
            ci := some (incCmd (updPre s pid ppid cpu).2
              ((updPre s pid ppid cpu).2.procs (updPre s pid ppid cpu).1).ci cmd
              (specDelta s.initCpuCounters (storedCpu s pid) cpu) (updCnt s pid)).1 })
        pid (cachedPpi s pid) ppid
        (specDelta s.initCpuCounters (storedCpu s pid) cpu) (updCnt s pid)).map
        (fun r => setProc r.2 (updPre s pid ppid cpu).1
          { r.2.procs (updPre s pid ppid cpu).1 with ppi := r.1, cpu := cpu }) := by
  unfold goUpdateStats
  cases h : s.procInfos pid with
  | some p =>
    have hd : specDelta s.initCpuCounters (storedCpu s pid) cpu
        = if s.initCpuCounters = true then 0
          else if cpu ≥ (s.procs p).cpu then cpu - (s.procs p).cpu else cpu := by
      simp [specDelta, storedCpu, h]
    have hc : updCnt s pid = 0 := by simp [updCnt, h]
    have hu : updPre s pid ppid cpu = (p, s) := by simp [updPre, h]
    have hp : cachedPpi s pid = (s.procs p).ppi := by simp [cachedPpi, h]
    have hi : ∀ (a : Nat × Engine), a.2.procs = s.procs →
        ((setProc a.2 p { a.2.procs p with ci := some a.1 }).procs p).ppi = (s.procs p).ppi := by
      intro a ha
      simp [setProc, ha]
    rw [hd, hc, hu, hp]
    simp only
    rw [hi _ (incCmd_procs _ _ _ _ _)]
    cases propagateStats proc fuel _ pid (s.procs p).ppi ppid _ 0 <;> rfl
  | none =>
    have hd : specDelta s.initCpuCounters (storedCpu s pid) cpu
        = if s.initCpuCounters = true then 0 else cpu := by
      simp [specDelta, storedCpu, h]
    have hc : updCnt s pid = 1 := by simp [updCnt, h]
    have hu : updPre s pid ppid cpu = newProc s ⟨pid, ppid, none, none, cpu⟩ := by
      simp [updPre, h]
    have hp : cachedPpi s pid = none := by simp [cachedPpi, h]
    have hci : ((newProc s ⟨pid, ppid, none, none, cpu⟩).2.procs
        (newProc s ⟨pid, ppid, none, none, cpu⟩).1).ci = none := by
      simp [newProc]
    rw [hd, hc, hu, hp, hci]
    simp only
    cases propagateStats proc fuel _ pid none ppid _ 1 <;> rfl

theorem setProc_wf {s : Engine} (hwf : WF s) (p : Nat) (r : procInfo)
    (h1 : r.pid = (s.procs p).pid) (h2 : ∀ q, r.ppi = some q → q < s.nprocs)
    (h3 : ∀ c, r.ci = some c → c < s.ncmds) : WF (Topfast.setProc s p r) := by
  have hother : ∀ x, x ≠ p → (Topfast.setProc s p r).procs x = s.procs x := by
    intro x hx
    simp [Topfast.setProc, Function.update_apply, hx]
  have hself : (Topfast.setProc s p r).procs p = r := by
    simp [Topfast.setProc]
  refine ⟨hwf.hmap, ?_, ?_, ?_, hwf.hled, hwf.hu64⟩
  · intro k x hk
    have := hwf.hkey k x hk
    by_cases h : x = p
    · subst h; rw [hself, h1]; exact this
    · rw [hother x h]; exact this
  · intro x q hx hq
    by_cases h : x = p
    · subst h; rw [hself] at hq; exact h2 q hq
    · rw [hother x h] at hq; exact hwf.hppi x q hx hq
  · intro x c hx hc
    by_cases h : x = p
    · subst h; rw [hself] at hc; exact h3 c hc
    · rw [hother x h] at hc; exact hwf.hci x c hx hc

theorem setProc_ranked {rank : Int → Nat} {s : Engine} (hr : Ranked rank s) (p : Nat)
    (r : procInfo) (h1 : r.pid = (s.procs p).pid)
    (h2 : 1 < r.ppid → rank r.ppid < rank r.pid)
    (h3 : ∀ q, r.ppi = some q → rank (s.procs q).pid < rank r.pid) :
    Ranked rank (Topfast.setProc s p r) := by
  have hother : ∀ x, x ≠ p → (Topfast.setProc s p r).procs x = s.procs x := by
    intro x hx
    simp [Topfast.setProc, Function.update_apply, hx]
  have hself : (Topfast.setProc s p r).procs p = r := by
    simp [Topfast.setProc]
  have hpid : ∀ x, ((Topfast.setProc s p r).procs x).pid = (s.procs x).pid := by
    intro x
    by_cases h : x = p
    · subst h; rw [hself, h1]
    · rw [hother x h]
  constructor
  · intro x hx hlt
    rw [hpid]
    by_cases h : x = p
    · subst h
      rw [hself] at hlt ⊢
      rw [← h1]
      exact h2 hlt
    · rw [hother x h] at hlt ⊢
      exact hr.hobj x hx hlt
  · intro x q hx hq
    rw [hpid, hpid]
    by_cases h : x = p
    · subst h
      rw [hself] at hq
      rw [← h1]
      exact h3 q hq
    · rw [hother x h] at hq
      exact hr.hlink x q hx hq

theorem specDelta_le (b : Bool) (st : Option Nat) (c : Nat) : specDelta b st c ≤ c := by
  unfold specDelta
  split
  · exact Nat.zero_le _
  · split
    · exact le_refl _
    · split
      · exact Nat.sub_le _ _
      · exact le_refl _

theorem updCnt_le (s : Engine) (pid : Int) : updCnt s pid ≤ 1 := by
  unfold updCnt
  split <;> omega

/-- The registry record `goUpdateStats` works on. -/
theorem updPre_spec (s : Engine) (pid ppid : Int) (cpu : Nat) (hwf : WF s) :
    WF (updPre s pid ppid cpu).2 ∧
    (updPre s pid ppid cpu).1 < (updPre s pid ppid cpu).2.nprocs ∧
    (updPre s pid ppid cpu).2.procInfos pid = some (updPre s pid ppid cpu).1 ∧
    (s.procInfos pid = some (updPre s pid ppid cpu).1 ∨
      (s.procInfos pid = none ∧ (updPre s pid ppid cpu).1 = s.nprocs)) ∧
    ((updPre s pid ppid cpu).2.cmds = s.cmds ∧ (updPre s pid ppid cpu).2.ncmds = s.ncmds ∧
      (updPre s pid ppid cpu).2.cmdInfos = s.cmdInfos) ∧
    ((updPre s pid ppid cpu).2.initCpuCounters = s.initCpuCounters ∧
      (updPre s pid ppid cpu).2.exitCount = s.exitCount ∧
      (updPre s pid ppid cpu).2.sample = s.sample) ∧
    s.nprocs ≤ (updPre s pid ppid cpu).2.nprocs ∧
    (∀ x, x < s.nprocs → (updPre s pid ppid cpu).2.procs x = s.procs x) ∧
    (∀ k x, s.procInfos k = some x → (updPre s pid ppid cpu).2.procInfos k = some x) ∧
    ((updPre s pid ppid cpu).2.procs (updPre s pid ppid cpu).1).ci = cachedCi s pid ∧
    ((updPre s pid ppid cpu).2.procs (updPre s pid ppid cpu).1).ppi = cachedPpi s pid ∧
    (∀ rank, Ranked rank s → (1 < ppid → rank ppid < rank pid) →
      Ranked rank (updPre s pid ppid cpu).2) := by
  cases h : s.procInfos pid with
  | some p =>
    have hu : updPre s pid ppid cpu = (p, s) := by simp [updPre, h]
    rw [hu]
    exact ⟨hwf, hwf.hmap _ _ h, h, Or.inl rfl, ⟨rfl, rfl, rfl⟩, ⟨rfl, rfl, rfl⟩, le_refl _,
      fun _ _ => rfl, fun _ _ hk => hk, by simp [cachedCi, h], by simp [cachedPpi, h],
      fun _ hr _ => hr⟩
  | none =>
    have hu : updPre s pid ppid cpu = newProc s ⟨pid, ppid, none, none, cpu⟩ := by
      simp [updPre, h]
    rw [hu]
    refine ⟨newProc_wf s _ rfl (by intro c hc; cases hc) hwf, by simp [newProc],
      by simp [newProc], Or.inr ⟨rfl, rfl⟩, ⟨rfl, rfl, rfl⟩, ⟨rfl, rfl, rfl⟩,
      by simp [newProc], ?_, ?_, by simp [newProc, cachedCi, h],
      by simp [newProc, cachedPpi, h], ?_⟩
    · intro x hx
      have : x ≠ s.nprocs := by omega
      simp [newProc, Function.update_apply, this]
    · intro k x hk
      simp only [newProc, Function.update_apply]
      split
      · next hh => subst hh; rw [h] at hk; cases hk
      · exact hk
    · intro rank hr hc
      exact newProc_ranked rank s _ rfl hc hwf hr

/-- One `Update` event, as a relation between the states before and after. -/
theorem goUpdateStats_spec (proc : Int → Option (String × Int)) (fuel : Nat) (s : Engine)
    (pid ppid : Int) (cpu : Nat) (cmd : String) (s' : Engine) (hwf : WF s) (hcpu : cpu < U64)
    (h : goUpdateStats proc fuel s pid ppid cpu cmd = some s') :
    ∃ p c0, Upd s pid cpu cmd s' p c0 := by
  rw [goUpdateStats_eq] at h
  obtain ⟨u1, u2, u3, u4, ⟨u5, u6, u7⟩, u8, u9, u10, u11, u12, u13, _⟩ :=
    updPre_spec s pid ppid cpu hwf
  generalize updPre s pid ppid cpu = u at h u1 u2 u3 u4 u5 u6 u7 u8 u9 u10 u11 u12 u13
  have hdet : specDelta s.initCpuCounters (storedCpu s pid) cpu < U64 :=
    lt_of_le_of_lt (specDelta_le _ _ _) hcpu
  have hcnt : updCnt s pid < U64 :=
    lt_of_le_of_lt (updCnt_le s pid) (by simp [U64])
  generalize hdq : specDelta s.initCpuCounters (storedCpu s pid) cpu = det at h hdet
  generalize hcq : updCnt s pid = cnt at h hcnt
  have hinc := incCmd_inc u.2 (u.2.procs u.1).ci cmd det cnt u1
    (fun c hc => u1.hci u.1 c u2 hc) hdet hcnt
  generalize incCmd u.2 (u.2.procs u.1).ci cmd det cnt = a at h hinc
  have hpa : u.1 < a.2.nprocs := by rw [hinc.nprocs_eq]; exact u2
  have wf1 : WF (setProc a.2 u.1 { a.2.procs u.1 with ci := some a.1 }) :=
    setProc_wf hinc.wf u.1 _ rfl
      (fun q hq => hinc.wf.hppi u.1 q hpa hq)
      (by intro c hc; cases hc; exact hinc.target)
  have hs1 : ∀ x, x ≠ u.1 →
      (setProc a.2 u.1 { a.2.procs u.1 with ci := some a.1 }).procs x = a.2.procs x := by
    intro x hx
    simp [setProc, Function.update_apply, hx]
  have hs1' : (setProc a.2 u.1 { a.2.procs u.1 with ci := some a.1 }).procs u.1
      = { a.2.procs u.1 with ci := some a.1 } := by
    simp [setProc]
  have hs1n : (setProc a.2 u.1 { a.2.procs u.1 with ci := some a.1 }).nprocs = a.2.nprocs := rfl
  have hs1m : (setProc a.2 u.1 { a.2.procs u.1 with ci := some a.1 }).procInfos
      = a.2.procInfos := rfl
  have hs1c : (setProc a.2 u.1 { a.2.procs u.1 with ci := some a.1 }).cmds = a.2.cmds := rfl
  have hs1k : (setProc a.2 u.1 { a.2.procs u.1 with ci := some a.1 }).ncmds = a.2.ncmds := rfl
  have hs1l : (setProc a.2 u.1 { a.2.procs u.1 with ci := some a.1 }).cmdInfos
      = a.2.cmdInfos := rfl
  have hs1f : (setProc a.2 u.1 { a.2.procs u.1 with ci := some a.1 }).initCpuCounters
      = a.2.initCpuCounters ∧
      (setProc a.2 u.1 { a.2.procs u.1 with ci := some a.1 }).exitCount = a.2.exitCount ∧
      (setProc a.2 u.1 { a.2.procs u.1 with ci := some a.1 }).sample = a.2.sample :=
    ⟨rfl, rfl, rfl⟩
  generalize setProc a.2 u.1 { a.2.procs u.1 with ci := some a.1 } = s1
    at h wf1 hs1 hs1' hs1n hs1m hs1c hs1k hs1l hs1f
  have hpi : ∀ q, cachedPpi s pid = some q → q < s1.nprocs := by
    intro q hq
    rw [hs1n, hinc.nprocs_eq]
    exact lt_of_lt_of_le (cachedPpi_lt s pid hwf q hq) u9
  cases hr : propagateStats proc fuel s1 pid (cachedPpi s pid) ppid det cnt with
  | none => simp [hr] at h
  | some r =>
    simp only [hr, Option.map_some', Option.some.injEq] at h
    obtain ⟨e, _, hres⟩ := propagateStats_ext proc fuel s1 pid (cachedPpi s pid) ppid det cnt r
      wf1 hpi hr
    have hp1 : u.1 < s1.nprocs := by rw [hs1n]; exact hpa
    have hpr : u.1 < r.2.nprocs := lt_of_lt_of_le hp1 e.nprocs_le
    have hso : ∀ x, x ≠ u.1 → s'.procs x = r.2.procs x := by
      intro x hx
      rw [← h]
      simp [setProc, Function.update_apply, hx]
    have hss : s'.procs u.1 = { r.2.procs u.1 with ppi := r.1, cpu := cpu } := by
      rw [← h]
      simp [setProc]
    have hsc : s'.cmds = r.2.cmds := by rw [← h]; rfl
    have hsk : s'.ncmds = r.2.ncmds := by rw [← h]; rfl
    have hsl : s'.cmdInfos = r.2.cmdInfos := by rw [← h]; rfl
    have hsm : s'.procInfos = r.2.procInfos := by rw [← h]; rfl
    have hsn : s'.nprocs = r.2.nprocs := by rw [← h]; rfl
    have hsf : s'.initCpuCounters = r.2.initCpuCounters ∧ s'.exitCount = r.2.exitCount ∧
        s'.sample = r.2.sample := by rw [← h]; exact ⟨rfl, rfl, rfl⟩
    have hown : ∀ c, ownView s' c = ownView a.2 c := by
      intro c
      rw [ownView_congr hsk hsc c, e.own c]
      exact ownView_congr hs1k hs1c c
    have hov : ∀ c, ownView u.2 c = ownView s c := ownView_congr u6 u5
    have hsv : ∀ c, subView u.2 c = subView s c := subView_congr u6 u5
    have hsub1 : ∀ c, subView s1 c = subView s c := by
      intro c
      rw [subView_congr hs1k hs1c c, hinc.sub c, hsv c]
    have hwf' : WF s' := by
      rw [← h]
      refine setProc_wf (e.wf wf1) u.1 { r.2.procs u.1 with ppi := r.1, cpu := cpu } rfl ?_ ?_
      · intro q hq
        simp only at hq
        rcases hres with ⟨_, hr0⟩ | ⟨_, q', hq', hlt, _⟩
        · rw [hr0] at hq; cases hq
        · rw [hq'] at hq; cases hq; exact hlt
      · intro c hc
        exact (e.wf wf1).hci u.1 c hpr hc
    refine ⟨u.1, a.1, ?_⟩
    exact
      { reg := by
          rw [hsm]
          apply e.map_mono
          rw [hs1m, hinc.map_eq]
          exact u3
        rec_cpu := by rw [hss]
        rec_ci := by
          rw [hss]
          simp only
          rw [(e.proc_old u.1 hp1).2.2.1, hs1']
        rec_old := u4
        target := by
          rw [hsk]
          exact lt_of_lt_of_le (by rw [hs1k]; exact hinc.target) e.ncmds_le
        target_src := by
          rw [← u12]
          cases hci : (u.2.procs u.1).ci with
          | some c => left; rw [hinc.given c hci]
          | none =>
            right
            refine ⟨rfl, ?_⟩
            rw [hsl]
            apply e.led_mono
            rw [hs1l]
            exact hinc.named hci
        own_target := by
          rw [hown, hinc.own_target, hov, hdq, hcq]
        own_other := by
          intro c hc
          rw [hown, hinc.own_other c hc, hov]
        sub := by
          intro c
          rw [subView_congr hsk hsc c, ← hsub1 c, hdq, hcq]
          exact e.sub c
        nprocs_le := by
          rw [hsn]
          exact le_trans u9 (le_trans (by rw [hs1n, hinc.nprocs_eq]) e.nprocs_le)
        ncmds_le := by
          rw [hsk]
          have h1 : s.ncmds ≤ a.2.ncmds := by rw [← u6]; exact hinc.ncmds_le
          have h2 : a.2.ncmds ≤ s1.ncmds := by rw [hs1k]
          exact le_trans h1 (le_trans h2 e.ncmds_le)
        map_mono := by
          intro k x hk
          rw [hsm]
          apply e.map_mono
          rw [hs1m, hinc.map_eq]
          exact u11 k x hk
        other_cpu := by
          intro x hx hne
          have hx1 : x < s1.nprocs := by
            rw [hs1n, hinc.nprocs_eq]; exact lt_of_lt_of_le hx u9
          rw [hso x hne, (e.proc_old x hx1).2.2.2, hs1 x hne, hinc.procs_eq, u10 x hx]
        led_mono := by
          intro k c hk
          rw [hsl]
          apply e.led_mono
          rw [hs1l]
          apply hinc.led_mono
          rw [u7]
          exact hk
        led_new := by
          intro k c hk
          rw [hsl] at hk
          rcases e.led_new k c hk with x | ⟨x, y⟩
          · rw [hs1l] at x
            have := hinc.led_new k c x
            rw [u7, u6] at this
            exact this
          · right
            rw [hs1l] at x
            rw [hs1k] at y
            constructor
            · cases hk0 : mapGet s.cmdInfos k with
              | none => rfl
              | some c' =>
                rw [← u7] at hk0
                rw [hinc.led_mono k c' hk0] at x
                cases x
            · have h1 : s.ncmds ≤ a.2.ncmds := by rw [← u6]; exact hinc.ncmds_le
              exact le_trans h1 y
        flags := by
          refine ⟨?_, ?_, ?_⟩
          · rw [hsf.1, e.flags.1, hs1f.1, hinc.flags.1, u8.1]
          · rw [hsf.2.1, e.flags.2.1, hs1f.2.1, hinc.flags.2.1, u8.2.1]
          · rw [hsf.2.2, e.flags.2.2, hs1f.2.2, hinc.flags.2.2, u8.2.2]
        wf := hwf'
        linv := by
          intro hl
          have h0 : LedgerInv u.2 := by
            unfold LedgerInv at *
            rw [u7, u6]; exact hl
          have h1 : LedgerInv s1 := by
            have := hinc.linv h0
            unfold LedgerInv at *
            rw [hs1l, hs1k]; exact this
          have h2 := e.linv wf1 h1
          unfold LedgerInv at *
          rw [hsl, hsk]; exact h2 }

/-- An `Update` event returns when the process tree is acyclic and the event
agrees with it; the heap stays well-formed and ranked. -/
theorem goUpdateStats_total (proc : Int → Option (String × Int)) (rank : Int → Nat)
    (ha : Acyclic rank proc) (fuel : Nat) (hf : ∀ k, rank k + 2 ≤ fuel) (s : Engine)
    (pid ppid : Int) (cpu : Nat) (cmd : String) (hwf : WF s) (hrk : Ranked rank s)
    (hcpu : cpu < U64) (hev : 1 < ppid → rank ppid < rank pid) :
    ∃ s', goUpdateStats proc fuel s pid ppid cpu cmd = some s' ∧ Ranked rank s' := by
  rw [goUpdateStats_eq]
  obtain ⟨u1, u2, u3, _, _, _, u9, _, _, _, u13, u14⟩ := updPre_spec s pid ppid cpu hwf
  have hru := u14 rank hrk hev
  generalize updPre s pid ppid cpu = u at u1 u2 u3 u9 u13 hru
  have hdet : specDelta s.initCpuCounters (storedCpu s pid) cpu < U64 :=
    lt_of_le_of_lt (specDelta_le _ _ _) hcpu
  have hcnt : updCnt s pid < U64 :=
    lt_of_le_of_lt (updCnt_le s pid) (by simp [U64])
  generalize specDelta s.initCpuCounters (storedCpu s pid) cpu = det at hdet
  generalize updCnt s pid = cnt at hcnt
  have hinc := incCmd_inc u.2 (u.2.procs u.1).ci cmd det cnt u1
    (fun c hc => u1.hci u.1 c u2 hc) hdet hcnt
  generalize incCmd u.2 (u.2.procs u.1).ci cmd det cnt = a at hinc
  have hpa : u.1 < a.2.nprocs := by rw [hinc.nprocs_eq]; exact u2
  have hra : Ranked rank a.2 := hru.of_procs hinc.procs_eq hinc.nprocs_eq
  have wf1 : WF (setProc a.2 u.1 { a.2.procs u.1 with ci := some a.1 }) :=
    setProc_wf hinc.wf u.1 _ rfl
      (fun q hq => hinc.wf.hppi u.1 q hpa hq)
      (by intro c hc; cases hc; exact hinc.target)
  have hr1 : Ranked rank (setProc a.2 u.1 { a.2.procs u.1 with ci := some a.1 }) :=
    setProc_ranked hra u.1 _ rfl (fun h => hra.hobj u.1 hpa h) (fun q hq => hra.hlink u.1 q hpa hq)
  have hs1' : ((setProc a.2 u.1 { a.2.procs u.1 with ci := some a.1 }).procs u.1).ppi
      = cachedPpi s pid := by
    simp only [setProc, Function.update_same]
    rw [hinc.procs_eq]; exact u13
  have hs1n : (setProc a.2 u.1 { a.2.procs u.1 with ci := some a.1 }).nprocs = a.2.nprocs := rfl
  have hs1m : (setProc a.2 u.1 { a.2.procs u.1 with ci := some a.1 }).procInfos
      = a.2.procInfos := rfl
  generalize setProc a.2 u.1 { a.2.procs u.1 with ci := some a.1 } = s1
    at wf1 hr1 hs1' hs1n hs1m
  have hp1 : u.1 < s1.nprocs := by rw [hs1n]; exact hpa
  have hpi : ∀ q, cachedPpi s pid = some q → q < s1.nprocs := by
    intro q hq
    rw [hs1n, hinc.nprocs_eq]
    exact lt_of_lt_of_le (cachedPpi_lt s pid hwf q hq) u9
  obtain ⟨r, hr⟩ := propagateStats_total proc rank ha fuel s1 pid (cachedPpi s pid) ppid det cnt
    wf1 hr1 (fun q hq => ⟨hpi q hq, hf _⟩) (fun _ => hf _)
  obtain ⟨e, _, hres⟩ := propagateStats_ext proc fuel s1 pid (cachedPpi s pid) ppid det cnt r
    wf1 hpi hr
  have hrr : Ranked rank r.2 := e.rk rank ha wf1 hr1
  have hwr : WF r.2 := e.wf wf1
  have hpr : u.1 < r.2.nprocs := lt_of_lt_of_le hp1 e.nprocs_le
  have hreg : r.2.procInfos pid = some u.1 := by
    apply e.map_mono
    rw [hs1m, hinc.map_eq]; exact u3
  refine ⟨_, by rw [hr]; rfl, ?_⟩
  refine setProc_ranked hrr u.1 { r.2.procs u.1 with ppi := r.1, cpu := cpu } rfl
    (fun h => hrr.hobj u.1 hpr h) ?_
  intro q hq
  simp only at hq ⊢
  rcases hres with ⟨_, hr0⟩ | ⟨hlt, q', hq', _, hn, hs⟩
  · rw [hr0] at hq; cases hq
  · rw [hq'] at hq
    have hqq : q' = q := Option.some.inj hq
    subst hqq
    cases hc : cachedPpi s pid with
    | some q0 =>
      have := hs q0 hc
      subst this
      apply hrr.hlink u.1 q' hpr
      apply e.ppi_some u.1 q' hp1
      rw [hs1', hc]
    | none =>
      rw [hwr.hkey _ _ (hn hc), hwr.hkey _ _ hreg]
      exact hev hlt

/-- Every event keeps the heap well-formed. -/
theorem handle_wf (proc : Int → Option (String × Int)) (fuel : Nat) (s s' : Engine)
    (e : Event) (hwf : WF s) (hcpu : e.cpu < U64) (h : handle proc fuel s e = some s') :
    WF s' := by
  cases e with
  | update pid ppid cpu cmd =>
    obtain ⟨_, _, hu⟩ := goUpdateStats_spec proc fuel s pid ppid cpu cmd s' hwf hcpu h
    exact hu.wf
  | exit pid ppid cpu cmd =>
    obtain ⟨_, _, hinc, e, _⟩ := goExitStats_spec proc fuel s pid ppid cpu cmd s' hwf hcpu h
    exact e.wf hinc.wf

/-- Every state reached by a run from a well-formed state is well-formed. -/
theorem run_wf (proc : Int → Option (String × Int)) (fuel : Nat) :
    ∀ (evs : List Event) (s s' : Engine), WF s → (∀ e ∈ evs, e.cpu < U64) →
      run proc fuel s evs = some s' → WF s' := by
  intro evs
  induction evs with
  | nil =>
    intro s s' hwf _ h
    simp only [run, Option.some.injEq] at h
    subst h
    exact hwf
  | cons e es ih =>
    intro s s' hwf hcpu h
    simp only [run] at h
    cases h1 : handle proc fuel s e with
    | none => simp [h1] at h
    | some s1 =>
      simp only [h1] at h
      exact ih s1 s' (handle_wf proc fuel s s1 e hwf (hcpu e (List.mem_cons_self _ _)) h1)
        (fun x hx => hcpu x (List.mem_cons_of_mem _ hx)) h


/-- C1: from the empty state, with the lookup resolving `B` to `(cB, C)` and `C`
to `(cC, R)` with `R ≤ 1` the root, and the three command names distinct, the
exit of process `A` (a non-zero pid) with parent `B` and cumulative cpu time `t`
returns, gives `cA` own count 1 and own time `t` with untouched subtree
counters, and gives `cB` and `cC` subtree count 1 and subtree time `t` each. -/
theorem exit_three_level_chain (proc : Int → Option (String × Int)) (A B C R : Int) (t : Nat)
    (cA cB cC : String) (fuel : Nat)
    (hA : A ≠ 0) (hB : 1 < B) (hC : 1 < C) (hR : R ≤ 1) (ht : t < U64)
    (hpB : proc B = some (cB, C)) (hpC : proc C = some (cC, R))
    (hAB : cA ≠ cB) (hAC : cA ≠ cC) (hBC : cB ≠ cC) (hf : 3 ≤ fuel) :
    ∃ s', goExitStats proc fuel Engine.empty A B t cA = some s' ∧
      ledger s' cA = some ⟨cA, 0, 0, 1, t, 0⟩ ∧
      ledger s' cB = some ⟨cB, 1, t, 0, 0, A⟩ ∧
      ledger s' cC = some ⟨cC, 1, t, 0, 0, A⟩ := by
  obtain ⟨n, rfl⟩ : ∃ n, fuel = n + 3 := ⟨fuel - 3, by omega⟩
  have hBne : B ≠ C := by
    intro h; rw [h, hpC] at hpB; cases hpB; exact hBC rfl
  have hB' : ¬ B ≤ 1 := by omega
  have hC' : ¬ C ≤ 1 := by omega
  have hA0 : A ≠ 0 := hA
  have hB0 : B ≠ 0 := by omega
  have hC0 : C ≠ 0 := by omega
  have ht' : t % U64 = t := Nat.mod_eq_of_lt ht
  have h1 : 1 % U64 = 1 := by simp [U64]
  by_cases hR0 : R = 0
  · subst hR0
    simp [goExitStats, propagateStats, incCmd, resolveProc, creditSub, newCmd, newProc,
      readProcStat, setProc, setCmd, mapGet, mapPut, ledger, Engine.empty, Function.update_apply,
      hB', hC', hpB, hpC, hAB, hAC, hBC, hAB.symm, hAC.symm, hBC.symm, hA0, hB0, hC0, hBne, hBne.symm, ht', h1]
  · simp [goExitStats, propagateStats, incCmd, resolveProc, creditSub, newCmd, newProc,
      readProcStat, setProc, setCmd, mapGet, mapPut, ledger, Engine.empty, Function.update_apply,
      hB', hC', hpB, hpC, hAB, hAC, hBC, hAB.symm, hAC.symm, hBC.symm, hA0, hB0, hC0, hBne, hBne.symm, ht', h1,
      hR, hR0]

/-- C1 at the chain 10 → 5 → 6 → root with 5000 us. -/
theorem exit_three_level_chain_witness :
    ∃ s', goExitStats chainProc 3 Engine.empty 10 5 5000 "a" = some s' ∧
      ledger s' "a" = some ⟨"a", 0, 0, 1, 5000, 0⟩ ∧
      ledger s' "b" = some ⟨"b", 1, 5000, 0, 0, 10⟩ ∧
      ledger s' "c" = some ⟨"c", 1, 5000, 0, 0, 10⟩ :=
  exit_three_level_chain chainProc 10 5 6 1 5000 "a" "b" "c" 3 (by decide) (by decide)
    (by decide) (by decide) (by decide) (by decide) (by decide) (by decide) (by decide)
    (by decide) (by decide)

theorem rsum_succ (f : Nat → Nat) (n : Nat) : rsum f (n + 1) = rsum f n + f n := by
  simp [rsum, List.range_succ]

theorem rsum_congr (f g : Nat → Nat) (n : Nat) (h : ∀ c, c < n → f c = g c) :
    rsum f n = rsum g n := by
  induction n with
  | zero => rfl
  | succ n ih =>
    rw [rsum_succ, rsum_succ, ih (fun c hc => h c (by omega)), h n (by omega)]

theorem rsum_zero_tail (f : Nat → Nat) (m n : Nat) (hmn : m ≤ n)
    (h : ∀ c, m ≤ c → c < n → f c = 0) : rsum f n = rsum f m := by
  induction n with
  | zero =>
    have : m = 0 := by omega
    rw [this]
  | succ n ih =>
    by_cases hm : m = n + 1
    · rw [hm]
    · rw [rsum_succ, ih (by omega) (fun c h1 h2 => h c h1 (by omega)), h n (by omega) (by omega)]
      rfl

theorem rsum_bump (f g : Nat → Nat) (n c0 d : Nat) (hc : c0 < n)
    (h1 : ∀ c, c ≠ c0 → g c = f c) (h2 : g c0 = f c0 + d) : rsum g n = rsum f n + d := by
  induction n with
  | zero => omega
  | succ n ih =>
    rw [rsum_succ, rsum_succ]
    by_cases h : c0 = n
    · subst h
      rw [rsum_congr g f c0 (fun c hc' => h1 c (by omega)), h2]
      omega
    · rw [ih (by omega), h1 n (fun h' => h h'.symm)]
      omega

theorem rsum_le (f : Nat → Nat) (n c : Nat) (hc : c < n) : f c ≤ rsum f n := by
  induction n with
  | zero => omega
  | succ n ih =>
    rw [rsum_succ]
    by_cases h : c = n
    · subst h; omega
    · have := ih (by omega); omega

/-- Under `LedgerInv` the ledger sum is the sum over the command heap. -/
theorem sumOwnEc_eq (s : Engine) (h : LedgerInv s) :
    sumOwnEc s = rsum (fun c => (ownView s c).1) s.ncmds := by
  unfold sumOwnEc rsum
  unfold LedgerInv at h
  have e : s.cmdInfos.map (fun e => (s.cmds e.2).ec)
      = (s.cmdInfos.map Prod.snd).map (fun c => (s.cmds c).ec) := by
    rw [List.map_map]; rfl
  rw [e, h]
  congr 1
  apply List.map_congr_left
  intro c hc
  have : c < s.ncmds := List.mem_range.mp hc
  simp [ownView, this]

/-- One `Exit` event adds exactly one to the ledger sum of own counts. -/
theorem goExitStats_sum (proc : Int → Option (String × Int)) (fuel : Nat) (s : Engine)
    (pid ppid : Int) (cpu : Nat) (cmd : String) (s' : Engine) (hwf : WF s)
    (hl : LedgerInv s) (hcpu : cpu < U64) (hk : sumOwnEc s + 1 < U64)
    (h : goExitStats proc fuel s pid ppid cpu cmd = some s') :
    WF s' ∧ LedgerInv s' ∧ sumOwnEc s' = sumOwnEc s + 1 := by
  obtain ⟨c0, sm, hinc, e, _⟩ := goExitStats_spec proc fuel s pid ppid cpu cmd s' hwf hcpu h
  have hl0 : LedgerInv (exitPre s pid) := hl
  have hlm : LedgerInv sm := hinc.linv hl0
  have hl' : LedgerInv s' := e.linv hinc.wf hlm
  refine ⟨e.wf hinc.wf, hl', ?_⟩
  rw [sumOwnEc_eq s' hl', sumOwnEc_eq s hl]
  rw [sumOwnEc_eq s hl] at hk
  have hv0 : ∀ c, ownView (exitPre s pid) c = ownView s c := fun c => rfl
  -- after the walk the own counters are those left by `incCmd`
  have e1 : rsum (fun c => (ownView s' c).1) s'.ncmds
      = rsum (fun c => (ownView sm c).1) sm.ncmds := by
    rw [rsum_congr _ (fun c => (ownView sm c).1) _ (fun c _ => by rw [e.own c])]
    exact rsum_zero_tail _ _ _ e.ncmds_le (fun c h1 _ => by rw [ownView_zero sm c h1])
  have hle : (ownView s c0).1 ≤ rsum (fun c => (ownView s c).1) s.ncmds := by
    by_cases hc : c0 < s.ncmds
    · exact rsum_le (fun c => (ownView s c).1) _ _ hc
    · rw [ownView_zero s c0 (by omega)]; exact Nat.zero_le _
  have e2 : rsum (fun c => (ownView sm c).1) sm.ncmds
      = rsum (fun c => (ownView s c).1) sm.ncmds + 1 := by
    apply rsum_bump _ _ _ c0 1 hinc.target
    · intro c hc
      rw [hinc.own_other c hc, hv0]
    · rw [hinc.own_target, hv0]
      exact Nat.mod_eq_of_lt (by omega)
  have e3 : rsum (fun c => (ownView s c).1) sm.ncmds
      = rsum (fun c => (ownView s c).1) s.ncmds :=
    rsum_zero_tail _ _ _ hinc.ncmds_le (fun c h1 _ => by rw [ownView_zero s c h1])
  rw [e1, e2, e3]

theorem Engine.empty_wf : WF Engine.empty := by
  refine ⟨?_, ?_, ?_, ?_, ?_, ?_⟩ <;> intros <;> simp_all [Engine.empty, mapGet]

theorem Engine.empty_ranked (rank : Int → Nat) : Ranked rank Engine.empty := by
  refine ⟨?_, ?_⟩ <;> intros <;> simp_all [Engine.empty]

theorem Engine.empty_linv : LedgerInv Engine.empty := by
  simp [LedgerInv, Engine.empty]

/-- Pairwise distinct 32-bit pids: there are at most `2^32` of them. -/
theorem length_le_of_nodup_int32 (l : List Int) (hnd : l.Nodup)
    (hr : ∀ x ∈ l, -2147483648 ≤ x ∧ x ≤ 2147483647) : l.length ≤ 4294967296 := by
  have h1 : l.toFinset.card = l.length := List.toFinset_card_of_nodup hnd
  have h2 : l.toFinset ⊆ Finset.Icc (-2147483648 : Int) 2147483647 := by
    intro x hx
    rw [List.mem_toFinset] at hx
    rw [Finset.mem_Icc]
    exact hr x hx
  have h3 := Finset.card_le_card h2
  rw [Int.card_Icc] at h3
  rw [← h1]
  simpa using h3

/-- A run of `Exit` events adds the number of events to the ledger sum. -/
theorem run_exits_sum (proc : Int → Option (String × Int)) (fuel : Nat) :
    ∀ (evs : List Event) (s s' : Engine), WF s → LedgerInv s →
      (∀ e ∈ evs, e.isExit = true) → (∀ e ∈ evs, e.cpu < U64) →
      sumOwnEc s + evs.length < U64 →
      run proc fuel s evs = some s' → sumOwnEc s' = sumOwnEc s + evs.length := by
  intro evs
  induction evs with
  | nil =>
    intro s s' _ _ _ _ _ h
    simp only [run, Option.some.injEq] at h
    subst h
    simp
  | cons e es ih =>
    intro s s' hwf hl hex hcpu hk h
    simp only [run] at h
    cases e with
    | update pid ppid cpu cmd =>
      have := hex (.update pid ppid cpu cmd) (List.mem_cons_self _ _)
      simp [Event.isExit] at this
    | exit pid ppid cpu cmd =>
      simp only [handle] at h
      cases h1 : goExitStats proc fuel s pid ppid cpu cmd with
      | none => simp [h1] at h
      | some s1 =>
        simp only [h1] at h
        have hc : cpu < U64 := hcpu (.exit pid ppid cpu cmd) (List.mem_cons_self _ _)
        simp only [List.length_cons] at hk
        obtain ⟨w1, l1, e1⟩ := goExitStats_sum proc fuel s pid ppid cpu cmd s1 hwf hl hc
          (by omega) h1
        have := ih s1 s' w1 l1 (fun e he => hex e (List.mem_cons_of_mem _ he))
          (fun e he => hcpu e (List.mem_cons_of_mem _ he)) (by omega) h
        rw [this, e1, List.length_cons]
        omega

/-- A run of `Exit` events returns when the process tree is acyclic. -/
theorem run_exits_total (proc : Int → Option (String × Int)) (rank : Int → Nat)
    (ha : Acyclic rank proc) (fuel : Nat) (hf : ∀ k, rank k + 2 ≤ fuel) :
    ∀ (evs : List Event) (s : Engine), WF s → Ranked rank s →
      (∀ e ∈ evs, e.isExit = true) → (∀ e ∈ evs, e.cpu < U64) →
      ∃ s', run proc fuel s evs = some s' := by
  intro evs
  induction evs with
  | nil => intro s _ _ _ _; exact ⟨s, rfl⟩
  | cons e es ih =>
    intro s hwf hr hex hcpu
    cases e with
    | update pid ppid cpu cmd =>
      have := hex (.update pid ppid cpu cmd) (List.mem_cons_self _ _)
      simp [Event.isExit] at this
    | exit pid ppid cpu cmd =>
      have hc : cpu < U64 := hcpu (.exit pid ppid cpu cmd) (List.mem_cons_self _ _)
      obtain ⟨s1, h1, w1, r1⟩ := goExitStats_total proc rank ha fuel hf s pid ppid cpu cmd
        hwf hr hc
      obtain ⟨s', h'⟩ := ih s1 w1 r1 (fun e he => hex e (List.mem_cons_of_mem _ he))
        (fun e he => hcpu e (List.mem_cons_of_mem _ he))
      exact ⟨s', by simp only [run, handle, h1]; exact h'⟩

/-- C2: from the empty state, after any sequence of `Exit` events with pairwise
distinct (32-bit) pids the own execution counts of the ledger sum up to the
number of events, whatever the lookup returns; and the run does return when
the lookup describes an acyclic process tree within the recursion budget. -/
theorem exits_sum_own_count (proc : Int → Option (String × Int)) (fuel : Nat)
    (evs : List Event) (hex : ∀ e ∈ evs, e.isExit = true)
    (hnd : (evs.map Event.pid).Nodup)
    (hpid : ∀ e ∈ evs, -2147483648 ≤ e.pid ∧ e.pid ≤ 2147483647)
    (hcpu : ∀ e ∈ evs, e.cpu < U64) :
    (∀ s', run proc fuel Engine.empty evs = some s' → sumOwnEc s' = evs.length) ∧
    (∀ rank, Acyclic rank proc → (∀ k, rank k + 2 ≤ fuel) →
      ∃ s', run proc fuel Engine.empty evs = some s') := by
  have hlen : evs.length ≤ 4294967296 := by
    have := length_le_of_nodup_int32 (evs.map Event.pid) hnd (by
      intro x hx
      rw [List.mem_map] at hx
      obtain ⟨e, he, rfl⟩ := hx
      exact hpid e he)
    simpa using this
  have h0 : sumOwnEc Engine.empty = 0 := by simp [sumOwnEc, Engine.empty]
  constructor
  · intro s' h
    have := run_exits_sum proc fuel evs Engine.empty s' Engine.empty_wf Engine.empty_linv
      hex hcpu (by rw [h0]; simp only [U64]; omega) h
    rw [this, h0]; simp
  · intro rank ha hf
    exact run_exits_total proc rank ha fuel hf evs Engine.empty Engine.empty_wf
      (Engine.empty_ranked rank) hex hcpu

/-- C2 on two exits below the chain 5 → 6 → root: the run returns and the own
counts sum up to 2. -/
theorem exits_sum_own_count_witness :
    ∃ s', run chainProc 4 Engine.empty [.exit 10 5 5000 "a", .exit 11 5 70 "a"] = some s' ∧
      sumOwnEc s' = 2 := by
  have h := exits_sum_own_count chainProc 4 [.exit 10 5 5000 "a", .exit 11 5 70 "a"]
    (by decide) (by decide) (by decide) (by decide)
  obtain ⟨s', hs⟩ := h.2 (fun k => if k = 5 then 2 else if k = 6 then 1 else 0)
    (by
      intro pid r hr hlt
      unfold chainProc at hr
      split at hr
      · next h5 => cases hr; subst h5; decide
      · split at hr
        · cases hr; simp at hlt
        · cases hr)
    (by intro k; dsimp only; split <;> [skip; split] <;> omega)
  exact ⟨s', hs, h.1 s' hs⟩

/-- C3 fails as stated for the command of the event: pid 5 is in the registry
with the cached command "b" and stored value 0 (resolved while its child 10
exited); an `Update` of pid 5 with the value 7 under the name "sh" adds the delta
7 to the own time of "b" and leaves no entry "sh" at all. -/
theorem update_cached_command_counterexample :
    ((goExitStats chainProc 3 Engine.empty 10 5 100 "child").bind
      (fun s1 => (goUpdateStats chainProc 3 s1 5 6 7 "sh").map
        (fun s2 => (cachedCi s1 5, ledger s1 "b", ledger s2 "b", ledger s2 "sh",
          storedCpu s2 5))))
      = some (some 1, some ⟨"b", 1, 100, 0, 0, 10⟩, some ⟨"b", 1, 100, 0, 7, 10⟩, none,
          some 7) := by
  decide

/-- C3, amended: an `Update` event with new cumulative value `cpu` adds to the own
execution time of exactly one command record the delta the specification
describes (`specDelta`: 0 on a re-seed, `cpu` for a pid not in the registry,
`cpu - p` for a stored `p ≤ cpu`, `cpu` for a stored `p > cpu`) and leaves the own
time of every other record alone.  The record is the one cached in the registry
record of the pid when there is one, otherwise the ledger entry named by the
event's command; it is the command record of the pid afterwards, and the
registry record of the pid stores `cpu`.  The handler returns when the process
tree is acyclic. -/
theorem update_delta (proc : Int → Option (String × Int)) (fuel : Nat) (s : Engine)
    (pid ppid : Int) (cpu : Nat) (cmd : String) (hwf : WF s) (hcpu : cpu < U64) :
    (∀ s', goUpdateStats proc fuel s pid ppid cpu cmd = some s' →
      ∃ p c0, s'.procInfos pid = some p ∧ (s'.procs p).cpu = cpu ∧
        (s'.procs p).ci = some c0 ∧ c0 < s'.ncmds ∧
        (∀ c, cachedCi s pid = some c → c0 = c) ∧
        (cachedCi s pid = none → mapGet s'.cmdInfos cmd = some c0) ∧
        (ownView s' c0).2
          = ((ownView s c0).2 + specDelta s.initCpuCounters (storedCpu s pid) cpu) % U64 ∧
        (∀ c, c ≠ c0 → (ownView s' c).2 = (ownView s c).2)) ∧
    (∀ rank, Acyclic rank proc → Ranked rank s → (1 < ppid → rank ppid < rank pid) →
      (∀ k, rank k + 2 ≤ fuel) →
      ∃ s', goUpdateStats proc fuel s pid ppid cpu cmd = some s') := by
  constructor
  · intro s' h
    obtain ⟨p, c0, hu⟩ := goUpdateStats_spec proc fuel s pid ppid cpu cmd s' hwf hcpu h
    refine ⟨p, c0, hu.reg, hu.rec_cpu, hu.rec_ci, hu.target, ?_, ?_, ?_, ?_⟩
    · intro c hc
      rcases hu.target_src with a | ⟨a, _⟩
      · rw [hc] at a
        exact (Option.some.inj a).symm
      · rw [hc] at a
        cases a
    · intro hn
      rcases hu.target_src with a | ⟨_, a⟩
      · rw [hn] at a
        cases a
      · exact a
    · rw [hu.own_target]
    · intro c hc
      rw [hu.own_other c hc]
  · intro rank ha hr hev hf
    obtain ⟨s', h, _⟩ := goUpdateStats_total proc rank ha fuel hf s pid ppid cpu cmd hwf hr
      hcpu hev
    exact ⟨s', h⟩

/-- C3 (amended) on a pid in the registry: after the exit of pid 10 has resolved
its parent 5 (cached command "b", stored value 0), the `Update` of pid 5 under the
name "sh" returns and credits the cached record with the delta. -/
theorem update_delta_witness :
    ∃ s1 s', goExitStats chainProc 4 Engine.empty 10 5 100 "child" = some s1 ∧
      goUpdateStats chainProc 4 s1 5 6 7 "sh" = some s' ∧
      ∃ p c0, s'.procInfos 5 = some p ∧ (s'.procs p).cpu = 7 ∧
        (s'.procs p).ci = some c0 ∧ c0 < s'.ncmds ∧
        (∀ c, cachedCi s1 5 = some c → c0 = c) ∧
        (cachedCi s1 5 = none → mapGet s'.cmdInfos "sh" = some c0) ∧
        (ownView s' c0).2
          = ((ownView s1 c0).2 + specDelta s1.initCpuCounters (storedCpu s1 5) 7) % U64 ∧
        (∀ c, c ≠ c0 → (ownView s' c).2 = (ownView s1 c).2) := by
  have ha : Acyclic (fun k => if k = 6 then 0 else if k = 5 then 1 else 2) chainProc := by
    intro pid r hr hlt
    unfold chainProc at hr
    split at hr
    · next h5 => cases hr; subst h5; decide
    · split at hr
      · cases hr; simp at hlt
      · cases hr
  have hf : ∀ k : Int, (fun k => if k = 6 then 0 else if k = 5 then 1 else 2) k + 2 ≤ 4 := by
    intro k; dsimp only; split <;> [skip; split] <;> omega
  obtain ⟨s1, h1, w1, r1⟩ := goExitStats_total chainProc _ ha 4 hf Engine.empty 10 5 100
    "child" Engine.empty_wf (Engine.empty_ranked _) (by decide)
  have h := update_delta chainProc 4 s1 5 6 7 "sh" w1 (by decide)
  obtain ⟨s', h'⟩ := h.2 _ ha r1 (by intro _; decide) hf
  exact ⟨s1, s', h1, h', h.1 s' h'⟩



/-- The overflow example of the specification run on the code: stored 100, new
reading 50 credits 50 (own time 150 after the two readings). -/
theorem update_overflow_example :
    ((goUpdateStats chainProc 3 Engine.empty 7 1 100 "x").bind
      (fun s1 => (goUpdateStats chainProc 3 s1 7 1 50 "x").map
        (fun s2 => (ledger s1 "x", ledger s2 "x", storedCpu s2 7))))
      = some (some ⟨"x", 0, 0, 1, 100, 0⟩, some ⟨"x", 0, 0, 1, 150, 0⟩, some 50) := by
  decide

/-- C4 fails as stated: pid 5 is in the registry with the cached command "b"
(resolved while its child 10 exited); its own exit under the name "sh" credits
"b" and leaves no entry "sh" at all. -/
theorem exit_cached_command_counterexample :
    ((goExitStats chainProc 3 Engine.empty 10 5 100 "child").bind
      (fun s1 => (goExitStats chainProc 3 s1 5 6 7 "sh").map
        (fun s2 => (cachedCi s1 5, ledger s1 "b", ledger s2 "b", ledger s2 "sh"))))
      = some (some 1, some ⟨"b", 1, 100, 0, 0, 10⟩, some ⟨"b", 1, 100, 1, 7, 10⟩, none) := by
  decide

/-- C4, amended: an `Exit` event adds `cpu` to the own time and 1 to the own
count (modulo `2^64`) of exactly one command record and leaves the own totals of
every other record unchanged; the record is the one cached in the registry
record of the pid when there is one, otherwise the ledger entry named by the
event's command.  The handler returns when the process tree is acyclic. -/
theorem exit_own_credit (proc : Int → Option (String × Int)) (fuel : Nat) (s : Engine)
    (pid ppid : Int) (cpu : Nat) (cmd : String) (hwf : WF s) (hcpu : cpu < U64) :
    (∀ s', goExitStats proc fuel s pid ppid cpu cmd = some s' →
      ∃ c0, c0 < s'.ncmds ∧ (∀ c, cachedCi s pid = some c → c0 = c) ∧
        (cachedCi s pid = none → mapGet s'.cmdInfos cmd = some c0) ∧
        ownView s' c0 = (((ownView s c0).1 + 1) % U64, ((ownView s c0).2 + cpu) % U64) ∧
        (∀ c, c ≠ c0 → ownView s' c = ownView s c)) ∧
    (∀ rank, Acyclic rank proc → Ranked rank s → (∀ k, rank k + 2 ≤ fuel) →
      ∃ s', goExitStats proc fuel s pid ppid cpu cmd = some s') := by
  constructor
  · intro s' h
    obtain ⟨c0, sm, hinc, e, _⟩ := goExitStats_spec proc fuel s pid ppid cpu cmd s' hwf hcpu h
    have hv0 : ∀ c, ownView (exitPre s pid) c = ownView s c := fun c => rfl
    refine ⟨c0, lt_of_lt_of_le hinc.target e.ncmds_le, hinc.given, ?_, ?_, ?_⟩
    · intro hn
      exact e.led_mono _ _ (hinc.named hn)
    · rw [e.own, hinc.own_target, hv0]
    · intro c hc
      rw [e.own, hinc.own_other c hc, hv0]
  · intro rank ha hr hf
    obtain ⟨s', h, _⟩ := goExitStats_total proc rank ha fuel hf s pid ppid cpu cmd hwf hr hcpu
    exact ⟨s', h⟩

/-- C4 (amended) on the empty state. -/
theorem exit_own_credit_witness :
    (∀ s', goExitStats chainProc 3 Engine.empty 10 5 100 "a" = some s' →
      ∃ c0, c0 < s'.ncmds ∧ (∀ c, cachedCi Engine.empty 10 = some c → c0 = c) ∧
        (cachedCi Engine.empty 10 = none → mapGet s'.cmdInfos "a" = some c0) ∧
        ownView s' c0 = (((ownView Engine.empty c0).1 + 1) % U64,
          ((ownView Engine.empty c0).2 + 100) % U64) ∧
        (∀ c, c ≠ c0 → ownView s' c = ownView Engine.empty c)) ∧
    (∀ rank, Acyclic rank chainProc → Ranked rank Engine.empty → (∀ k, rank k + 2 ≤ 3) →
      ∃ s', goExitStats chainProc 3 Engine.empty 10 5 100 "a" = some s') :=
  exit_own_credit chainProc 3 Engine.empty 10 5 100 "a" Engine.empty_wf (by decide)



theorem ownView_lt (s : Engine) (hwf : WF s) (c : Nat) :
    (ownView s c).1 < U64 ∧ (ownView s c).2 < U64 := by
  unfold ownView
  split
  · next h => exact ⟨(hwf.hu64 c h).1, (hwf.hu64 c h).2.1⟩
  · exact ⟨U64_pos, U64_pos⟩

theorem subView_lt (s : Engine) (hwf : WF s) (c : Nat) :
    (subView s c).1 < U64 ∧ (subView s c).2.1 < U64 := by
  unfold subView
  split
  · next h => exact ⟨(hwf.hu64 c h).2.2.1, (hwf.hu64 c h).2.2.2⟩
  · exact ⟨U64_pos, U64_pos⟩

/-- C5 fails as stated: the first `Update` of pid 10 (not yet in the registry)
gives its command "a" own count 1 and its ancestors "b" and "c" subtree count 1. -/
theorem update_first_seen_counterexample :
    (goUpdateStats chainProc 3 Engine.empty 10 5 100 "a").map
      (fun s => (ledger s "a", ledger s "b", ledger s "c"))
      = some (some ⟨"a", 0, 0, 1, 100, 0⟩, some ⟨"b", 1, 100, 0, 0, 10⟩,
          some ⟨"c", 1, 100, 0, 0, 10⟩) := by
  decide



theorem subTotals_eq (s : Engine) (hwf : WF s) (cmd : String) (c : Nat)
    (h : mapGet s.cmdInfos cmd = some c) :
    subTotals s cmd = ((subView s c).1, (subView s c).2.1) := by
  have hc := hwf.hled cmd c h
  simp [subTotals, ledger, h, subView, hc]

theorem subTotals_none (s : Engine) (cmd : String) (h : mapGet s.cmdInfos cmd = none) :
    subTotals s cmd = (0, 0) := by
  simp [subTotals, ledger, h]

/-- Subtree totals by command name across one walk: unchanged or credited once. -/
theorem Ext.subTotals {proc : Int → Option (String × Int)} {spid : Int} {et ec : Nat}
    {s s' : Engine} (e : Ext proc spid et ec s s') (hwf : WF s) (cmd : String) :
    Topfast.subTotals s' cmd = Topfast.subTotals s cmd ∨
    Topfast.subTotals s' cmd = (((Topfast.subTotals s cmd).1 + ec) % U64,
      ((Topfast.subTotals s cmd).2 + et) % U64) := by
  have hwf' := e.wf hwf
  cases h' : mapGet s'.cmdInfos cmd with
  | none =>
    have h0 : mapGet s.cmdInfos cmd = none := by
      cases h0 : mapGet s.cmdInfos cmd with
      | none => rfl
      | some c => rw [e.led_mono cmd c h0] at h'; cases h'
    left
    rw [subTotals_none s' cmd h', subTotals_none s cmd h0]
  | some c =>
    rw [subTotals_eq s' hwf' cmd c h']
    have hv : Topfast.subTotals s cmd = ((subView s c).1, (subView s c).2.1) := by
      rcases e.led_new cmd c h' with a | ⟨a, b⟩
      · exact subTotals_eq s hwf cmd c a
      · rw [subTotals_none s cmd a]
        have : ¬ c < s.ncmds := by omega
        simp [subView, this]
    rw [hv]
    rcases e.sub c with a | ⟨_, a⟩
    · left; rw [a]
    · right; rw [a]

theorem repeatWalk_settled (proc : Int → Option (String × Int)) (fuel : Nat) (spid : Int)
    (pi : Option Nat) (pid : Int) (et ec : Nat) (s : Engine)
    (h : Settled s spid fuel pi pid) :
    ∀ k, repeatWalk proc fuel spid pi pid et ec k s = some s := by
  intro k
  induction k with
  | zero => rfl
  | succ k ih =>
    obtain ⟨r, hr⟩ := propagateStats_of_settled proc fuel s spid pi pid et ec h
    simp only [repeatWalk, hr]
    exact ih

/-- C6 (dedup): when one walk of `propagateStats` returns (the ancestor chain is
finite), any number `k ≥ 1` of consecutive invocations with the same source pid,
start and deltas returns too and ends in the state the first one left; against
the state before, every command's subtree count and time are either unchanged
or raised by `ec` and `et` once (modulo `2^64`), and they are the same after
`k` invocations as after one. -/
theorem walk_dedup (proc : Int → Option (String × Int)) (fuel : Nat) (s : Engine)
    (spid : Int) (pi : Option Nat) (pid : Int) (et ec : Nat) (r : Option Nat × Engine)
    (hwf : WF s) (hpi : ∀ p, pi = some p → p < s.nprocs)
    (h : propagateStats proc fuel s spid pi pid et ec = some r) :
    ∀ k, 1 ≤ k → ∃ sk, repeatWalk proc fuel spid pi pid et ec k s = some sk ∧
      (∀ cmd, subTotals sk cmd = subTotals s cmd ∨
        subTotals sk cmd = (((subTotals s cmd).1 + ec) % U64,
          ((subTotals s cmd).2 + et) % U64)) ∧
      (∀ cmd, subTotals sk cmd = subTotals r.2 cmd) := by
  intro k hk
  obtain ⟨e, hs, _⟩ := propagateStats_ext proc fuel s spid pi pid et ec r hwf hpi h
  obtain ⟨m, rfl⟩ : ∃ m, k = m + 1 := ⟨k - 1, by omega⟩
  refine ⟨r.2, ?_, fun cmd => e.subTotals hwf cmd, fun _ => rfl⟩
  simp only [repeatWalk, h]
  exact repeatWalk_settled proc fuel spid pi pid et ec r.2 hs m

/-- C6 on the chain 5 → 6 → root, walked three times for source pid 10. -/
theorem walk_dedup_witness :
    ∃ sk, repeatWalk chainProc 3 10 none 5 100 1 3 Engine.empty = some sk ∧
      (∀ cmd, subTotals sk cmd = subTotals Engine.empty cmd ∨
        subTotals sk cmd = (((subTotals Engine.empty cmd).1 + 1) % U64,
          ((subTotals Engine.empty cmd).2 + 100) % U64)) ∧
      subTotals sk "b" = (1, 100) := by
  obtain ⟨r, hr⟩ : ∃ r, propagateStats chainProc 3 Engine.empty 10 none 5 100 1 = some r :=
    Option.isSome_iff_exists.mp (by decide)
  obtain ⟨sk, h1, h2, h3⟩ := walk_dedup chainProc 3 Engine.empty 10 none 5 100 1 r
    Engine.empty_wf (by intro p hp; cases hp) hr 3 (by decide)
  refine ⟨sk, h1, h2, ?_⟩
  rw [h3]
  have : (propagateStats chainProc 3 Engine.empty 10 none 5 100 1).map
      (fun r => subTotals r.2 "b") = some (1, 100) := by decide
  rw [hr] at this
  exact Option.some.inj this

/-- Several ancestors under one command name are credited once: 5 and 6 both
run "sh", and one walk raises the subtree count of "sh" by 1, not 2. -/
theorem walk_shared_name_example :
    (propagateStats (fun p => if p = 5 then some ("sh", 6) else if p = 6 then some ("sh", 1)
      else none) 3 Engine.empty 10 none 5 100 1).map (fun r => subTotals r.2 "sh")
      = some (1, 100) := by
  decide



/-- A walk changes the subtree counters of the command records it reaches only. -/
theorem propagateStats_touched (proc : Int → Option (String × Int)) :
    ∀ (n : Nat) (s : Engine) (spid : Int) (pi : Option Nat) (pid : Int) (et ec : Nat)
      (r : Option Nat × Engine), WF s → (∀ p, pi = some p → p < s.nprocs) →
      propagateStats proc n s spid pi pid et ec = some r →
      ∀ c, subView r.2 c ≠ subView s c → c ∈ walkedCmds proc n s spid pi pid et ec := by
  intro n
  induction n with
  | zero => intro s spid pi pid et ec r _ _ h; simp [propagateStats] at h
  | succ n ih =>
    intro s spid pi pid et ec r hwf hpi h c hc
    simp only [propagateStats] at h
    simp only [walkedCmds]
    by_cases hpid : pid ≤ 1
    · simp only [hpid, if_true, Option.some.injEq] at h
      subst h
      exact absurd rfl hc
    · simp only [hpid, if_false] at h ⊢
      obtain ⟨ha1, ha2, _, _, ha5⟩ := resolveProc_ext proc s pi pid spid et ec hpi hwf
      generalize resolveProc proc s pi pid = a at h ha1 ha2 ha5
      obtain ⟨p, s1⟩ := a
      simp only at h ha1 ha2 ha5 ⊢
      have hwf1 : WF s1 := ha1.wf hwf
      obtain ⟨hc1, hc2, _, hc4, _, hc6⟩ := creditSub_ext proc s1 spid p et ec ha2 hwf1
      generalize creditSub s1 spid p et ec = s2 at h hc1 hc2 hc4 hc6
      have hwf2 : WF s2 := hc1.wf hwf1
      have hp2 : p < s2.nprocs := by rw [hc4]; exact ha2
      have hhead : subView s2 c ≠ subView s c → (s2.procs p).ci = some c := by
        intro hne
        by_contra hci
        apply hne
        rw [hc6 c (by rw [← hc2]; exact hci), ha5 c]
      have key : ∀ s3 : Engine, (subView s3 c ≠ subView s2 c →
          c ∈ (if (s2.procs p).ppid ≠ 0 then
            walkedCmds proc n s2 spid (s2.procs p).ppi (s2.procs p).ppid et ec else [])) →
          subView s3 c ≠ subView s c →
          c ∈ (match (s2.procs p).ci with
              | some c => [c]
              | none => []) ++
            (if (s2.procs p).ppid ≠ 0 then
              walkedCmds proc n s2 spid (s2.procs p).ppi (s2.procs p).ppid et ec else []) := by
        intro s3 h3 hne
        rw [List.mem_append]
        by_cases h2 : subView s2 c = subView s c
        · right
          apply h3
          rw [h2]; exact hne
        · left
          rw [hhead h2]
          simp
      by_cases hpp : (s2.procs p).ppid = 0
      · simp only [hpp, ne_eq, not_true_eq_false, if_false, Option.some.injEq] at h
        subst h
        apply key s2 (fun h' => absurd rfl h') hc
      · simp only [ne_eq, hpp, not_false_eq_true, if_true] at h
        cases hq : (s2.procs p).ppi with
        | some q =>
          simp only [hq] at h
          rw [hq] at key
          cases hrec : propagateStats proc n s2 spid (some q) (s2.procs p).ppid et ec with
          | none => simp [hrec] at h
          | some r3 =>
            simp only [hrec, Option.some.injEq] at h
            subst h
            have := ih s2 spid (some q) (s2.procs p).ppid et ec r3 hwf2
              (by intro p' hp'; cases hp'; exact hwf2.hppi p q hp2 hq) hrec c
            apply key r3.2 _ hc
            intro h'
            simp only [ne_eq, hpp, not_false_eq_true, if_true]
            exact this h'
        | none =>
          simp only [hq] at h
          rw [hq] at key
          cases hrec : propagateStats proc n s2 spid none (s2.procs p).ppid et ec with
          | none => simp [hrec] at h
          | some r3 =>
            simp only [hrec, Option.some.injEq] at h
            subst h
            have := ih s2 spid none (s2.procs p).ppid et ec r3 hwf2
              (by intro p' hp'; cases hp') hrec c
            have hv : subView (setProc r3.2 p { r3.2.procs p with ppi := r3.1 }) c
                = subView r3.2 c := subView_congr rfl rfl c
            rw [hv] at hc
            apply key r3.2 _ hc
            intro h'
            simp only [ne_eq, hpp, not_false_eq_true, if_true]
            exact this h'

/-- An `Exit` event changes the subtree counters of walked ancestors only. -/
theorem goExitStats_touched (proc : Int → Option (String × Int)) (fuel : Nat) (s : Engine)
    (pid ppid : Int) (cpu : Nat) (cmd : String) (s' : Engine) (hwf : WF s) (hcpu : cpu < U64)
    (h : goExitStats proc fuel s pid ppid cpu cmd = some s') :
    ∀ c, subView s' c ≠ subView s c → c ∈ exitAncestors proc fuel s pid ppid cpu cmd := by
  intro c hc
  rw [goExitStats_eq] at h
  simp only [exitAncestors, exitOwn]
  have hinc := incCmd_inc (exitPre s pid) (cachedCi s pid) cmd cpu 1 (exitPre_wf s pid hwf)
    (cachedCi_lt s pid hwf) hcpu (by simp [U64])
  generalize incCmd (exitPre s pid) (cachedCi s pid) cmd cpu 1 = a at h hinc
  cases hr : propagateStats proc fuel a.2 pid (cachedPpi s pid) ppid cpu 1 with
  | none => simp [hr] at h
  | some r =>
    simp only [hr, Option.map_some', Option.some.injEq] at h
    subst h
    apply propagateStats_touched proc fuel a.2 pid (cachedPpi s pid) ppid cpu 1 r hinc.wf
      (by
        intro p hp
        rw [hinc.nprocs_eq]
        exact cachedPpi_lt s pid hwf p hp) hr c
    rw [hinc.sub c]
    exact hc

/-- An `Update` event changes the subtree counters of walked ancestors only. -/
theorem goUpdateStats_touched (proc : Int → Option (String × Int)) (fuel : Nat) (s : Engine)
    (pid ppid : Int) (cpu : Nat) (cmd : String) (s' : Engine) (hwf : WF s) (hcpu : cpu < U64)
    (h : goUpdateStats proc fuel s pid ppid cpu cmd = some s') :
    ∀ c, subView s' c ≠ subView s c → c ∈ updAncestors proc fuel s pid ppid cpu cmd := by
  intro c hc
  rw [goUpdateStats_eq] at h
  simp only [updAncestors, updOwn]
  obtain ⟨u1, u2, _, _, ⟨u5, u6, _⟩, _, u9, _, _, _, _, _⟩ := updPre_spec s pid ppid cpu hwf
  generalize updPre s pid ppid cpu = u at h u1 u2 u5 u6 u9
  have hdet : specDelta s.initCpuCounters (storedCpu s pid) cpu < U64 :=
    lt_of_le_of_lt (specDelta_le _ _ _) hcpu
  have hcnt : updCnt s pid < U64 :=
    lt_of_le_of_lt (updCnt_le s pid) (by simp [U64])
  generalize specDelta s.initCpuCounters (storedCpu s pid) cpu = det at h hdet
  generalize updCnt s pid = cnt at h hcnt
  have hinc := incCmd_inc u.2 (u.2.procs u.1).ci cmd det cnt u1
    (fun c hc => u1.hci u.1 c u2 hc) hdet hcnt
  generalize incCmd u.2 (u.2.procs u.1).ci cmd det cnt = a at h hinc
  have hpa : u.1 < a.2.nprocs := by rw [hinc.nprocs_eq]; exact u2
  have wf1 : WF (setProc a.2 u.1 { a.2.procs u.1 with ci := some a.1 }) :=
    setProc_wf hinc.wf u.1 _ rfl
      (fun q hq => hinc.wf.hppi u.1 q hpa hq)
      (by intro c hc; cases hc; exact hinc.target)
  have hs1n : (setProc a.2 u.1 { a.2.procs u.1 with ci := some a.1 }).nprocs = a.2.nprocs := rfl
  have hs1v : subView (setProc a.2 u.1 { a.2.procs u.1 with ci := some a.1 }) c
      = subView s c := by
    have e1 : subView (setProc a.2 u.1 { a.2.procs u.1 with ci := some a.1 }) c
        = subView a.2 c := subView_congr rfl rfl c
    rw [e1, hinc.sub c]
    exact subView_congr u6 u5 c
  generalize setProc a.2 u.1 { a.2.procs u.1 with ci := some a.1 } = s1 at h wf1 hs1n hs1v
  cases hr : propagateStats proc fuel s1 pid (cachedPpi s pid) ppid det cnt with
  | none => simp [hr] at h
  | some r =>
    simp only [hr, Option.map_some', Option.some.injEq] at h
    subst h
    apply propagateStats_touched proc fuel s1 pid (cachedPpi s pid) ppid det cnt r wf1
      (by
        intro q hq
        rw [hs1n, hinc.nprocs_eq]
        exact lt_of_lt_of_le (cachedPpi_lt s pid hwf q hq) u9) hr c
    rw [hs1v]
    have e2 : subView (setProc r.2 u.1 { r.2.procs u.1 with ppi := r.1, cpu := cpu }) c
        = subView r.2 c := subView_congr rfl rfl c
    rw [e2] at hc
    exact hc

/-- C7 fails as stated: process 10 runs "b" like its parent 5; its exit raises
the subtree count and time of its own command "b". -/
theorem own_subtree_counterexample :
    (goExitStats chainProc 3 Engine.empty 10 5 100 "b").map
      (fun s => (subTotals Engine.empty "b", ledger s "b"))
      = some ((0, 0), some ⟨"b", 1, 100, 1, 100, 10⟩) := by
  decide

/-- C7, amended: for an `Exit` and for an `Update` event alike, the subtree
counters of the command record credited for the event's own process are not
changed by the event unless that record is also the command record of one of
the ancestors reached by the walk (an ancestor running under the same command);
the handlers return when the process tree is acyclic. -/
theorem own_subtree_untouched (proc : Int → Option (String × Int)) (fuel : Nat) (s : Engine)
    (pid ppid : Int) (cpu : Nat) (cmd : String) (hwf : WF s) (hcpu : cpu < U64) :
    (∀ s', goExitStats proc fuel s pid ppid cpu cmd = some s' →
      (exitOwn s pid cpu cmd).1 ∉ exitAncestors proc fuel s pid ppid cpu cmd →
      subView s' (exitOwn s pid cpu cmd).1 = subView s (exitOwn s pid cpu cmd).1) ∧
    (∀ s', goUpdateStats proc fuel s pid ppid cpu cmd = some s' →
      (updOwn s pid ppid cpu cmd).1 ∉ updAncestors proc fuel s pid ppid cpu cmd →
      subView s' (updOwn s pid ppid cpu cmd).1 = subView s (updOwn s pid ppid cpu cmd).1) ∧
    (∀ rank, Acyclic rank proc → Ranked rank s → (∀ k, rank k + 2 ≤ fuel) →
      (∃ s', goExitStats proc fuel s pid ppid cpu cmd = some s') ∧
      ((1 < ppid → rank ppid < rank pid) →
        ∃ s', goUpdateStats proc fuel s pid ppid cpu cmd = some s')) := by
  refine ⟨?_, ?_, ?_⟩
  · intro s' h hn
    by_contra hc
    exact hn (goExitStats_touched proc fuel s pid ppid cpu cmd s' hwf hcpu h _ hc)
  · intro s' h hn
    by_contra hc
    exact hn (goUpdateStats_touched proc fuel s pid ppid cpu cmd s' hwf hcpu h _ hc)
  · intro rank ha hr hf
    constructor
    · obtain ⟨s', h, _⟩ := goExitStats_total proc rank ha fuel hf s pid ppid cpu cmd hwf hr hcpu
      exact ⟨s', h⟩
    · intro hev
      obtain ⟨s', h, _⟩ := goUpdateStats_total proc rank ha fuel hf s pid ppid cpu cmd hwf hr
        hcpu hev
      exact ⟨s', h⟩

/-- C7 (amended) on the chain 10 → 5 → 6 with three distinct commands: the
exit of 10 under "a" leaves the subtree counters of "a" untouched. -/
theorem own_subtree_untouched_witness :
    ∃ s', goExitStats chainProc 3 Engine.empty 10 5 100 "a" = some s' ∧
      subView s' (exitOwn Engine.empty 10 100 "a").1
        = subView Engine.empty (exitOwn Engine.empty 10 100 "a").1 := by
  obtain ⟨s', hs⟩ : ∃ s', goExitStats chainProc 3 Engine.empty 10 5 100 "a" = some s' :=
    Option.isSome_iff_exists.mp (by decide)
  exact ⟨s', hs, (own_subtree_untouched chainProc 3 Engine.empty 10 5 100 "a" Engine.empty_wf
    (by decide)).1 s' hs (by decide)⟩


/-- Every command record a returning walk reaches carries the marker of the
source pid afterwards. -/
theorem propagateStats_marked (proc : Int → Option (String × Int)) :
    ∀ (n : Nat) (s : Engine) (spid : Int) (pi : Option Nat) (pid : Int) (et ec : Nat)
      (r : Option Nat × Engine), WF s → (∀ p, pi = some p → p < s.nprocs) →
      propagateStats proc n s spid pi pid et ec = some r →
      ∀ c, c ∈ walkedCmds proc n s spid pi pid et ec →
        c < r.2.ncmds ∧ (r.2.cmds c).spid = spid := by
  intro n
  induction n with
  | zero => intro s spid pi pid et ec r _ _ h; simp [propagateStats] at h
  | succ n ih =>
    intro s spid pi pid et ec r hwf hpi h c hc
    simp only [propagateStats] at h
    simp only [walkedCmds] at hc
    by_cases hpid : pid ≤ 1
    · simp [hpid] at hc
    · simp only [hpid, if_false] at h hc
      obtain ⟨ha1, ha2, _, _, _⟩ := resolveProc_ext proc s pi pid spid et ec hpi hwf
      generalize resolveProc proc s pi pid = a at h hc ha1 ha2
      obtain ⟨p, s1⟩ := a
      simp only at h hc ha1 ha2
      have hwf1 : WF s1 := ha1.wf hwf
      obtain ⟨hc1, hc2, _, hc4, hc5, _⟩ := creditSub_ext proc s1 spid p et ec ha2 hwf1
      generalize creditSub s1 spid p et ec = s2 at h hc hc1 hc2 hc4 hc5
      have hwf2 : WF s2 := hc1.wf hwf1
      have hp2 : p < s2.nprocs := by rw [hc4]; exact ha2
      have hhead : (s2.procs p).ci = some c → c < s2.ncmds ∧ (s2.cmds c).spid = spid := by
        intro hci
        exact ⟨hwf2.hci p c hp2 hci, hc5 c (by rw [← hc2]; exact hci)⟩
      have key : ∀ s3 : Engine, Ext proc spid et ec s2 s3 →
          (c ∈ (if (s2.procs p).ppid ≠ 0 then
            walkedCmds proc n s2 spid (s2.procs p).ppi (s2.procs p).ppid et ec else []) →
            c < s3.ncmds ∧ (s3.cmds c).spid = spid) →
          c < s3.ncmds ∧ (s3.cmds c).spid = spid := by
        intro s3 e3 h3
        rw [List.mem_append] at hc
        rcases hc with hc | hc
        · have hci : (s2.procs p).ci = some c := by
            cases hci : (s2.procs p).ci with
            | none => rw [hci] at hc; simp at hc
            | some c' =>
              rw [hci] at hc
              simp only [List.mem_singleton] at hc
              rw [hc]
          obtain ⟨x1, x2⟩ := hhead hci
          exact ⟨lt_of_lt_of_le x1 e3.ncmds_le, e3.spid_keep c x1 x2⟩
        · exact h3 hc
      by_cases hpp : (s2.procs p).ppid = 0
      · simp only [hpp, ne_eq, not_true_eq_false, if_false, Option.some.injEq] at h
        subst h
        apply key s2 (Ext.refl _ _ _ _ _)
        intro h'
        simp [hpp] at h'
      · simp only [ne_eq, hpp, not_false_eq_true, if_true] at h
        cases hq : (s2.procs p).ppi with
        | some q =>
          simp only [hq] at h
          cases hrec : propagateStats proc n s2 spid (some q) (s2.procs p).ppid et ec with
          | none => simp [hrec] at h
          | some r3 =>
            simp only [hrec, Option.some.injEq] at h
            subst h
            have hq2 : ∀ p', some q = some p' → p' < s2.nprocs := by
              intro p' hp'; cases hp'; exact hwf2.hppi p q hp2 hq
            obtain ⟨e3, _, _⟩ := propagateStats_ext proc n s2 spid (some q) (s2.procs p).ppid
              et ec r3 hwf2 hq2 hrec
            apply key r3.2 e3
            intro h'
            simp only [ne_eq, hpp, not_false_eq_true, if_true, hq] at h'
            exact ih s2 spid (some q) (s2.procs p).ppid et ec r3 hwf2 hq2 hrec c h'
        | none =>
          simp only [hq] at h
          cases hrec : propagateStats proc n s2 spid none (s2.procs p).ppid et ec with
          | none => simp [hrec] at h
          | some r3 =>
            simp only [hrec, Option.some.injEq] at h
            subst h
            have hq2 : ∀ p', (none : Option Nat) = some p' → p' < s2.nprocs := by
              intro p' hp'; cases hp'
            obtain ⟨e3, _, _⟩ := propagateStats_ext proc n s2 spid none (s2.procs p).ppid
              et ec r3 hwf2 hq2 hrec
            have := key r3.2 e3 (by
              intro h'
              simp only [ne_eq, hpp, not_false_eq_true, if_true, hq] at h'
              exact ih s2 spid none (s2.procs p).ppid et ec r3 hwf2 hq2 hrec c h')
            exact this

/-- What one returning walk does to the subtree counters: a command record is
credited once, with the deltas of the walk, exactly when the walk reaches it and
its marker is not the source pid; every other record is left as it was. -/
theorem propagateStats_credit (proc : Int → Option (String × Int)) (n : Nat) (s : Engine)
    (spid : Int) (pi : Option Nat) (pid : Int) (et ec : Nat) (r : Option Nat × Engine)
    (hwf : WF s) (hpi : ∀ p, pi = some p → p < s.nprocs)
    (h : propagateStats proc n s spid pi pid et ec = some r) (c : Nat) :
    subView r.2 c =
      if c ∈ walkedCmds proc n s spid pi pid et ec ∧ (subView s c).2.2 ≠ spid then
        (((subView s c).1 + ec) % U64, ((subView s c).2.1 + et) % U64, spid)
      else subView s c := by
  obtain ⟨e, _, _⟩ := propagateStats_ext proc n s spid pi pid et ec r hwf hpi h
  by_cases hw : c ∈ walkedCmds proc n s spid pi pid et ec
  · obtain ⟨m1, m2⟩ := propagateStats_marked proc n s spid pi pid et ec r hwf hpi h c hw
    by_cases hm : (subView s c).2.2 = spid
    · simp only [hw, hm, ne_eq, not_true_eq_false, and_false, if_false]
      rcases e.sub c with a | ⟨a, _⟩
      · exact a
      · exact absurd hm a
    · simp only [hw, hm, ne_eq, not_false_eq_true, and_self, if_true]
      rcases e.sub c with a | ⟨_, a⟩
      · exfalso
        apply hm
        rw [← a]
        simp [subView, m1, m2]
      · exact a
  · simp only [hw, false_and, if_false]
    by_contra hne
    exact hw (propagateStats_touched proc n s spid pi pid et ec r hwf hpi h c hne)

/-- What an `Update` event does to the subtree counters: the command records of
the walked ancestors whose marker is not the pid are credited once with the
count and the delta of the event, every other record is left as it was. -/
theorem goUpdateStats_credit (proc : Int → Option (String × Int)) (fuel : Nat) (s : Engine)
    (pid ppid : Int) (cpu : Nat) (cmd : String) (s' : Engine) (hwf : WF s) (hcpu : cpu < U64)
    (h : goUpdateStats proc fuel s pid ppid cpu cmd = some s') (c : Nat) :
    subView s' c =
      if c ∈ updAncestors proc fuel s pid ppid cpu cmd ∧ (subView s c).2.2 ≠ pid then
        (((subView s c).1 + updCnt s pid) % U64,
          ((subView s c).2.1 + specDelta s.initCpuCounters (storedCpu s pid) cpu) % U64, pid)
      else subView s c := by
  rw [goUpdateStats_eq] at h
  generalize hL : updAncestors proc fuel s pid ppid cpu cmd = L
  simp only [updAncestors, updOwn] at hL
  obtain ⟨u1, u2, _, _, ⟨u5, u6, _⟩, _, u9, _, _, _, _, _⟩ := updPre_spec s pid ppid cpu hwf
  generalize updPre s pid ppid cpu = u at h hL u1 u2 u5 u6 u9
  have hdet : specDelta s.initCpuCounters (storedCpu s pid) cpu < U64 :=
    lt_of_le_of_lt (specDelta_le _ _ _) hcpu
  have hcnt : updCnt s pid < U64 :=
    lt_of_le_of_lt (updCnt_le s pid) (by simp [U64])
  generalize specDelta s.initCpuCounters (storedCpu s pid) cpu = det at h hL hdet ⊢
  generalize updCnt s pid = cnt at h hL hcnt ⊢
  have hinc := incCmd_inc u.2 (u.2.procs u.1).ci cmd det cnt u1
    (fun c hc => u1.hci u.1 c u2 hc) hdet hcnt
  generalize incCmd u.2 (u.2.procs u.1).ci cmd det cnt = a at h hL hinc
  have hpa : u.1 < a.2.nprocs := by rw [hinc.nprocs_eq]; exact u2
  have wf1 : WF (setProc a.2 u.1 { a.2.procs u.1 with ci := some a.1 }) :=
    setProc_wf hinc.wf u.1 _ rfl
      (fun q hq => hinc.wf.hppi u.1 q hpa hq)
      (by intro c hc; cases hc; exact hinc.target)
  have hs1n : (setProc a.2 u.1 { a.2.procs u.1 with ci := some a.1 }).nprocs = a.2.nprocs := rfl
  have hs1v : subView (setProc a.2 u.1 { a.2.procs u.1 with ci := some a.1 }) c
      = subView s c := by
    have e1 : subView (setProc a.2 u.1 { a.2.procs u.1 with ci := some a.1 }) c
        = subView a.2 c := subView_congr rfl rfl c
    rw [e1, hinc.sub c]
    exact subView_congr u6 u5 c
  generalize setProc a.2 u.1 { a.2.procs u.1 with ci := some a.1 } = s1 at h hL wf1 hs1n hs1v
  cases hr : propagateStats proc fuel s1 pid (cachedPpi s pid) ppid det cnt with
  | none => simp [hr] at h
  | some r =>
    simp only [hr, Option.map_some', Option.some.injEq] at h
    subst h
    have hv : subView (setProc r.2 u.1 { r.2.procs u.1 with ppi := r.1, cpu := cpu }) c
        = subView r.2 c := subView_congr rfl rfl c
    rw [hv, propagateStats_credit proc fuel s1 pid (cachedPpi s pid) ppid det cnt r wf1
      (by
        intro q hq
        rw [hs1n, hinc.nprocs_eq]
        exact lt_of_lt_of_le (cachedPpi_lt s pid hwf q hq) u9) hr c, hs1v, hL]

/-- C5, amended: an `Update` event whose pid is already in the registry changes
no own and no subtree execution count; an `Update` event whose pid is seen for
the first time adds 1 (modulo `2^64`) to the own count of the ledger entry of its
command, changes no other own count, and propagates a count of one: the subtree
count of every command record of a walked ancestor grows by 1 (modulo `2^64`)
unless the marker of the record already names the pid, and no other subtree
count changes.  The handler returns when the process tree is acyclic. -/
theorem update_counts (proc : Int → Option (String × Int)) (fuel : Nat) (s : Engine)
    (pid ppid : Int) (cpu : Nat) (cmd : String) (hwf : WF s) (hcpu : cpu < U64) :
    (∀ s', goUpdateStats proc fuel s pid ppid cpu cmd = some s' →
      ((s.procInfos pid).isSome = true →
        ∀ c, (ownView s' c).1 = (ownView s c).1 ∧ (subView s' c).1 = (subView s c).1) ∧
      (s.procInfos pid = none →
        ∃ c0, mapGet s'.cmdInfos cmd = some c0 ∧
          (ownView s' c0).1 = ((ownView s c0).1 + 1) % U64 ∧
          (∀ c, c ≠ c0 → (ownView s' c).1 = (ownView s c).1) ∧
          (∀ c, (subView s' c).1 =
            if c ∈ updAncestors proc fuel s pid ppid cpu cmd ∧ (subView s c).2.2 ≠ pid then
              ((subView s c).1 + 1) % U64
            else (subView s c).1))) ∧
    (∀ rank, Acyclic rank proc → Ranked rank s → (1 < ppid → rank ppid < rank pid) →
      (∀ k, rank k + 2 ≤ fuel) →
      ∃ s', goUpdateStats proc fuel s pid ppid cpu cmd = some s') := by
  constructor
  · intro s' h
    obtain ⟨p, c0, hu⟩ := goUpdateStats_spec proc fuel s pid ppid cpu cmd s' hwf hcpu h
    constructor
    · intro hk c
      have hc0 : updCnt s pid = 0 := by simp [updCnt, hk]
      constructor
      · by_cases hc : c = c0
        · subst hc
          rw [hu.own_target, hc0]
          exact Nat.mod_eq_of_lt (ownView_lt s hwf c).1
        · rw [hu.own_other c hc]
      · rcases hu.sub c with a | ⟨_, a⟩
        · rw [a]
        · rw [a, hc0]
          exact Nat.mod_eq_of_lt (subView_lt s hwf c).1
    · intro hk
      have hc1 : updCnt s pid = 1 := by simp [updCnt, hk]
      have hcc : cachedCi s pid = none := by simp [cachedCi, hk]
      refine ⟨c0, ?_, ?_, ?_, ?_⟩
      · rcases hu.target_src with a | ⟨_, a⟩
        · rw [hcc] at a; cases a
        · exact a
      · rw [hu.own_target, hc1]
      · intro c hc
        rw [hu.own_other c hc]
      · intro c
        rw [goUpdateStats_credit proc fuel s pid ppid cpu cmd s' hwf hcpu h c, hc1]
        split <;> rfl
  · intro rank ha hr hev hf
    obtain ⟨s', h, _⟩ := goUpdateStats_total proc rank ha fuel hf s pid ppid cpu cmd hwf hr
      hcpu hev
    exact ⟨s', h⟩

/-- C5 (amended) on the empty state: the first `Update` of pid 10 below the chain
5 → 6 → root returns, gives the entry of "a" own count 1 and credits the walked
command records (addresses 1 and 2, those of "b" and "c") with count 1. -/
theorem update_counts_witness :
    ∃ s', goUpdateStats chainProc 4 Engine.empty 10 5 100 "a" = some s' ∧
      updAncestors chainProc 4 Engine.empty 10 5 100 "a" = [1, 2] ∧
      ∃ c0, mapGet s'.cmdInfos "a" = some c0 ∧
        (ownView s' c0).1 = ((ownView Engine.empty c0).1 + 1) % U64 ∧
        (∀ c, c ≠ c0 → (ownView s' c).1 = (ownView Engine.empty c).1) ∧
        (∀ c, (subView s' c).1 =
          if c ∈ updAncestors chainProc 4 Engine.empty 10 5 100 "a" ∧
              (subView Engine.empty c).2.2 ≠ 10 then
            ((subView Engine.empty c).1 + 1) % U64
          else (subView Engine.empty c).1) := by
  have h := update_counts chainProc 4 Engine.empty 10 5 100 "a" Engine.empty_wf (by decide)
  obtain ⟨s', hs⟩ := h.2 (fun k => if k = 6 then 0 else if k = 5 then 1 else 2)
    (by
      intro pid r hr hlt
      unfold chainProc at hr
      split at hr
      · next h5 => cases hr; subst h5; decide
      · split at hr
        · cases hr; simp at hlt
        · cases hr)
    (Engine.empty_ranked _) (by intro _; decide)
    (by intro k; dsimp only; split <;> [skip; split] <;> omega)
  exact ⟨s', hs, by decide, ((h.1 s' hs).2 rfl)⟩


theorem specDelta_reseed (st : Option Nat) (c : Nat) : specDelta true st c = 0 := by
  simp [specDelta]

/-- One re-seed `Update` keeps the re-seed invariant. -/
theorem goUpdateStats_reseeded (proc : Int → Option (String × Int)) (fuel : Nat) (s : Engine)
    (pid ppid : Int) (cpu : Nat) (cmd : String) (s' : Engine) (n0 : Nat)
    (hk : Reseeded n0 s) (hinit : s.initCpuCounters = true) (hcpu : cpu < U64)
    (h : goUpdateStats proc fuel s pid ppid cpu cmd = some s') :
    Reseeded n0 s' ∧ s'.initCpuCounters = true := by
  obtain ⟨p, c0, hu⟩ := goUpdateStats_spec proc fuel s pid ppid cpu cmd s' hk.wf hcpu h
  have hd : specDelta s.initCpuCounters (storedCpu s pid) cpu = 0 := by
    rw [hinit]; exact specDelta_reseed _ _
  refine ⟨⟨hu.wf, le_trans hk.base hu.ncmds_le, ?_, ?_⟩, by rw [hu.flags.1]; exact hinit⟩
  · intro k c hc
    rcases hu.led_new k c hc with a | ⟨_, a⟩
    · exact hk.led k c a
    · exact le_trans hk.base a
  · intro c hc
    have hz := hk.zero c hc
    constructor
    · by_cases h0 : c = c0
      · subst h0
        rw [hu.own_target, hd, hz.1]
        simp
      · rw [hu.own_other c h0]; exact hz.1
    · rcases hu.sub c with a | ⟨_, a⟩
      · rw [a]; exact hz.2
      · rw [a, hd, hz.2]
        simp

/-- Registry effect of the answers of one request. -/
theorem deliver_spec (proc : Int → Option (String × Int)) (fuel : Nat) (n0 : Nat) :
    ∀ (rs : List Reading) (s s' : Engine), Reseeded n0 s → s.initCpuCounters = true →
      (∀ r ∈ rs, r.cpu < U64) → deliver proc fuel s rs = some s' →
      Reseeded n0 s' ∧ s'.initCpuCounters = true ∧
      (∀ pid c, lastCpu rs pid = some c →
        ∃ p, s'.procInfos pid = some p ∧ (s'.procs p).cpu = c) ∧
      (∀ pid p, s.procInfos pid = some p → lastCpu rs pid = none →
        s'.procInfos pid = some p ∧ (s'.procs p).cpu = (s.procs p).cpu) := by
  intro rs
  induction rs with
  | nil =>
    intro s s' hk hi _ h
    simp only [deliver, Option.some.injEq] at h
    subst h
    exact ⟨hk, hi, by intro pid c hc; simp [lastCpu] at hc, fun _ _ hp _ => ⟨hp, rfl⟩⟩
  | cons r rest ih =>
    intro s s' hk hi hcpu h
    simp only [deliver] at h
    cases h1 : goUpdateStats proc fuel s r.pid r.ppid r.cpu r.cmd with
    | none => simp [h1] at h
    | some s1 =>
      simp only [h1] at h
      have hc := hcpu r (List.mem_cons_self _ _)
      obtain ⟨hk1, hi1⟩ := goUpdateStats_reseeded proc fuel s r.pid r.ppid r.cpu r.cmd s1 n0
        hk hi hc h1
      obtain ⟨p0, c0, hu⟩ := goUpdateStats_spec proc fuel s r.pid r.ppid r.cpu r.cmd s1
        hk.wf hc h1
      obtain ⟨hk', hi', hA, hB⟩ := ih s1 s' hk1 hi1
        (fun x hx => hcpu x (List.mem_cons_of_mem _ hx)) h
      refine ⟨hk', hi', ?_, ?_⟩
      · intro pid c hl
        simp only [lastCpu] at hl
        cases ht : lastCpu rest pid with
        | some c' =>
          rw [ht] at hl
          simp only [Option.some.injEq] at hl
          subst hl
          exact hA pid c' ht
        | none =>
          rw [ht] at hl
          simp only at hl
          split at hl
          · next hp =>
            cases hl
            subst hp
            obtain ⟨a, b⟩ := hB r.pid p0 hu.reg ht
            exact ⟨p0, a, by rw [b, hu.rec_cpu]⟩
          · cases hl
      · intro pid p hp hl
        simp only [lastCpu] at hl
        cases ht : lastCpu rest pid with
        | some c' => rw [ht] at hl; cases hl
        | none =>
          rw [ht] at hl
          simp only at hl
          have hne : r.pid ≠ pid := by
            intro he
            simp [he] at hl
          have hplt := hk.wf.hmap pid p hp
          have hpp : p ≠ p0 := by
            rcases hu.rec_old with a | ⟨_, a⟩
            · intro he
              subst he
              have e1 := hk.wf.hkey _ _ a
              have e2 := hk.wf.hkey _ _ hp
              exact hne (e1.symm.trans e2)
            · omega
          obtain ⟨a, b⟩ := hB pid p (hu.map_mono pid p hp) ht
          exact ⟨a, by rw [b, hu.other_cpu p hplt hpp]⟩

theorem lastCpu_append (a b : List Reading) (pid : Int) :
    lastCpu (a ++ b) pid = match lastCpu b pid with
      | some c => some c
      | none => lastCpu a pid := by
  induction a with
  | nil =>
    simp only [List.nil_append, lastCpu]
    cases lastCpu b pid <;> rfl
  | cons r rest ih =>
    have e : lastCpu (r :: rest ++ b) pid = match lastCpu (rest ++ b) pid with
        | some c => some c
        | none => if r.pid = pid then some r.cpu else none := rfl
    rw [e, ih]
    cases lastCpu b pid with
    | some c => rfl
    | none => rfl

/-- Effect of a whole re-seed scan. -/
theorem updateLongLivedStats_spec (proc : Int → Option (String × Int)) (fuel : Nat)
    (n0 : Nat) :
    ∀ (scan : List (List Reading)) (s s' : Engine), Reseeded n0 s →
      (∀ r ∈ scan.flatten, r.cpu < U64) → updateLongLivedStats proc fuel true s scan = some s' →
      Reseeded n0 s' ∧
      (∀ pid c, lastCpu scan.flatten pid = some c →
        ∃ p, s'.procInfos pid = some p ∧ (s'.procs p).cpu = c) ∧
      (∀ pid p, s.procInfos pid = some p → lastCpu scan.flatten pid = none →
        s'.procInfos pid = some p ∧ (s'.procs p).cpu = (s.procs p).cpu) := by
  intro scan
  induction scan with
  | nil =>
    intro s s' hk _ h
    simp only [updateLongLivedStats, Option.some.injEq] at h
    subst h
    exact ⟨hk, by intro pid c hc; simp [lastCpu] at hc, fun _ _ hp _ => ⟨hp, rfl⟩⟩
  | cons rs rest ih =>
    intro s s' hk hcpu h
    simp only [updateLongLivedStats] at h
    cases h1 : deliver proc fuel { s with initCpuCounters := true } rs with
    | none => simp [h1] at h
    | some s1 =>
      simp only [h1] at h
      have hk0 : Reseeded n0 { s with initCpuCounters := true } :=
        ⟨⟨hk.wf.hmap, hk.wf.hkey, hk.wf.hppi, hk.wf.hci, hk.wf.hled, hk.wf.hu64⟩, hk.base,
          hk.led, hk.zero⟩
      obtain ⟨hk1, _, hA1, hB1⟩ := deliver_spec proc fuel n0 rs _ s1 hk0 rfl
        (fun r hr => hcpu r (by simp only [List.flatten_cons, List.mem_append]; exact Or.inl hr)) h1
      obtain ⟨hk', hA, hB⟩ := ih s1 s' hk1
        (fun r hr => hcpu r (by simp only [List.flatten_cons, List.mem_append]; exact Or.inr hr)) h
      refine ⟨hk', ?_, ?_⟩
      · intro pid c hl
        simp only [List.flatten_cons, lastCpu_append] at hl
        cases ht : lastCpu rest.flatten pid with
        | some c' =>
          rw [ht] at hl
          simp only [Option.some.injEq] at hl
          subst hl
          exact hA pid c' ht
        | none =>
          rw [ht] at hl
          simp only at hl
          obtain ⟨p, a, b⟩ := hA1 pid c hl
          obtain ⟨a', b'⟩ := hB pid p a ht
          exact ⟨p, a', by rw [b', b]⟩
      · intro pid p hp hl
        simp only [List.flatten_cons, lastCpu_append] at hl
        cases ht : lastCpu rest.flatten pid with
        | some c' => rw [ht] at hl; cases hl
        | none =>
          rw [ht] at hl
          simp only at hl
          obtain ⟨a, b⟩ := hB1 pid p hp hl
          obtain ⟨a', b'⟩ := hB pid p a ht
          exact ⟨a', by rw [b', b]⟩

theorem lastCpu_of_mem (rs : List Reading) (r : Reading) (h : r ∈ rs) :
    ∃ c, lastCpu rs r.pid = some c := by
  induction rs with
  | nil => cases h
  | cons x rest ih =>
    simp only [lastCpu]
    cases ht : lastCpu rest r.pid with
    | some c => exact ⟨c, rfl⟩
    | none =>
      rcases List.mem_cons.mp h with a | a
      · subst a
        exact ⟨r.cpu, by simp⟩
      · obtain ⟨c, hc⟩ := ih a
        rw [ht] at hc; cases hc

/-- A re-seed scan returns when the process tree is acyclic and the readings
agree with it. -/
theorem updateLongLivedStats_total (proc : Int → Option (String × Int)) (rank : Int → Nat)
    (ha : Acyclic rank proc) (fuel : Nat) (hf : ∀ k, rank k + 2 ≤ fuel) (init : Bool) :
    ∀ (scan : List (List Reading)) (s : Engine), WF s → Ranked rank s →
      (∀ r ∈ scan.flatten, r.cpu < U64 ∧ (1 < r.ppid → rank r.ppid < rank r.pid)) →
      ∃ s', updateLongLivedStats proc fuel init s scan = some s' := by
  have hd : ∀ (rs : List Reading) (s : Engine), WF s → Ranked rank s →
      (∀ r ∈ rs, r.cpu < U64 ∧ (1 < r.ppid → rank r.ppid < rank r.pid)) →
      ∃ s', deliver proc fuel s rs = some s' ∧ WF s' ∧ Ranked rank s' := by
    intro rs
    induction rs with
    | nil => intro s hw hr _; exact ⟨s, rfl, hw, hr⟩
    | cons r rest ih =>
      intro s hw hr hrs
      obtain ⟨hc, hev⟩ := hrs r (List.mem_cons_self _ _)
      obtain ⟨s1, h1, r1⟩ := goUpdateStats_total proc rank ha fuel hf s r.pid r.ppid r.cpu
        r.cmd hw hr hc hev
      obtain ⟨_, _, hu⟩ := goUpdateStats_spec proc fuel s r.pid r.ppid r.cpu r.cmd s1 hw hc h1
      obtain ⟨s', h', w', r'⟩ := ih s1 hu.wf r1 (fun x hx => hrs x (List.mem_cons_of_mem _ hx))
      exact ⟨s', by simp only [deliver, h1]; exact h', w', r'⟩
  intro scan
  induction scan with
  | nil => intro s _ _ _; exact ⟨s, rfl⟩
  | cons rs rest ih =>
    intro s hw hr hrs
    have hw0 : WF { s with initCpuCounters := init } :=
      ⟨hw.hmap, hw.hkey, hw.hppi, hw.hci, hw.hled, hw.hu64⟩
    have hr0 : Ranked rank { s with initCpuCounters := init } := ⟨hr.hobj, hr.hlink⟩
    obtain ⟨s1, h1, w1, r1⟩ := hd rs _ hw0 hr0
      (fun r hx => hrs r (by simp only [List.flatten_cons, List.mem_append]; exact Or.inl hx))
    obtain ⟨s', h'⟩ := ih s1 w1 r1
      (fun r hx => hrs r (by simp only [List.flatten_cons, List.mem_append]; exact Or.inr hx))
    exact ⟨s', by simp only [updateLongLivedStats, h1]; exact h'⟩

/-- C8 fails as stated: after an exit, `clearCounters` re-seeds the running
process 10; its command "a" then has own count 1 and its parent's command "b"
subtree count 1 (all times are zero and the reading 100 is stored). -/
theorem reseed_counts_counterexample :
    ((goExitStats chainProc 3 Engine.empty 11 5 70 "a").bind
      (fun s => (clearCounters chainProc 3 s [[⟨10, 5, 100, "a"⟩]]).map
        (fun s' => (ledger s "a", ledger s' "a", ledger s' "b", storedCpu s' 10))))
      = some (some ⟨"a", 0, 0, 1, 70, 0⟩, some ⟨"a", 0, 0, 1, 0, 0⟩,
          some ⟨"b", 1, 0, 0, 0, 10⟩, some 100) := by
  decide

/-- C8, amended: after `clearCounters` and its re-seed scan every command in the
ledger has zero own and zero subtree execution time, and every re-seeded
process is in the registry with the cumulative value last read for it as its
stored value (execution counts are not claimed to be zero: a process seen for
the first time counts as one execution).  The operation returns when the
process tree is acyclic and the readings agree with it. -/
theorem reseed_after_clear (proc : Int → Option (String × Int)) (fuel : Nat) (s : Engine)
    (scan : List (List Reading)) (hwf : WF s) (hcpu : ∀ r ∈ scan.flatten, r.cpu < U64) :
    (∀ s', clearCounters proc fuel s scan = some s' →
      (∀ cmd r, ledger s' cmd = some r → r.et = 0 ∧ r.subet = 0) ∧
      (∀ r ∈ scan.flatten, ∃ p, s'.procInfos r.pid = some p ∧
        lastCpu scan.flatten r.pid = some (s'.procs p).cpu)) ∧
    (∀ rank, Acyclic rank proc → Ranked rank s →
      (∀ r ∈ scan.flatten, 1 < r.ppid → rank r.ppid < rank r.pid) → (∀ k, rank k + 2 ≤ fuel) →
      ∃ s', clearCounters proc fuel s scan = some s') := by
  have hw0 : WF { s with sample := (s.sample + 1) % U64
                         procInfos := fun _ => none
                         cmdInfos := [] } := by
    refine ⟨?_, ?_, hwf.hppi, hwf.hci, ?_, hwf.hu64⟩
    · intro k p h; cases h
    · intro k p h; cases h
    · intro k c h; simp [mapGet] at h
  constructor
  · intro s' h
    have hk0 : Reseeded s.ncmds { s with sample := (s.sample + 1) % U64
                                         procInfos := fun _ => none
                                         cmdInfos := [] } := by
      refine ⟨hw0, le_refl _, ?_, ?_⟩
      · intro k c h; simp [mapGet] at h
      · intro c hc
        have : ¬ c < s.ncmds := by omega
        simp [ownView, subView, this]
    obtain ⟨hk, hA, _⟩ := updateLongLivedStats_spec proc fuel s.ncmds scan _ s' hk0 hcpu h
    constructor
    · intro cmd r hr
      unfold ledger at hr
      cases hg : mapGet s'.cmdInfos cmd with
      | none => rw [hg] at hr; cases hr
      | some c =>
        rw [hg] at hr
        simp only [Option.map_some', Option.some.injEq] at hr
        subst hr
        have hz := hk.zero c (hk.led cmd c hg)
        have hc := hk.wf.hled cmd c hg
        simp only [ownView, subView, hc, if_true] at hz
        exact hz
    · intro r hr
      obtain ⟨c, hc⟩ := lastCpu_of_mem scan.flatten r hr
      obtain ⟨p, a, b⟩ := hA r.pid c hc
      exact ⟨p, a, by rw [hc, b]⟩
  · intro rank ha hr hev hf
    exact updateLongLivedStats_total proc rank ha fuel hf true scan _ hw0
      ⟨hr.hobj, hr.hlink⟩ (fun r hx => ⟨hcpu r hx, hev r hx⟩)

/-- C8 (amended) on a reset of the empty state with one running process. -/
theorem reseed_after_clear_witness :
    ∃ s', clearCounters chainProc 3 Engine.empty [[⟨10, 5, 100, "a"⟩]] = some s' ∧
      (∀ cmd r, ledger s' cmd = some r → r.et = 0 ∧ r.subet = 0) ∧
      (∀ r ∈ [[(⟨10, 5, 100, "a"⟩ : Reading)]].flatten, ∃ p, s'.procInfos r.pid = some p ∧
        lastCpu [[(⟨10, 5, 100, "a"⟩ : Reading)]].flatten r.pid = some (s'.procs p).cpu) := by
  obtain ⟨s', hs⟩ : ∃ s', clearCounters chainProc 3 Engine.empty [[⟨10, 5, 100, "a"⟩]] = some s' :=
    Option.isSome_iff_exists.mp (by decide)
  have h := (reseed_after_clear chainProc 3 Engine.empty [[⟨10, 5, 100, "a"⟩]] Engine.empty_wf
    (by decide)).1 s' hs
  exact ⟨s', hs, h.1, h.2⟩


theorem dropFrom_spec : ∀ (n b x : Nat), x < b * 2 ^ n →
    dropFrom n b x ≤ n ∧ x < b * 2 ^ dropFrom n b x ∧
      (dropFrom n b x = 0 ∨ b * 2 ^ dropFrom n b x ≤ 2 * x) := by
  intro n
  induction n with
  | zero =>
    intro b x h
    simp only [dropFrom]
    exact ⟨le_refl _, h, Or.inl trivial⟩
  | succ n ih =>
    intro b x h
    simp only [dropFrom]
    by_cases hx : x < b
    · simp only [hx, if_true]
      exact ⟨Nat.zero_le _, by simpa using hx, Or.inl trivial⟩
    · simp only [hx, if_false]
      have h' : x < 2 * b * 2 ^ n := by
        rw [pow_succ] at h
        calc x < b * (2 ^ n * 2) := h
          _ = 2 * b * 2 ^ n := by ring
      obtain ⟨i1, i2, i3⟩ := ih (2 * b) x h'
      have e : b * 2 ^ (1 + dropFrom n (2 * b) x) = 2 * b * 2 ^ dropFrom n (2 * b) x := by
        rw [pow_add]; ring
      refine ⟨by omega, by rw [e]; exact i2, Or.inr ?_⟩
      rw [e]
      rcases i3 with i3 | i3
      · rw [i3]
        simp only [pow_zero, mul_one]
        omega
      · exact i3

theorem toFloat64_exact (x : Nat) (h : x < 9007199254740992) : toFloat64 x = x := by
  have e : dropBits x = 0 := by
    simp [dropBits, dropFrom, h]
  simp only [toFloat64, e, pow_zero, Nat.mod_one, Nat.div_one]
  simp

theorem toFloat64_bounds (x : Nat) (h1 : 0 < x) (h2 : x < U64) :
    0 < toFloat64 x ∧ toFloat64 x ≤ U64 := by
  obtain ⟨d1, d2, d3⟩ := dropFrom_spec 11 9007199254740992 x (by
    unfold U64 at h2
    simp only [Nat.reducePow]
    omega)
  unfold toFloat64 U64 dropBits
  generalize dropFrom 11 9007199254740992 x = e at d1 d2 d3
  interval_cases e
  all_goals
    simp only [Nat.reducePow] at d2 d3 ⊢
    split_ifs <;> omega

theorem exitHist_bump (x : Nat) : (if x = 0 then x + 1 else x) = max x 1 := by
  split
  · next h => subst h; rfl
  · next h => exact (Nat.max_eq_left (Nat.one_le_iff_ne_zero.2 h)).symm

/-- The histogram update for an index inside the array: one bucket incremented. -/
theorem exitHist_bucket (ilog10 : Nat → Int) (ehist : Nat → Nat) (x i : Nat)
    (hi : ilog10 (toFloat64 (max x 1)) = (i : Int)) (h32 : i < 32) :
    exitHist ilog10 true ehist x
      = some (Function.update ehist i ((ehist i + 1) % U64)) := by
  unfold exitHist
  simp only [exitHist_bump, if_true, hi, Int.toNat_ofNat]
  have h1 : (0 : Int) ≤ (i : Int) ∧ (i : Int) < 32 := ⟨Int.ofNat_nonneg i, by omega⟩
  rw [if_pos h1]

/-- C9 fails as stated for values that a `float64` cannot hold: `10^18 - 1` is
rounded to `10^18` by the conversion, so the handler, whatever the logarithm
routine returns, puts `10^18 - 1` into the bucket of `10^18`, while
`floor(log10(10^18 - 1)) = 17` and `floor(log10(10^18)) = 18`; with an exact
logarithm it is bucket 18 that is incremented for `10^18 - 1`. -/
theorem hist_rounding_counterexample :
    toFloat64 999999999999999999 = 1000000000000000000 ∧
    Nat.log 10 999999999999999999 = 17 ∧ Nat.log 10 1000000000000000000 = 18 ∧
    (∀ (ilog10 : Nat → Int) (ehist : Nat → Nat),
      histStep ilog10 true ehist (.exit 10 5 999999999999999999 "a")
        = histStep ilog10 true ehist (.exit 10 5 1000000000000000000 "a")) ∧
    (histStep (fun y => (Nat.log 10 y : Int)) true (fun _ => 0)
        (.exit 10 5 999999999999999999 "a")).map (fun h => (h 17, h 18)) = some (0, 1) := by
  have e1 : toFloat64 999999999999999999 = 1000000000000000000 := by decide
  have e2 : toFloat64 1000000000000000000 = 1000000000000000000 := by decide
  have l1 : Nat.log 10 999999999999999999 = 17 :=
    (Nat.log_eq_iff (by decide)).2 ⟨by norm_num, by norm_num⟩
  have l2 : Nat.log 10 1000000000000000000 = 18 :=
    (Nat.log_eq_iff (by decide)).2 ⟨by norm_num, by norm_num⟩
  refine ⟨e1, l1, l2, ?_, ?_⟩
  · intro ilog10 ehist
    simp only [histStep, exitHist]
    have b1 : (if (999999999999999999 : Nat) = 0 then 999999999999999999 + 1
        else 999999999999999999) = 999999999999999999 := by decide
    have b2 : (if (1000000000000000000 : Nat) = 0 then 1000000000000000000 + 1
        else 1000000000000000000) = 1000000000000000000 := by decide
    rw [b1, b2, e1, e2]
  · have hb : histStep (fun y => (Nat.log 10 y : Int)) true (fun _ => 0)
        (.exit 10 5 999999999999999999 "a")
        = some (Function.update (fun _ => 0) 18 ((0 + 1) % U64)) := by
      apply exitHist_bucket (fun y => (Nat.log 10 y : Int)) (fun _ => 0) 999999999999999999 18
      · have : max 999999999999999999 1 = 999999999999999999 := by decide
        simp only [this, e1, l2]
      · decide
    rw [hb]
    simp [Function.update, U64]

/-- C9, amended: with history tracking disabled an `Exit` event leaves the
histogram as it is, and an `Update` event never changes it.  With history
tracking enabled an `Exit` event with cpu time `x < 2^64` increments exactly the
bucket of index `int(math.Log10(float64(max(x,1))))` (modulo `2^64`) whenever that
index lies within the 32 buckets, and leaves every other bucket unchanged.  For a
logarithm routine that is exact on doubles (`ilog10 y = floor(log10 y)`) the
index is `floor(log10 r)` for `r` the double nearest to `max(x,1)`: it always lies
within the 32 buckets, and it is `floor(log10(max(x,1)))` for every `x` below
`2^53`, where the conversion is exact. -/
theorem exit_hist_bucket (ilog10 : Nat → Int) (hist : Bool) (ehist : Nat → Nat)
    (pid ppid : Int) (x : Nat) (cmd : String) (hx : x < U64) :
    (hist = false → histStep ilog10 hist ehist (.exit pid ppid x cmd) = some ehist) ∧
    histStep ilog10 hist ehist (.update pid ppid x cmd) = some ehist ∧
    (hist = true → ∀ i : Nat, ilog10 (toFloat64 (max x 1)) = (i : Int) → i < 32 →
      ∃ h', histStep ilog10 hist ehist (.exit pid ppid x cmd) = some h' ∧
        h' i = (ehist i + 1) % U64 ∧ ∀ j, j ≠ i → h' j = ehist j) ∧
    (hist = true → (∀ y, 0 < y → ilog10 y = (Nat.log 10 y : Int)) →
      Nat.log 10 (toFloat64 (max x 1)) < 32 ∧
      (x < 9007199254740992 → toFloat64 (max x 1) = max x 1) ∧
      ∃ h', histStep ilog10 hist ehist (.exit pid ppid x cmd) = some h' ∧
        h' (Nat.log 10 (toFloat64 (max x 1)))
          = (ehist (Nat.log 10 (toFloat64 (max x 1))) + 1) % U64 ∧
        ∀ j, j ≠ Nat.log 10 (toFloat64 (max x 1)) → h' j = ehist j) := by
  have hstep : ∀ i : Nat, ilog10 (toFloat64 (max x 1)) = (i : Int) → i < 32 →
      ∃ h', histStep ilog10 true ehist (.exit pid ppid x cmd) = some h' ∧
        h' i = (ehist i + 1) % U64 ∧ ∀ j, j ≠ i → h' j = ehist j := by
    intro i hi h32
    refine ⟨_, exitHist_bucket ilog10 ehist x i hi h32, ?_, ?_⟩
    · simp
    · intro j hj
      simp [Function.update, hj]
  have hm1 : 0 < max x 1 := by omega
  have hm2 : max x 1 < U64 := by
    unfold U64 at hx ⊢
    omega
  obtain ⟨b1, b2⟩ := toFloat64_bounds (max x 1) hm1 hm2
  refine ⟨?_, rfl, ?_, ?_⟩
  · intro h
    subst h
    simp [histStep, exitHist]
  · intro h
    subst h
    exact hstep
  · intro h hlog
    subst h
    have hlt : Nat.log 10 (toFloat64 (max x 1)) < 32 := by
      have : Nat.log 10 (toFloat64 (max x 1)) < 20 :=
        Nat.log_lt_of_lt_pow (by omega) (by
          unfold U64 at b2
          have : (10 : Nat) ^ 20 = 100000000000000000000 := by norm_num
          omega)
      omega
    refine ⟨hlt, ?_, hstep _ (hlog _ b1) hlt⟩
    intro h53
    apply toFloat64_exact
    omega

/-- C9 (amended) on the examples of the specification, with an exact logarithm:
an exit with 950 increments bucket 2 and an exit with 0 increments bucket 0 of
an empty histogram, nothing else. -/
theorem exit_hist_bucket_witness :
    (∃ h', histStep (fun y => (Nat.log 10 y : Int)) true (fun _ => 0) (.exit 10 5 950 "a")
        = some h' ∧ h' 2 = 1 ∧ ∀ j, j ≠ 2 → h' j = 0) ∧
    (∃ h', histStep (fun y => (Nat.log 10 y : Int)) true (fun _ => 0) (.exit 10 5 0 "a")
        = some h' ∧ h' 0 = 1 ∧ ∀ j, j ≠ 0 → h' j = 0) := by
  have l1 : Nat.log 10 950 = 2 := (Nat.log_eq_iff (by decide)).2 ⟨by norm_num, by norm_num⟩
  have l2 : Nat.log 10 1 = 0 := by simp
  have f1 : toFloat64 (max 950 1) = 950 := by decide
  have f2 : toFloat64 (max 0 1) = 1 := by decide
  constructor
  · obtain ⟨_, _, h', e, a, b⟩ :=
      (exit_hist_bucket (fun y => (Nat.log 10 y : Int)) true (fun _ => 0) 10 5 950 "a"
        (by decide)).2.2.2 rfl (fun _ _ => rfl)
    rw [f1, l1] at a b
    exact ⟨h', e, by simpa [U64] using a, b⟩
  · obtain ⟨_, _, h', e, a, b⟩ :=
      (exit_hist_bucket (fun y => (Nat.log 10 y : Int)) true (fun _ => 0) 10 5 0 "a"
        (by decide)).2.2.2 rfl (fun _ _ => rfl)
    rw [f2, l2] at a b
    exact ⟨h', e, by simpa [U64] using a, b⟩


/-- C10, the code at `-t 1`: with two commands of non-zero own time the
per-command section lists both, and with two commands of non-zero subtree time
the subtree section lists both: `top + 1` lines, not `top`. -/
theorem stats_top_off_by_one :
    (run chainProc 3 Engine.empty [.exit 10 5 5000 "a", .exit 11 5 70 "d"]).map
      (fun s => ((statsByCommand .scTime 1 s).map (fun ci => (ci.cmd, ci.et)),
        (statsSub .scCount 1 s).map (fun ci => (ci.cmd, ci.subec))))
      = some ([("a", 5000), ("d", 70)], [("b", 2), ("c", 2)]) := by
  decide

/-- The display loop prints `top + 1` lines whenever that many are selected. -/
theorem printTop_length (top : Int) :
    ∀ (l : List cmdInfo) (i : Int), i ≤ top → ((top - i).toNat + 1 ≤ l.length) →
      (printTop top i l).length = (top - i).toNat + 1 := by
  intro l
  induction l with
  | nil => intro i _ h; simp at h
  | cons ci rest ih =>
    intro i hi h
    simp only [printTop, List.length_cons]
    by_cases h1 : i + 1 > top
    · have : i = top := by omega
      subst this
      simp
    · simp only [h1, if_false]
      have h2 : i + 1 ≤ top := by omega
      simp only [List.length_cons] at h
      rw [ih (i + 1) h2 (by omega)]
      omega



/-- The display loop prints an initial segment of the selected commands. -/
theorem printTop_initial (top : Int) :
    ∀ (l : List cmdInfo) (i : Int), ∃ t, printTop top i l ++ t = l := by
  intro l
  induction l with
  | nil => intro i; exact ⟨[], rfl⟩
  | cons ci rest ih =>
    intro i
    simp only [printTop]
    split
    · exact ⟨rest, rfl⟩
    · obtain ⟨t, ht⟩ := ih (i + 1)
      exact ⟨t, by simp [ht]⟩

theorem printTop_sublist (top : Int) (l : List cmdInfo) (i : Int) :
    List.Sublist (printTop top i l) l := by
  obtain ⟨t, ht⟩ := printTop_initial top l i
  have h := List.sublist_append_left (printTop top i l) t
  rw [ht] at h
  exact h

theorem printTop_length_le (top : Int) :
    ∀ (l : List cmdInfo) (i : Int), i ≤ top →
      (printTop top i l).length ≤ (top - i).toNat + 1 := by
  intro l
  induction l with
  | nil => intro i _; simp [printTop]
  | cons ci rest ih =>
    intro i hi
    simp only [printTop, List.length_cons]
    by_cases h1 : i + 1 > top
    · simp [h1]
    · simp only [h1, if_false]
      have := ih (i + 1) (by omega)
      omega

theorem sortDesc_sorted (a : List Nat) : (sortDesc a).Pairwise (fun x y => y ≤ x) := by
  unfold sortDesc
  have : IsTotal Nat (fun x y => y ≤ x) := ⟨fun x y => Nat.le_total y x⟩
  have : IsTrans Nat (fun x y => y ≤ x) := ⟨fun x y z h1 h2 => Nat.le_trans h2 h1⟩
  exact List.sorted_insertionSort (fun x y => y ≤ x) a

/-- Groups printed by descending key give a non-increasing metric sequence. -/
theorem groups_sorted (f : cmdInfo → Nat) (sel : List cmdInfo) :
    ∀ a : List Nat, a.Pairwise (fun x y => y ≤ x) →
      ((a.flatMap (fun k => sel.filter (fun ci => decide (f ci = k)))).map f).Pairwise
        (fun x y => y ≤ x) := by
  intro a
  induction a with
  | nil => intro _; simp
  | cons k rest ih =>
    intro h
    rw [List.pairwise_cons] at h
    simp only [List.flatMap_cons, List.map_append]
    rw [List.pairwise_append]
    refine ⟨?_, ih h.2, ?_⟩
    · rw [List.pairwise_map]
      apply List.Pairwise.imp_of_mem _ (List.pairwise_of_forall (R := fun _ _ => True)
        (fun _ _ => trivial))
      intro x y hx hy _
      simp only [List.mem_filter, decide_eq_true_eq] at hx hy
      rw [hx.2, hy.2]
    · intro x hx y hy
      simp only [List.mem_map, List.mem_filter, decide_eq_true_eq, List.mem_flatMap] at hx hy
      obtain ⟨cx, ⟨_, hcx⟩, rfl⟩ := hx
      obtain ⟨cy, ⟨k', hk', _, hcy⟩, rfl⟩ := hy
      rw [hcx, hcy]
      exact h.1 k' hk'

/-- What the report sections do guarantee: at most `top + 1` commands, listed in
non-increasing order of the selected metric. -/
theorem stats_sorted_top_plus_one (sortCriteria : SortCriteria) (top : Int) (s : Engine)
    (htop : 0 ≤ top) :
    ((statsByCommand sortCriteria top s).length ≤ top.toNat + 1 ∧
      ((statsByCommand sortCriteria top s).map (ownMetric sortCriteria)).Pairwise
        (fun x y => y ≤ x)) ∧
    ((statsSub sortCriteria top s).length ≤ top.toNat + 1 ∧
      ((statsSub sortCriteria top s).map (subMetric sortCriteria)).Pairwise
        (fun x y => y ≤ x)) := by
  refine ⟨⟨?_, ?_⟩, ?_, ?_⟩
  · have := printTop_length_le top
      ((sortDesc (((s.cmdInfos.map (fun e => s.cmds e.2)).filter
        (fun ci => decide (ownMetric sortCriteria ci ≠ 0))).foldl
          (fun a ci => addKey a (ownMetric sortCriteria ci)) [])).flatMap
        (fun k => ((s.cmdInfos.map (fun e => s.cmds e.2)).filter
          (fun ci => decide (ownMetric sortCriteria ci ≠ 0))).filter
            (fun ci => decide (ownMetric sortCriteria ci = k)))) 0 htop
    simpa [statsByCommand] using this
  · unfold statsByCommand
    exact ((groups_sorted _ _ _ (sortDesc_sorted _)).sublist
      ((printTop_sublist top _ 0).map _))
  · have := printTop_length_le top
      ((sortDesc ((((s.cmdInfos.map (fun e => s.cmds e.2)).filter (fun ci =>
        !(decide (ci.subec = 0) || decide (ci.cmd = "") || decide (ci.cmd = "init")
          || decide (ci.cmd = "systemd")))).filter
        (fun ci => decide (subMetric sortCriteria ci ≠ 0))).foldl
          (fun a ci => addKey a (subMetric sortCriteria ci)) [])).flatMap
        (fun k => (((s.cmdInfos.map (fun e => s.cmds e.2)).filter (fun ci =>
        !(decide (ci.subec = 0) || decide (ci.cmd = "") || decide (ci.cmd = "init")
          || decide (ci.cmd = "systemd")))).filter
          (fun ci => decide (subMetric sortCriteria ci ≠ 0))).filter
            (fun ci => decide (subMetric sortCriteria ci = k)))) 0 htop
    simpa [statsSub] using this
  · unfold statsSub
    exact ((groups_sorted _ _ _ (sortDesc_sorted _)).sublist
      ((printTop_sublist top _ 0).map _))

theorem lookupOf_read (proc : Int → Option (String × Int)) (s : Engine) (pid : Int) :
    (readProcStat proc s pid).1 = lookupOf proc pid := by
  unfold readProcStat lookupOf
  cases proc pid <;> rfl

theorem named_of_names {s s' : Engine} (h1 : s'.cmdInfos = s.cmdInfos)
    (h3 : ∀ c, (s'.cmds c).cmd = (s.cmds c).cmd) (h : Named s) :
    Named s' where
  key := by
    intro k c hk
    rw [h1] at hk
    rw [h3]
    exact h.key k c hk

theorem newCmd_named (s : Engine) (r : cmdInfo) (hwf : WF s) (h : Named s) :
    Named (newCmd s r).2 where
  key := by
    intro k c hk
    simp only [newCmd, mapGet_mapPut] at hk
    simp only [newCmd, Function.update_apply]
    by_cases e : r.cmd = k
    · simp only [e, if_true, Option.some.injEq] at hk
      subst hk
      simp [e]
    · simp only [e, if_false] at hk
      have hc := hwf.hled k c hk
      have : c ≠ s.ncmds := by omega
      simp only [this, if_false]
      exact h.key k c hk

/-- The invariant `Agrees` survives a step that leaves the process records alone,
does not add registry entries, keeps the ledger entries and the names of the
command records. -/
theorem agrees_of_procs {proc : Int → Option (String × Int)} {L : List Int} {n0 : Nat}
    {s s' : Engine} (h1 : s'.procs = s.procs) (h2 : s'.nprocs = s.nprocs)
    (h3 : ∀ c, c < s.ncmds → (s'.cmds c).cmd = (s.cmds c).cmd)
    (h4 : ∀ k x, s'.procInfos k = some x → s.procInfos k = some x)
    (h5 : ∀ k c, mapGet s.cmdInfos k = some c → mapGet s'.cmdInfos k = some c)
    (hwf : WF s) (h : Agrees proc L n0 s) : Agrees proc L n0 s' where
  base := by rw [h2]; exact h.base
  reg := fun k x hk => h.reg k x (h4 k x hk)
  up := by
    intro x y hx hx' hy
    rw [h1] at hy
    rw [h2] at hx'
    exact h.up x y hx hx' hy
  cin := by
    intro x c hx hx' hc
    rw [h1] at hc
    rw [h2] at hx'
    rw [h3 c (hwf.hci x c hx' hc)]
    exact h5 _ _ (h.cin x c hx hx' hc)
  ppid := by
    intro x hx hx' hL
    rw [h1] at hL ⊢
    rw [h2] at hx'
    exact h.ppid x hx hx' hL
  ci := by
    intro x hx hx' hL
    rw [h1] at hL ⊢
    rw [h2] at hx'
    obtain ⟨c, hc, hn⟩ := h.ci x hx hx' hL
    exact ⟨c, hc, by rw [h3 c (hwf.hci x c hx' hc)]; exact hn⟩
  link := by
    intro x y hx hx' hL hy
    rw [h1] at hL hy ⊢
    rw [h2] at hx'
    exact h.link x y hx hx' hL hy
  par := by
    intro x y hx hx' hy
    rw [h1] at hy ⊢
    rw [h2] at hx'
    exact h.par x y hx hx' hy

theorem newProc_agrees (proc : Int → Option (String × Int)) (L : List Int) (n0 : Nat)
    (s : Engine) (r : procInfo) (h2 : r.ppi = none)
    (h3 : r.pid ∉ L → r.ppid = (lookupOf proc r.pid).2 ∧
      ∃ c, r.ci = some c ∧ (s.cmds c).cmd = (lookupOf proc r.pid).1)
    (h4 : ∀ c, r.ci = some c → mapGet s.cmdInfos (s.cmds c).cmd = some c)
    (hwf : WF s) (h : Agrees proc L n0 s) : Agrees proc L n0 (newProc s r).2 := by
  have hb := h.base
  refine ⟨?_, ?_, ?_, ?_, ?_, ?_, ?_, ?_⟩
  · simp only [newProc]; omega
  · intro k x hk
    simp only [newProc, Function.update_apply] at hk
    split at hk
    · cases hk; exact hb
    · exact h.reg k x hk
  · intro x y hx hx' hy
    simp only [newProc, Function.update_apply] at hx' hy
    by_cases e : x = s.nprocs
    · simp only [e, if_true] at hy
      rw [h2] at hy
      cases hy
    · simp only [e, if_false] at hy
      exact h.up x y hx (by omega) hy
  · intro x c hx hx' hc
    simp only [newProc, Function.update_apply] at hx' hc ⊢
    by_cases e : x = s.nprocs
    · simp only [e, if_true] at hc
      exact h4 c hc
    · simp only [e, if_false] at hc
      exact h.cin x c hx (by omega) hc
  · intro x hx hx' hL
    simp only [newProc, Function.update_apply] at hx' hL ⊢
    by_cases e : x = s.nprocs
    · simp only [e, if_true] at hL ⊢
      exact (h3 hL).1
    · simp only [e, if_false] at hL ⊢
      exact h.ppid x hx (by omega) hL
  · intro x hx hx' hL
    simp only [newProc, Function.update_apply] at hx' hL ⊢
    by_cases e : x = s.nprocs
    · simp only [e, if_true] at hL ⊢
      exact (h3 hL).2
    · simp only [e, if_false] at hL ⊢
      exact h.ci x hx (by omega) hL
  · intro x y hx hx' hL hy
    simp only [newProc, Function.update_apply] at hx' hL hy ⊢
    by_cases e : x = s.nprocs
    · simp only [e, if_true] at hy
      rw [h2] at hy
      cases hy
    · simp only [e, if_false] at hL hy ⊢
      have hx'' : x < s.nprocs := by omega
      have hy' := hwf.hppi x y hx'' hy
      have : y ≠ s.nprocs := by omega
      simp only [this, if_false]
      exact h.link x y hx hx'' hL hy
  · intro x y hx hx' hy
    simp only [newProc, Function.update_apply] at hx' hy ⊢
    by_cases e : x = s.nprocs
    · simp only [e, if_true] at hy
      rw [h2] at hy
      cases hy
    · simp only [e, if_false] at hy ⊢
      have hx'' : x < s.nprocs := by omega
      have hy' := hwf.hppi x y hx'' hy
      have : y ≠ s.nprocs := by omega
      simp only [this, if_false]
      exact h.par x y hx hx'' hy

theorem setProc_agrees (proc : Int → Option (String × Int)) (L : List Int) (n0 : Nat)
    (s : Engine) (p : Nat) (r : procInfo) (h1 : r.pid = (s.procs p).pid)
    (h2 : ∀ y, r.ppi = some y → n0 ≤ y)
    (h3 : r.pid ∉ L → r.ppid = (lookupOf proc r.pid).2 ∧
      (∃ c, r.ci = some c ∧ (s.cmds c).cmd = (lookupOf proc r.pid).1) ∧
      ∀ y, r.ppi = some y → (s.procs y).pid = r.ppid)
    (h4 : ∀ c, r.ci = some c → mapGet s.cmdInfos (s.cmds c).cmd = some c)
    (h5 : ∀ y, r.ppi = some y → 1 < (s.procs y).pid)
    (h : Agrees proc L n0 s) : Agrees proc L n0 (setProc s p r) := by
  have hpid : ∀ y, ((setProc s p r).procs y).pid = (s.procs y).pid := by
    intro y
    simp only [setProc, Function.update_apply]
    split
    · next e => rw [h1, e]
    · rfl
  refine ⟨h.base, h.reg, ?_, ?_, ?_, ?_, ?_, ?_⟩
  · intro x y hx hx' hy
    simp only [setProc, Function.update_apply] at hx' hy
    by_cases e : x = p
    · simp only [e, if_true] at hy
      exact h2 y hy
    · simp only [e, if_false] at hy
      exact h.up x y hx hx' hy
  · intro x c hx hx' hc
    simp only [setProc, Function.update_apply] at hx' hc ⊢
    by_cases e : x = p
    · simp only [e, if_true] at hc
      exact h4 c hc
    · simp only [e, if_false] at hc
      exact h.cin x c hx hx' hc
  · intro x hx hx' hL
    rw [hpid] at hL ⊢
    simp only [setProc, Function.update_apply] at hx' ⊢
    by_cases e : x = p
    · simp only [e, if_true]
      rw [e, ← h1] at hL
      rw [← h1]
      exact (h3 hL).1
    · simp only [e, if_false]
      exact h.ppid x hx hx' hL
  · intro x hx hx' hL
    rw [hpid] at hL ⊢
    simp only [setProc, Function.update_apply] at hx' ⊢
    by_cases e : x = p
    · simp only [e, if_true]
      rw [e, ← h1] at hL
      rw [← h1]
      exact (h3 hL).2.1
    · simp only [e, if_false]
      exact h.ci x hx hx' hL
  · intro x y hx hx' hL hy
    rw [hpid] at hL ⊢
    by_cases e : x = p
    · subst e
      simp only [setProc, Function.update_same] at hy ⊢
      rw [← h1] at hL
      exact (h3 hL).2.2 y hy
    · simp only [setProc, Function.update_apply, e, if_false] at hx' hy ⊢
      exact h.link x y hx hx' hL hy
  · intro x y hx hx' hy
    rw [hpid]
    by_cases e : x = p
    · subst e
      simp only [setProc, Function.update_same] at hy
      exact h5 y hy
    · simp only [setProc, Function.update_apply, e, if_false] at hx' hy
      exact h.par x y hx hx' hy


theorem ownTotals_eq (s : Engine) (hwf : WF s) (k : String) (c : Nat)
    (h : mapGet s.cmdInfos k = some c) : ownTotals s k = ownView s c := by
  have hc := hwf.hled k c h
  simp [ownTotals, ledger, h, ownView, hc]

theorem subByName_eq (s : Engine) (k : String) (c : Nat)
    (h : mapGet s.cmdInfos k = some c) : subByName s k = subView s c := by
  simp [subByName, h]

theorem subTotals_byName (s : Engine) (hwf : WF s) (k : String) :
    subTotals s k = ((subByName s k).1, (subByName s k).2.1) := by
  cases h : mapGet s.cmdInfos k with
  | none => simp [subTotals, ledger, subByName, h]
  | some c =>
    have hc := hwf.hled k c h
    simp [subTotals, ledger, subByName, h, subView, hc]

/-- Between a state and a later one every command name has one address that
stands for it in both: its ledger entry, or a not yet allocated address. -/
theorem byName_addr {s s' : Engine} (hwf : WF s) (hwf' : WF s')
    (hle : s.ncmds ≤ s'.ncmds)
    (hm : ∀ k c, mapGet s.cmdInfos k = some c → mapGet s'.cmdInfos k = some c)
    (hn : ∀ k c, mapGet s'.cmdInfos k = some c →
      mapGet s.cmdInfos k = some c ∨ (mapGet s.cmdInfos k = none ∧ s.ncmds ≤ c))
    (k : String) :
    ∃ c, subByName s k = subView s c ∧ subByName s' k = subView s' c ∧
      ownTotals s k = ownView s c ∧ ownTotals s' k = ownView s' c ∧
      (mapGet s'.cmdInfos k = some c ∨
        (mapGet s'.cmdInfos k = none ∧ mapGet s.cmdInfos k = none ∧ s'.ncmds ≤ c)) := by
  cases h' : mapGet s'.cmdInfos k with
  | none =>
    have h : mapGet s.cmdInfos k = none := by
      cases h : mapGet s.cmdInfos k with
      | none => rfl
      | some c => rw [hm k c h] at h'; cases h'
    refine ⟨s'.ncmds, ?_, ?_, ?_, ?_, Or.inr ⟨rfl, h, le_refl _⟩⟩
    · have : ¬ s'.ncmds < s.ncmds := by omega
      simp [subByName, h, subView, this]
    · simp [subByName, h', subView]
    · have : ¬ s'.ncmds < s.ncmds := by omega
      simp [ownTotals, ledger, h, ownView, this]
    · simp [ownTotals, ledger, h', ownView]
  | some c =>
    refine ⟨c, ?_, subByName_eq s' k c h', ?_, ownTotals_eq s' hwf' k c h', Or.inl rfl⟩
    · rcases hn k c h' with h | ⟨h, hc⟩
      · exact subByName_eq s k c h
      · have : ¬ c < s.ncmds := by omega
        simp [subByName, h, subView, this]
    · rcases hn k c h' with h | ⟨h, hc⟩
      · exact ownTotals_eq s hwf k c h
      · have : ¬ c < s.ncmds := by omega
        simp [ownTotals, ledger, h, ownView, this]

theorem ext_byName {proc : Int → Option (String × Int)} {spid : Int} {et ec : Nat}
    {s s' : Engine} (e : Ext proc spid et ec s s') (hwf : WF s) (k : String) :
    ∃ c, subByName s k = subView s c ∧ subByName s' k = subView s' c ∧
      ownTotals s k = ownView s c ∧ ownTotals s' k = ownView s' c ∧
      (mapGet s'.cmdInfos k = some c ∨
        (mapGet s'.cmdInfos k = none ∧ mapGet s.cmdInfos k = none ∧ s'.ncmds ≤ c)) :=
  byName_addr hwf (e.wf hwf) e.ncmds_le e.led_mono e.led_new k

/-- A walk leaves the own totals of every command name as they were. -/
theorem ext_ownTotals {proc : Int → Option (String × Int)} {spid : Int} {et ec : Nat}
    {s s' : Engine} (e : Ext proc spid et ec s s') (hwf : WF s) (k : String) :
    Topfast.ownTotals s' k = Topfast.ownTotals s k := by
  obtain ⟨c, _, _, h3, h4, _⟩ := ext_byName e hwf k
  rw [h3, h4]
  exact e.own c

theorem resolveProc_names (proc : Int → Option (String × Int)) (L : List Int) (n0 : Nat)
    (s : Engine) (pi : Option Nat) (pid : Int) (hwf : WF s) (hn : Named s)
    (hag : Agrees proc L n0 s)
    (hpi : ∀ p, pi = some p → n0 ≤ p ∧ p < s.nprocs ∧ (s.procs p).pid = pid) :
    Named (resolveProc proc s pi pid).2 ∧ Agrees proc L n0 (resolveProc proc s pi pid).2 ∧
    n0 ≤ (resolveProc proc s pi pid).1 ∧
    ((resolveProc proc s pi pid).2.procs (resolveProc proc s pi pid).1).pid = pid ∧
    (∀ k, (resolveProc proc s pi pid).2.procInfos k = s.procInfos k ∨
      (k = pid ∧ s.procInfos k = none)) ∧
    (∀ x, x < s.nprocs → (resolveProc proc s pi pid).2.procs x = s.procs x) ∧
    (∀ k, subByName (resolveProc proc s pi pid).2 k = subByName s k) := by
  have hsub : ∀ k, subByName (resolveProc proc s pi pid).2 k = subByName s k := by
    intro k
    obtain ⟨e, _, _, _, h5⟩ := resolveProc_ext proc s pi pid 0 0 0
      (fun p hp => (hpi p hp).2.1) hwf
    obtain ⟨c, h1, h2, _⟩ := ext_byName e hwf k
    rw [h1, h2]
    exact h5 c
  have main : Named (resolveProc proc s pi pid).2 ∧
      Agrees proc L n0 (resolveProc proc s pi pid).2 ∧
      n0 ≤ (resolveProc proc s pi pid).1 ∧
      ((resolveProc proc s pi pid).2.procs (resolveProc proc s pi pid).1).pid = pid ∧
      (∀ k, (resolveProc proc s pi pid).2.procInfos k = s.procInfos k ∨
        (k = pid ∧ s.procInfos k = none)) ∧
      (∀ x, x < s.nprocs → (resolveProc proc s pi pid).2.procs x = s.procs x) := by
    clear hsub
    cases pi with
    | some p =>
      simp only [resolveProc]
      exact ⟨hn, hag, (hpi p rfl).1, (hpi p rfl).2.2, fun _ => Or.inl trivial, fun _ _ => trivial⟩
    | none =>
      cases hm : s.procInfos pid with
      | some p =>
        simp only [resolveProc, hm]
        exact ⟨hn, hag, hag.reg _ _ hm, hwf.hkey _ _ hm, fun _ => Or.inl trivial,
          fun _ _ => trivial⟩
      | none =>
        obtain ⟨r1, r2, r3, r4, r5, r6, r7⟩ := readProcStat_heap proc s pid
        have hrd := lookupOf_read proc s pid
        have hn0 : Named (readProcStat proc s pid).2 :=
          named_of_names r6 (fun c => by rw [r3]) hn
        have hag0 : Agrees proc L n0 (readProcStat proc s pid).2 :=
          agrees_of_procs r1 r2 (fun c _ => by rw [r3]) (fun k x hk => by rw [r5] at hk; exact hk)
            (fun k c hk => by rw [r6]; exact hk) hwf hag
        have hwf0 : WF (readProcStat proc s pid).2 :=
          (Ext.of_same proc 0 0 0 r1 r2 r3 r4 r5 r6 r7).wf hwf
        rw [resolveProc_new proc s pid hm]
        generalize readProcStat proc s pid = rd at r1 r2 r3 r4 r5 r6 r7 hrd hn0 hag0 hwf0
        have hreg : ∀ (t : Engine) (r : procInfo), t.procInfos = rd.2.procInfos → r.pid = pid →
            ∀ k, (newProc t r).2.procInfos k = s.procInfos k ∨
              (k = pid ∧ s.procInfos k = none) := by
          intro t r ht hr k
          simp only [newProc, Function.update_apply, ht, r5, hr]
          by_cases e : k = pid
          · exact Or.inr ⟨e, by rw [e]; exact hm⟩
          · simp [e]
        have hold : ∀ (t : Engine) (r : procInfo), t.procs = rd.2.procs →
            t.nprocs = rd.2.nprocs →
            ∀ x, x < s.nprocs → (newProc t r).2.procs x = s.procs x := by
          intro t r ht hn' x hx
          have : x ≠ t.nprocs := by rw [hn', r2]; omega
          simp only [newProc, Function.update_apply, this, if_false, ht, r1]
        have hbase : n0 ≤ rd.2.nprocs := hag0.base
        cases hg : mapGet rd.2.cmdInfos rd.1.1 with
        | some c =>
          simp only
          have hname : (rd.2.cmds c).cmd = rd.1.1 := hn0.key _ _ hg
          refine ⟨?_, ?_, hbase, by simp [newProc], hreg _ _ rfl rfl, hold _ _ rfl rfl⟩
          · exact named_of_names (s := rd.2) rfl (fun _ => rfl) hn0
          · exact newProc_agrees proc L n0 rd.2 _ rfl
              (fun _ => ⟨by rw [hrd], c, rfl, by rw [hname, hrd]⟩)
              (by
                intro c' hc'
                simp only [Option.some.injEq] at hc'
                subst hc'
                rw [hname]; exact hg)
              hwf0 hag0
        | none =>
          simp only
          have hn1 := newCmd_named rd.2 ⟨rd.1.1, 0, 0, 0, 0, 0⟩ hwf0 hn0
          have hwf1 := (newCmd_ext proc 0 0 0 rd.2 rd.1.1 hg).wf hwf0
          have hmono := (newCmd_ext proc 0 0 0 rd.2 rd.1.1 hg).led_mono
          have hag1 : Agrees proc L n0 (newCmd rd.2 ⟨rd.1.1, 0, 0, 0, 0, 0⟩).2 :=
            agrees_of_procs (s := rd.2) rfl rfl (by
              intro c hc
              have : c ≠ rd.2.ncmds := by omega
              simp [newCmd, Function.update_apply, this]) (fun _ _ hk => hk) hmono hwf0 hag0
          refine ⟨?_, ?_, hbase, by simp [newProc], hreg _ _ rfl rfl, hold _ _ rfl rfl⟩
          · exact named_of_names
              (s := (newCmd rd.2 ⟨rd.1.1, 0, 0, 0, 0, 0⟩).2) rfl (fun _ => rfl) hn1
          · exact newProc_agrees proc L n0 _ _ rfl
              (fun _ => ⟨by rw [hrd], rd.2.ncmds, rfl, by simp [newCmd, hrd]⟩)
              (by
                intro c' hc'
                simp only [Option.some.injEq] at hc'
                subst hc'
                simp [newCmd, mapGet_mapPut])
              hwf1 hag1
  exact ⟨main.1, main.2.1, main.2.2.1, main.2.2.2.1, main.2.2.2.2.1, main.2.2.2.2.2, hsub⟩

theorem creditSub_names (s : Engine) (spid : Int) (p : Nat) (et ec : Nat)
    (hn : Named s) (c : Nat) (hc : c < s.ncmds)
    (hci : (s.procs p).ci = some c)
    (hall : mapGet s.cmdInfos (s.cmds c).cmd = some c) (k : String) :
    subByName (creditSub s spid p et ec) k =
      if k = (s.cmds c).cmd ∧ (subByName s k).2.2 ≠ spid then
        (((subByName s k).1 + ec) % U64, ((subByName s k).2.1 + et) % U64, spid)
      else subByName s k := by
  by_cases hs : spid = (s.cmds c).spid
  · have e : creditSub s spid p et ec = s := by simp [creditSub, hci, hs]
    rw [e]
    by_cases hk : k = (s.cmds c).cmd
    · have : (subByName s k).2.2 = spid := by
        rw [hk, subByName_eq s _ c hall]
        simp [subView, hc, hs]
      simp [this]
    · simp [hk]
  · have e : creditSub s spid p et ec
        = setCmd s c { s.cmds c with subec := ((s.cmds c).subec + ec) % U64
                                     subet := ((s.cmds c).subet + et) % U64
                                     spid := spid } := by
      simp [creditSub, hci, hs]
    rw [e]
    by_cases hk : k = (s.cmds c).cmd
    · subst hk
      have h1 : subByName s (s.cmds c).cmd = subView s c := subByName_eq s _ c hall
      have h3 : ∀ t : Engine, t.cmdInfos = s.cmdInfos →
          subByName t (s.cmds c).cmd = subView t c := by
        intro t ht
        simp [subByName, ht, hall]
      have hs' : ¬ (s.cmds c).spid = spid := fun h => hs h.symm
      rw [h1, h3 (setCmd s c _) rfl]
      simp [subView, setCmd, hc, hs']
    · simp only [hk, false_and, if_false]
      simp only [subByName, setCmd]
      cases hg : mapGet s.cmdInfos k with
      | none => rfl
      | some c' =>
        have : c' ≠ c := by
          intro e'
          rw [e'] at hg
          exact hk (hn.key k c hg).symm
        simp [subView, setCmd, Function.update_apply, this]


theorem creditSub_same (s : Engine) (spid : Int) (p : Nat) (et ec : Nat) :
    (creditSub s spid p et ec).cmdInfos = s.cmdInfos ∧
    (creditSub s spid p et ec).ncmds = s.ncmds ∧
    ∀ c, ((creditSub s spid p et ec).cmds c).cmd = (s.cmds c).cmd := by
  unfold creditSub
  split
  · exact ⟨rfl, rfl, fun _ => rfl⟩
  · split
    · refine ⟨rfl, rfl, ?_⟩
      intro c
      simp only [setCmd, Function.update_apply]
      split
      · next h => rw [h]
      · rfl
    · exact ⟨rfl, rfl, fun _ => rfl⟩

/-- Crediting one name and then the names of a list, each guarded by the marker,
is crediting the names of the extended list once. -/
theorem credit_compose (spid : Int) (et ec : Nat) (n : String) (l : List String)
    (v0 v1 v2 : String → Nat × Nat × Int)
    (h1 : ∀ k, v1 k = if k = n ∧ (v0 k).2.2 ≠ spid then
      (((v0 k).1 + ec) % U64, ((v0 k).2.1 + et) % U64, spid) else v0 k)
    (h2 : ∀ k, v2 k = if k ∈ l ∧ (v1 k).2.2 ≠ spid then
      (((v1 k).1 + ec) % U64, ((v1 k).2.1 + et) % U64, spid) else v1 k) (k : String) :
    v2 k = if k ∈ n :: l ∧ (v0 k).2.2 ≠ spid then
      (((v0 k).1 + ec) % U64, ((v0 k).2.1 + et) % U64, spid) else v0 k := by
  rw [h2, h1]
  by_cases hk : k = n
  · by_cases hm : (v0 k).2.2 = spid
    · simp [hk, hm] at hm ⊢
      simp [hm]
    · simp [hk, hm] at hm ⊢
      simp [hm]
  · simp [hk]

/-- One walk of `propagateStats`, seen by command name: with records that agree
with the lookup, the walk credits the names of the lookup chain whose marker is
not the source pid, registers only pids of the chain, leaves the records of all
other pids alone, and keeps the invariants. -/
theorem propagateStats_names (proc : Int → Option (String × Int)) (L : List Int) (n0 : Nat)
    (spid : Int) (et ec : Nat) :
    ∀ (n : Nat) (s : Engine) (pi : Option Nat) (pid : Int) (r : Option Nat × Engine),
      WF s → Named s → Agrees proc L n0 s →
      (∀ p, pi = some p → n0 ≤ p ∧ p < s.nprocs ∧ (1 < pid → (s.procs p).pid = pid)) →
      (∀ x, x ∈ chainPids proc n pid → x ∉ L) →
      propagateStats proc n s spid pi pid et ec = some r →
      Named r.2 ∧ Agrees proc L n0 r.2 ∧
      (∀ k, r.2.procInfos k = s.procInfos k ∨
        (k ∈ chainPids proc n pid ∧ s.procInfos k = none)) ∧
      (∀ x, x < s.nprocs → (s.procs x).pid ∉ chainPids proc n pid →
        r.2.procs x = s.procs x) ∧
      (∀ k, subByName r.2 k =
        if k ∈ chainNames proc n pid ∧ (subByName s k).2.2 ≠ spid then
          (((subByName s k).1 + ec) % U64, ((subByName s k).2.1 + et) % U64, spid)
        else subByName s k) := by
  intro n
  induction n with
  | zero => intro s pi pid r _ _ _ _ _ h; simp [propagateStats] at h
  | succ n ih =>
    intro s pi pid r hwf hn hag hpi0 hL h
    simp only [propagateStats] at h
    by_cases hpid : pid ≤ 1
    · simp only [hpid, if_true, Option.some.injEq] at h
      subst h
      refine ⟨hn, hag, fun _ => Or.inl rfl, fun _ _ _ => rfl, ?_⟩
      intro k
      simp [chainNames, hpid]
    · simp only [hpid, if_false] at h
      have hpi : ∀ p, pi = some p → n0 ≤ p ∧ p < s.nprocs ∧ (s.procs p).pid = pid :=
        fun p hp => ⟨(hpi0 p hp).1, (hpi0 p hp).2.1, (hpi0 p hp).2.2 (by omega)⟩
      have hcp : chainPids proc (n + 1) pid = pid ::
          (if (lookupOf proc pid).2 ≠ 0 then chainPids proc n (lookupOf proc pid).2 else []) := by
        simp [chainPids, hpid]
      have hcn : chainNames proc (n + 1) pid = (lookupOf proc pid).1 ::
          (if (lookupOf proc pid).2 ≠ 0 then chainNames proc n (lookupOf proc pid).2 else []) := by
        simp [chainNames, hpid]
      have hpidL : pid ∉ L := hL pid (by rw [hcp]; exact List.mem_cons_self _ _)
      obtain ⟨ha1, ha2, ha3, _, _⟩ :=
        resolveProc_ext proc s pi pid spid et ec (fun p hp => (hpi p hp).2.1) hwf
      obtain ⟨hb1, hb2, hb0, hb3, hb4, hb6, hb5⟩ :=
        resolveProc_names proc L n0 s pi pid hwf hn hag hpi
      generalize resolveProc proc s pi pid = a at h ha1 ha2 ha3 hb0 hb1 hb2 hb3 hb4 hb5 hb6
      obtain ⟨p, s1⟩ := a
      simp only at h ha1 ha2 ha3 hb0 hb1 hb2 hb3 hb4 hb5 hb6
      have hwf1 : WF s1 := ha1.wf hwf
      have hpp1 : (s1.procs p).ppid = (lookupOf proc pid).2 := by
        have := hb2.ppid p hb0 ha2 (by rw [hb3]; exact hpidL)
        rw [hb3] at this
        exact this
      obtain ⟨c, hc, hname⟩ := hb2.ci p hb0 ha2 (by rw [hb3]; exact hpidL)
      rw [hb3] at hname
      have hc1 : c < s1.ncmds := hwf1.hci p c ha2 hc
      have hall : mapGet s1.cmdInfos (s1.cmds c).cmd = some c := hb2.cin p c hb0 ha2 hc
      obtain ⟨hc1e, hc2, hc3, hc4, _, _⟩ := creditSub_ext proc s1 spid p et ec ha2 hwf1
      have hcs := creditSub_names s1 spid p et ec hb1 c hc1 hc hall
      obtain ⟨hs1, hs2, hs3⟩ := creditSub_same s1 spid p et ec
      generalize creditSub s1 spid p et ec = s2 at h hc1e hc2 hc3 hc4 hcs hs1 hs2 hs3
      have hwf2 : WF s2 := hc1e.wf hwf1
      have hn2 : Named s2 := named_of_names hs1 hs3 hb1
      have hag2 : Agrees proc L n0 s2 :=
        agrees_of_procs hc2 hc4 (fun c _ => hs3 c) (fun k x hk => by rw [hc3] at hk; exact hk)
          (fun k c hk => by rw [hs1]; exact hk) hwf1 hb2
      have hp2 : p < s2.nprocs := by rw [hc4]; exact ha2
      have hpp2 : (s2.procs p).ppid = (lookupOf proc pid).2 := by rw [hc2]; exact hpp1
      have hpid2 : (s2.procs p).pid = pid := by rw [hc2]; exact hb3
      have hreg2 : ∀ k, s2.procInfos k = s.procInfos k ∨ (k = pid ∧ s.procInfos k = none) := by
        intro k; rw [hc3]; exact hb4 k
      have hold2 : ∀ x, x < s.nprocs → s2.procs x = s.procs x := by
        intro x hx; rw [hc2]; exact hb6 x hx
      have hxp : ∀ x, x < s.nprocs → (s.procs x).pid ∉ chainPids proc (n + 1) pid → x ≠ p := by
        intro x hx hnot e
        apply hnot
        rw [hcp, e, ← hold2 p (by rw [← e]; exact hx), hpid2]
        exact List.mem_cons_self _ _
      have hsub2 : ∀ k, subByName s2 k =
          if k = (lookupOf proc pid).1 ∧ (subByName s k).2.2 ≠ spid then
            (((subByName s k).1 + ec) % U64, ((subByName s k).2.1 + et) % U64, spid)
          else subByName s k := by
        intro k
        rw [hcs k, hname, hb5 k]
      rw [hpp2] at h
      by_cases hpp : (lookupOf proc pid).2 = 0
      · simp only [hpp, ne_eq, not_true_eq_false, if_false, Option.some.injEq] at h
        subst h
        refine ⟨hn2, hag2, ?_, ?_, ?_⟩
        · intro k
          rcases hreg2 k with a | ⟨a, b⟩
          · exact Or.inl a
          · right; rw [hcp, a]; exact ⟨List.mem_cons_self _ _, by rw [← a]; exact b⟩
        · intro x hx _
          exact hold2 x hx
        · intro k
          rw [hcn, hsub2 k]
          simp [hpp]
      · simp only [ne_eq, hpp, not_false_eq_true, if_true] at h hcp hcn
        have hL' : ∀ x, x ∈ chainPids proc n (lookupOf proc pid).2 → x ∉ L := by
          intro x hx
          exact hL x (by rw [hcp]; exact List.mem_cons_of_mem _ hx)
        have hfin : ∀ (r3 : Option Nat × Engine) (s4 : Engine),
            (Named r3.2 ∧ Agrees proc L n0 r3.2 ∧
              (∀ k, r3.2.procInfos k = s2.procInfos k ∨
                (k ∈ chainPids proc n (lookupOf proc pid).2 ∧ s2.procInfos k = none)) ∧
              (∀ x, x < s2.nprocs → (s2.procs x).pid ∉ chainPids proc n (lookupOf proc pid).2 →
                r3.2.procs x = s2.procs x) ∧
              (∀ k, subByName r3.2 k =
                if k ∈ chainNames proc n (lookupOf proc pid).2 ∧ (subByName s2 k).2.2 ≠ spid then
                  (((subByName s2 k).1 + ec) % U64, ((subByName s2 k).2.1 + et) % U64, spid)
                else subByName s2 k)) →
            Named s4 → Agrees proc L n0 s4 → s4.procInfos = r3.2.procInfos →
            (∀ x, x ≠ p → s4.procs x = r3.2.procs x) →
            (∀ k, subByName s4 k = subByName r3.2 k) →
            Named s4 ∧ Agrees proc L n0 s4 ∧
            (∀ k, s4.procInfos k = s.procInfos k ∨
              (k ∈ chainPids proc (n + 1) pid ∧ s.procInfos k = none)) ∧
            (∀ x, x < s.nprocs → (s.procs x).pid ∉ chainPids proc (n + 1) pid →
              s4.procs x = s.procs x) ∧
            (∀ k, subByName s4 k =
              if k ∈ chainNames proc (n + 1) pid ∧ (subByName s k).2.2 ≠ spid then
                (((subByName s k).1 + ec) % U64, ((subByName s k).2.1 + et) % U64, spid)
              else subByName s k) := by
          intro r3 s4 ⟨_, _, i3, i5, i4⟩ h4n h4a h4r h4p h4s
          refine ⟨h4n, h4a, ?_, ?_, ?_⟩
          · intro k
            rw [h4r, hcp]
            rcases i3 k with a | ⟨a, b⟩
            · rw [a]
              rcases hreg2 k with b | ⟨b, b'⟩
              · exact Or.inl b
              · right; rw [b]; exact ⟨List.mem_cons_self _ _, by rw [← b]; exact b'⟩
            · right
              refine ⟨List.mem_cons_of_mem _ a, ?_⟩
              rcases hreg2 k with c | ⟨_, c⟩
              · rw [← c]; exact b
              · exact c
          · intro x hx hnot
            have hx2 : x < s2.nprocs := by
              rw [hc4]; exact lt_of_lt_of_le hx ha1.nprocs_le
            rw [h4p x (hxp x hx hnot), i5 x hx2 (by
              rw [hold2 x hx]
              intro hmem
              exact hnot (by rw [hcp]; exact List.mem_cons_of_mem _ hmem)), hold2 x hx]
          · intro k
            rw [h4s, hcn]
            exact credit_compose spid et ec _ _ (subByName s) (subByName s2) (subByName r3.2)
              hsub2 i4 k
        cases hq : (s2.procs p).ppi with
        | some q =>
          simp only [hq] at h
          cases hrec : propagateStats proc n s2 spid (some q) (lookupOf proc pid).2 et ec with
          | none => simp [hrec] at h
          | some r3 =>
            simp only [hrec, Option.some.injEq] at h
            subst h
            have hq2 : q < s2.nprocs := hwf2.hppi p q hp2 hq
            have hq0 : n0 ≤ q := hag2.up p q hb0 hp2 hq
            have hqpid : (s2.procs q).pid = (lookupOf proc pid).2 := by
              have := hag2.link p q hb0 hp2 (by rw [hpid2]; exact hpidL) hq
              rw [hpp2] at this
              exact this
            have i := ih s2 (some q) (lookupOf proc pid).2 r3 hwf2 hn2 hag2
              (by intro p' hp'; cases hp'; exact ⟨hq0, hq2, fun _ => hqpid⟩) hL' hrec
            exact hfin r3 r3.2 i i.1 i.2.1 rfl (fun _ _ => rfl) (fun _ => rfl)
        | none =>
          simp only [hq] at h
          cases hrec : propagateStats proc n s2 spid none (lookupOf proc pid).2 et ec with
          | none => simp [hrec] at h
          | some r3 =>
            simp only [hrec, Option.some.injEq] at h
            subst h
            have i := ih s2 none (lookupOf proc pid).2 r3 hwf2 hn2 hag2
              (by intro p' hp'; cases hp') hL' hrec
            obtain ⟨e3, _, hr3⟩ := propagateStats_ext proc n s2 spid none (lookupOf proc pid).2
              et ec r3 hwf2 (by intro p' hp'; cases hp') hrec
            have hwf3 : WF r3.2 := e3.wf hwf2
            have hp3 : p < r3.2.nprocs := lt_of_lt_of_le hp2 e3.nprocs_le
            have hpid3 : (r3.2.procs p).pid = pid := by
              rw [(e3.proc_old p hp2).1]; exact hpid2
            have hpp3 : (r3.2.procs p).ppid = (lookupOf proc pid).2 := by
              rw [(e3.proc_old p hp2).2.1]; exact hpp2
            have hres : ∀ y, r3.1 = some y → n0 ≤ y ∧
                (r3.2.procs y).pid = (lookupOf proc pid).2 ∧ 1 < (lookupOf proc pid).2 := by
              intro y hy
              rcases hr3 with ⟨_, hr⟩ | ⟨h1, q, hrq, _, hmq, _⟩
              · rw [hr] at hy; cases hy
              · rw [hrq] at hy
                cases hy
                exact ⟨i.2.1.reg _ _ (hmq rfl), hwf3.hkey _ _ (hmq rfl), h1⟩
            refine hfin r3 _ i ?_ ?_ rfl ?_ ?_
            · exact named_of_names (s := r3.2) rfl (fun _ => rfl) i.1
            · refine setProc_agrees proc L n0 r3.2 p _ rfl ?_ ?_ ?_ ?_ i.2.1
              · intro y hy
                exact (hres y hy).1
              · intro hl
                simp only at hl ⊢
                refine ⟨i.2.1.ppid p hb0 hp3 hl, i.2.1.ci p hb0 hp3 hl, ?_⟩
                intro y hy
                rw [hpp3]
                exact (hres y hy).2.1
              · intro c' hc'
                exact i.2.1.cin p c' hb0 hp3 hc'
              · intro y hy
                rw [(hres y hy).2.1]
                exact (hres y hy).2.2
            · intro x hx
              simp [setProc, Function.update_apply, hx]
            · intro k
              simp [subByName, subView, setProc]


theorem setCmd_named (s : Engine) (c : Nat) (r : cmdInfo) (h : r.cmd = (s.cmds c).cmd)
    (hn : Named s) : Named (setCmd s c r) := by
  refine named_of_names (s := s) rfl ?_ hn
  intro c'
  simp only [setCmd, Function.update_apply]
  split
  · next h' => rw [h, h']
  · rfl

theorem incCmd_named (s : Engine) (ci : Option Nat) (cmd : String) (et ec : Nat) (hwf : WF s)
    (hn : Named s) : Named (incCmd s ci cmd et ec).2 := by
  cases ci with
  | some c => exact setCmd_named s c _ rfl hn
  | none =>
    cases h : mapGet s.cmdInfos cmd with
    | some c =>
      have e : incCmd s none cmd et ec = incCmd s (some c) cmd et ec := by
        simp [incCmd, h]
      rw [e]
      exact setCmd_named s c _ rfl hn
    | none =>
      have e : incCmd s none cmd et ec = newCmd s ⟨cmd, 0, 0, ec, et, 0⟩ := by
        simp [incCmd, h]
      rw [e]
      exact newCmd_named s _ hwf hn

/-- Function `incCmd` seen by command name: the name credited is the one of the
record given, else the name given. -/
theorem incCmd_names (proc : Int → Option (String × Int)) (L : List Int) (n0 : Nat)
    (s : Engine) (ci : Option Nat) (cmd : String) (et ec : Nat) (hwf : WF s) (hn : Named s)
    (hag : Agrees proc L n0 s)
    (hci : ∀ c, ci = some c → c < s.ncmds ∧ mapGet s.cmdInfos (s.cmds c).cmd = some c)
    (het : et < U64) (hec : ec < U64) :
    Named (incCmd s ci cmd et ec).2 ∧ Agrees proc L n0 (incCmd s ci cmd et ec).2 ∧
    (∀ k, ownTotals (incCmd s ci cmd et ec).2 k =
      if k = creditName s ci cmd then
        (((ownTotals s k).1 + ec) % U64, ((ownTotals s k).2 + et) % U64)
      else ownTotals s k) ∧
    (∀ k, subByName (incCmd s ci cmd et ec).2 k = subByName s k) ∧
    mapGet (incCmd s ci cmd et ec).2.cmdInfos
      (((incCmd s ci cmd et ec).2.cmds (incCmd s ci cmd et ec).1).cmd)
      = some (incCmd s ci cmd et ec).1 := by
  have i := incCmd_inc s ci cmd et ec hwf (fun c hc => (hci c hc).1) het hec
  have hn' := incCmd_named s ci cmd et ec hwf hn
  have ht : mapGet (incCmd s ci cmd et ec).2.cmdInfos (creditName s ci cmd)
      = some (incCmd s ci cmd et ec).1 := by
    cases ci with
    | some c =>
      simp only [creditName]
      have := i.given c rfl
      rw [this]
      exact i.led_mono _ _ (hci c rfl).2
    | none => exact i.named rfl
  generalize creditName s ci cmd = n at ht ⊢
  refine ⟨hn', agrees_of_procs i.procs_eq i.nprocs_eq i.cmd_old
    (fun k x hk => by rw [i.map_eq] at hk; exact hk) i.led_mono hwf hag, ?_, ?_, ?_⟩
  · intro k
    obtain ⟨c, _, _, h3, h4, h5⟩ := byName_addr hwf i.wf i.ncmds_le i.led_mono i.led_new k
    rw [h3, h4]
    by_cases hk : k = n
    · simp only [hk, if_true]
      rw [hk, ht] at h5
      rcases h5 with a | ⟨a, _⟩
      · cases a
        exact i.own_target
      · cases a
    · simp only [hk, if_false]
      apply i.own_other
      intro e
      rcases h5 with a | ⟨_, _, a⟩
      · rw [e] at a
        exact hk ((hn'.key k _ a).symm.trans (hn'.key n _ ht))
      · have := i.target
        omega
  · intro k
    obtain ⟨c, h1, h2, _⟩ := byName_addr hwf i.wf i.ncmds_le i.led_mono i.led_new k
    rw [h1, h2]
    exact i.sub c
  · rw [hn'.key n _ ht]
    exact ht

/-- A walk for a source pid that is the marker of no command on the chain, seen
by command name: the names of the lookup chain are credited, the records of the
pids off the chain and the own totals are left alone. -/
theorem walk_names (proc : Int → Option (String × Int)) (L : List Int) (n0 : Nat) (fuel : Nat)
    (s : Engine) (spid : Int) (pi : Option Nat) (ppid : Int) (et ec : Nat)
    (r : Option Nat × Engine)
    (hwf : WF s) (hn : Named s) (hag : Agrees proc L n0 s)
    (hpi : ∀ p, pi = some p → n0 ≤ p ∧ p < s.nprocs ∧ (1 < ppid → (s.procs p).pid = ppid))
    (hmark : ∀ k, k ∈ chainNames proc fuel ppid → (subByName s k).2.2 ≠ spid)
    (hL : ∀ x, x ∈ chainPids proc fuel ppid → x ∉ L)
    (h : propagateStats proc fuel s spid pi ppid et ec = some r) :
    WF r.2 ∧ Named r.2 ∧ Agrees proc L n0 r.2 ∧
    (∀ k, r.2.procInfos k = s.procInfos k ∨
      (k ∈ chainPids proc fuel ppid ∧ s.procInfos k = none)) ∧
    (∀ x, x < s.nprocs → (s.procs x).pid ∉ chainPids proc fuel ppid →
      r.2.procs x = s.procs x) ∧
    (∀ k, ownTotals r.2 k = ownTotals s k) ∧
    (∀ k, subByName r.2 k =
      if k ∈ chainNames proc fuel ppid then
        (((subByName s k).1 + ec) % U64, ((subByName s k).2.1 + et) % U64, spid)
      else subByName s k) ∧
    (∀ y, r.1 = some y → n0 ≤ y ∧ y < r.2.nprocs ∧ (r.2.procs y).pid = ppid ∧ 1 < ppid) ∧
    Ext proc spid et ec s r.2 := by
  obtain ⟨e, _, hr⟩ := propagateStats_ext proc fuel s spid pi ppid et ec r hwf
    (fun p hp => (hpi p hp).2.1) h
  obtain ⟨i1, i2, i3, i5, i4⟩ := propagateStats_names proc L n0 spid et ec fuel s pi ppid r
    hwf hn hag hpi hL h
  refine ⟨e.wf hwf, i1, i2, i3, i5, fun k => ext_ownTotals e hwf k, ?_, ?_, e⟩
  · intro k
    rw [i4 k]
    by_cases hk : k ∈ chainNames proc fuel ppid
    · simp [hk, hmark k hk]
    · simp [hk]
  · intro y hy
    rcases hr with ⟨_, hr⟩ | ⟨h1, q, hq, hq2, hq3, hq4⟩
    · rw [hr] at hy; cases hy
    · rw [hq] at hy
      cases hy
      refine ⟨?_, hq2, ?_, h1⟩
      · cases pi with
        | some p' =>
          rw [hq4 p' rfl]
          exact (hpi p' rfl).1
        | none => exact i2.reg _ _ (hq3 rfl)
      · cases pi with
        | some p' =>
          rw [hq4 p' rfl, (e.proc_old p' (hpi p' rfl).2.1).1]
          exact (hpi p' rfl).2.2 h1
        | none => exact (e.wf hwf).hkey _ _ (hq3 rfl)

/-- The records cached for a pid of the registry fit the invariants. -/
theorem cached_fit (proc : Int → Option (String × Int)) (L : List Int) (n0 : Nat)
    (s : Engine) (pid : Int) (hwf : WF s) (hag : Agrees proc L n0 s) :
    (∀ c, cachedCi s pid = some c →
      c < s.ncmds ∧ mapGet s.cmdInfos (s.cmds c).cmd = some c) ∧
    (∀ q, cachedPpi s pid = some q → n0 ≤ q ∧ q < s.nprocs) := by
  cases hm : s.procInfos pid with
  | none => simp [cachedCi, cachedPpi, hm]
  | some x =>
    have hx := hwf.hmap _ _ hm
    have hx0 := hag.reg _ _ hm
    constructor
    · intro c hc
      simp only [cachedCi, hm, Option.bind_some] at hc
      exact ⟨hwf.hci x c hx hc, hag.cin x c hx0 hx hc⟩
    · intro q hq
      simp only [cachedPpi, hm, Option.bind_some] at hq
      exact ⟨hag.up x q hx0 hx hq, hwf.hppi x q hx hq⟩

/-- An `Exit` event, by command name. -/
theorem goExitStats_names (proc : Int → Option (String × Int)) (L : List Int) (n0 : Nat)
    (fuel : Nat) (s : Engine) (pid ppid : Int) (cpu : Nat) (cmd : String) (s' : Engine)
    (hwf : WF s) (hn : Named s) (hag : Agrees proc L n0 s)
    (hstart : 1 < ppid → ∀ q, cachedPpi s pid = some q → (s.procs q).pid = ppid)
    (hmark : ∀ k, k ∈ chainNames proc fuel ppid → (subByName s k).2.2 ≠ pid)
    (hL : ∀ x, x ∈ chainPids proc fuel ppid → x ∉ L) (hcpu : cpu < U64)
    (h : goExitStats proc fuel s pid ppid cpu cmd = some s') :
    Named s' ∧ Agrees proc L n0 s' ∧
    (∀ k, k ≠ pid → (s'.procInfos k = s.procInfos k ∨
      (k ∈ chainPids proc fuel ppid ∧ s.procInfos k = none))) ∧
    (∀ x, x < s.nprocs → (s'.procs x).pid = (s.procs x).pid ∧
      (s'.procs x).ci = (s.procs x).ci ∧ (s'.procs x).cpu = (s.procs x).cpu) ∧
    (∀ x, x < s.nprocs → (s.procs x).pid ∉ chainPids proc fuel ppid →
      (s'.procs x).ppi = (s.procs x).ppi) ∧
    (∀ x q, x < s.nprocs → (s.procs x).ppi = some q → (s'.procs x).ppi = some q) ∧
    (∀ c, c < s.ncmds → (s'.cmds c).cmd = (s.cmds c).cmd) ∧
    (∀ k, ownTotals s' k =
      if k = creditName s (cachedCi s pid) cmd then
        (((ownTotals s k).1 + 1) % U64, ((ownTotals s k).2 + cpu) % U64)
      else ownTotals s k) ∧
    (∀ k, subByName s' k =
      if k ∈ chainNames proc fuel ppid then
        (((subByName s k).1 + 1) % U64, ((subByName s k).2.1 + cpu) % U64, pid)
      else subByName s k) ∧
    s'.initCpuCounters = s.initCpuCounters := by
  rw [goExitStats_eq] at h
  obtain ⟨f1, f2⟩ := cached_fit proc L n0 s pid hwf hag
  have hwf0 : WF (exitPre s pid) := exitPre_wf s pid hwf
  have hn0 : Named (exitPre s pid) := named_of_names (s := s) rfl (fun _ => rfl) hn
  have hag0 : Agrees proc L n0 (exitPre s pid) :=
    agrees_of_procs (s := s) rfl rfl (fun _ _ => rfl)
      (by
        intro k x hk
        simp only [exitPre, Function.update_apply] at hk
        split at hk
        · cases hk
        · exact hk)
      (fun _ _ hk => hk) hwf hag
  have hreg0 : ∀ k, k ≠ pid → (exitPre s pid).procInfos k = s.procInfos k := by
    intro k hk
    simp [exitPre, Function.update_apply, hk]
  have hU : (1 : Nat) < U64 := by simp [U64]
  obtain ⟨a1, a2, a3, a4, _⟩ := incCmd_names proc L n0 (exitPre s pid) (cachedCi s pid) cmd
    cpu 1 hwf0 hn0 hag0 f1 hcpu hU
  have ai := incCmd_inc (exitPre s pid) (cachedCi s pid) cmd cpu 1 hwf0
    (fun c hc => (f1 c hc).1) hcpu hU
  generalize incCmd (exitPre s pid) (cachedCi s pid) cmd cpu 1 = a at h a1 a2 a3 a4 ai
  have hprocs : a.2.procs = s.procs := ai.procs_eq
  have hnprocs : a.2.nprocs = s.nprocs := ai.nprocs_eq
  cases hw : propagateStats proc fuel a.2 pid (cachedPpi s pid) ppid cpu 1 with
  | none => rw [hw] at h; cases h
  | some r =>
    rw [hw] at h
    simp only [Option.map_some', Option.some.injEq] at h
    subst h
    obtain ⟨_, w2, w3, w4, w8, w5, w6, _, we⟩ := walk_names proc L n0 fuel a.2 pid
      (cachedPpi s pid) ppid cpu 1 r ai.wf a1 a2
      (by
        intro q hq
        rw [hnprocs, hprocs]
        exact ⟨(f2 q hq).1, (f2 q hq).2, fun h1 => hstart h1 q hq⟩)
      (by intro k hk; rw [a4 k]; exact hmark k hk) hL hw
    refine ⟨w2, w3, ?_, ?_, ?_, ?_, ?_, ?_, ?_, ?_⟩
    · intro k hk
      rcases w4 k with b | ⟨b, b'⟩
      · left; rw [b, ai.map_eq, hreg0 k hk]
      · right
        refine ⟨b, ?_⟩
        rw [ai.map_eq, hreg0 k hk] at b'
        exact b'
    · intro x hx
      have := we.proc_old x (by rw [hnprocs]; exact hx)
      rw [hprocs] at this
      exact ⟨this.1, this.2.2.1, this.2.2.2⟩
    · intro x hx hnot
      rw [w8 x (by rw [hnprocs]; exact hx) (by rw [hprocs]; exact hnot), hprocs]
    · intro x q hx hq
      exact we.ppi_some x q (by rw [hnprocs]; exact hx) (by rw [hprocs]; exact hq)
    · intro c hc
      have h1 : c < a.2.ncmds := lt_of_lt_of_le hc ai.ncmds_le
      rw [we.cmd_old c h1]
      exact ai.cmd_old c hc
    · intro k
      rw [w5 k, a3 k]
      rfl
    · intro k
      rw [w6 k, a4 k]
      rfl
    · rw [we.flags.1, ai.flags.1]
      rfl


theorem subByName_congr {s s' : Engine} (h1 : s'.cmds = s.cmds) (h2 : s'.ncmds = s.ncmds)
    (h3 : s'.cmdInfos = s.cmdInfos) (k : String) : subByName s' k = subByName s k := by
  simp only [subByName, subView, h1, h2, h3]

theorem ownTotals_congr {s s' : Engine} (h1 : s'.cmds = s.cmds)
    (h3 : s'.cmdInfos = s.cmdInfos) (k : String) : ownTotals s' k = ownTotals s k := by
  simp only [ownTotals, ledger, h1, h3]

/-- The registry record `goUpdateStats` starts from keeps the invariants, a new
pid being one of `L`. -/
theorem updPre_agrees (proc : Int → Option (String × Int)) (L : List Int) (n0 : Nat)
    (s : Engine) (pid ppid : Int) (cpu : Nat) (hwf : WF s) (hn : Named s)
    (hag : Agrees proc L n0 s) (hnew : s.procInfos pid = none → pid ∈ L) :
    Named (updPre s pid ppid cpu).2 ∧ Agrees proc L n0 (updPre s pid ppid cpu).2 ∧
    (∀ k, k ≠ pid → (updPre s pid ppid cpu).2.procInfos k = s.procInfos k) := by
  cases h : s.procInfos pid with
  | some p =>
    have hu : updPre s pid ppid cpu = (p, s) := by simp [updPre, h]
    rw [hu]
    exact ⟨hn, hag, fun _ _ => rfl⟩
  | none =>
    have hu : updPre s pid ppid cpu = newProc s ⟨pid, ppid, none, none, cpu⟩ := by
      simp [updPre, h]
    rw [hu]
    refine ⟨named_of_names (s := s) rfl (fun _ => rfl) hn,
      newProc_agrees proc L n0 s _ rfl (fun hl => absurd (hnew h) hl)
        (by intro c hc; cases hc) hwf hag, ?_⟩
    intro k hk
    simp [newProc, Function.update_apply, hk]

/-- An `Update` event, by command name. -/
theorem goUpdateStats_names (proc : Int → Option (String × Int)) (L : List Int) (n0 : Nat)
    (fuel : Nat) (s : Engine) (pid ppid : Int) (cpu : Nat) (cmd : String) (s' : Engine)
    (hwf : WF s) (hn : Named s) (hag : Agrees proc L n0 s)
    (hnew : s.procInfos pid = none → pid ∈ L)
    (hlook : pid ∉ L → 1 < ppid → ppid = (lookupOf proc pid).2)
    (hstart : 1 < ppid → ∀ q, cachedPpi s pid = some q → (s.procs q).pid = ppid)
    (hmark : ∀ k, k ∈ chainNames proc fuel ppid → (subByName s k).2.2 ≠ pid)
    (hL : ∀ x, x ∈ chainPids proc fuel ppid → x ∉ L) (hcpu : cpu < U64)
    (h : goUpdateStats proc fuel s pid ppid cpu cmd = some s') :
    Named s' ∧ Agrees proc L n0 s' ∧
    (∀ k, k ≠ pid → (s'.procInfos k = s.procInfos k ∨
      (k ∈ chainPids proc fuel ppid ∧ s.procInfos k = none))) ∧
    (∀ x, x < s.nprocs → (s'.procs x).pid = (s.procs x).pid ∧
      ((s.procs x).pid ≠ pid →
        (s'.procs x).ci = (s.procs x).ci ∧ (s'.procs x).cpu = (s.procs x).cpu)) ∧
    (∀ x, x < s.nprocs → (s.procs x).pid ≠ pid →
      (s.procs x).pid ∉ chainPids proc fuel ppid → (s'.procs x).ppi = (s.procs x).ppi) ∧
    (∀ x q, x < s.nprocs → (s.procs x).pid ≠ pid → (s.procs x).ppi = some q →
      (s'.procs x).ppi = some q) ∧
    (∀ c, c < s.ncmds → (s'.cmds c).cmd = (s.cmds c).cmd) ∧
    (∀ k, ownTotals s' k =
      if k = creditName s (cachedCi s pid) cmd then
        (((ownTotals s k).1 + updCnt s pid) % U64,
          ((ownTotals s k).2 + specDelta s.initCpuCounters (storedCpu s pid) cpu) % U64)
      else ownTotals s k) ∧
    (∀ k, subByName s' k =
      if k ∈ chainNames proc fuel ppid then
        (((subByName s k).1 + updCnt s pid) % U64,
          ((subByName s k).2.1 + specDelta s.initCpuCounters (storedCpu s pid) cpu) % U64, pid)
      else subByName s k) ∧
    s'.initCpuCounters = s.initCpuCounters := by
  rw [goUpdateStats_eq] at h
  obtain ⟨f1, f2⟩ := cached_fit proc L n0 s pid hwf hag
  obtain ⟨u1, u2, u3, _, ⟨u5, u6, u6'⟩, u7, u9, u8, _, u10, _, _⟩ :=
    updPre_spec s pid ppid cpu hwf
  obtain ⟨v1, v2, v3⟩ := updPre_agrees proc L n0 s pid ppid cpu hwf hn hag hnew
  have hdet : specDelta s.initCpuCounters (storedCpu s pid) cpu < U64 :=
    lt_of_le_of_lt (specDelta_le _ _ _) hcpu
  have hcnt : updCnt s pid < U64 :=
    lt_of_le_of_lt (updCnt_le s pid) (by simp [U64])
  generalize specDelta s.initCpuCounters (storedCpu s pid) cpu = det at h hdet ⊢
  generalize updCnt s pid = cnt at h hcnt ⊢
  generalize updPre s pid ppid cpu = u at h u1 u2 u3 u5 u6 u6' u7 u8 u9 u10 v1 v2 v3
  have hxpid : (u.2.procs u.1).pid = pid := u1.hkey _ _ u3
  have hx0 : n0 ≤ u.1 := v2.reg _ _ u3
  have hname0 : creditName u.2 (u.2.procs u.1).ci cmd = creditName s (cachedCi s pid) cmd := by
    rw [u10]
    cases cachedCi s pid <;> simp [creditName, u5]
  obtain ⟨a1, a2, a3, a4, a5⟩ := incCmd_names proc L n0 u.2 (u.2.procs u.1).ci cmd det cnt
    u1 v1 v2 (fun c hc => ⟨u1.hci u.1 c u2 hc, v2.cin u.1 c hx0 u2 hc⟩) hdet hcnt
  have ai := incCmd_inc u.2 (u.2.procs u.1).ci cmd det cnt u1
    (fun c hc => u1.hci u.1 c u2 hc) hdet hcnt
  rw [hname0] at a3
  generalize incCmd u.2 (u.2.procs u.1).ci cmd det cnt = a at h a1 a2 a3 a4 a5 ai
  have hpa : u.1 < a.2.nprocs := by rw [ai.nprocs_eq]; exact u2
  have hapid : (a.2.procs u.1).pid = pid := by rw [ai.procs_eq]; exact hxpid
  have hgiven : ∀ c, (a.2.procs u.1).ci = some c → a.1 = c := by
    intro c hc
    rw [ai.procs_eq] at hc
    exact ai.given c hc
  have wf1 : WF (setProc a.2 u.1 { a.2.procs u.1 with ci := some a.1 }) :=
    setProc_wf ai.wf u.1 _ rfl
      (fun q hq => ai.wf.hppi u.1 q hpa hq)
      (by intro c hc; cases hc; exact ai.target)
  have hn1 : Named (setProc a.2 u.1 { a.2.procs u.1 with ci := some a.1 }) :=
    named_of_names (s := a.2) rfl (fun _ => rfl) a1
  have hag1 : Agrees proc L n0 (setProc a.2 u.1 { a.2.procs u.1 with ci := some a.1 }) := by
    refine setProc_agrees proc L n0 a.2 u.1 _ rfl ?_ ?_ ?_
      (fun y hy => a2.par u.1 y hx0 hpa hy) a2
    · intro y hy
      exact a2.up u.1 y hx0 hpa hy
    · intro hl
      simp only at hl ⊢
      obtain ⟨c, hc, hcn⟩ := a2.ci u.1 hx0 hpa hl
      refine ⟨a2.ppid u.1 hx0 hpa hl, ⟨a.1, rfl, ?_⟩, ?_⟩
      · rw [hgiven c hc]; exact hcn
      · intro y hy
        exact a2.link u.1 y hx0 hpa hl hy
    · intro c hc
      simp only [Option.some.injEq] at hc
      subst hc
      exact a5
  have hs1n : (setProc a.2 u.1 { a.2.procs u.1 with ci := some a.1 }).nprocs = a.2.nprocs := rfl
  have hs1m : (setProc a.2 u.1 { a.2.procs u.1 with ci := some a.1 }).procInfos
      = a.2.procInfos := rfl
  have hs1o : ∀ k, ownTotals (setProc a.2 u.1 { a.2.procs u.1 with ci := some a.1 }) k
      = ownTotals a.2 k := fun _ => rfl
  have hs1s : ∀ k, subByName (setProc a.2 u.1 { a.2.procs u.1 with ci := some a.1 }) k
      = subByName a.2 k := fun _ => rfl
  have hs1c : (setProc a.2 u.1 { a.2.procs u.1 with ci := some a.1 }).cmds = a.2.cmds := rfl
  have hs1k : (setProc a.2 u.1 { a.2.procs u.1 with ci := some a.1 }).ncmds = a.2.ncmds := rfl
  have hs1i : (setProc a.2 u.1 { a.2.procs u.1 with ci := some a.1 }).initCpuCounters
      = a.2.initCpuCounters := rfl
  have hs1p : ∀ x, ((setProc a.2 u.1 { a.2.procs u.1 with ci := some a.1 }).procs x).pid
        = (a.2.procs x).pid ∧
      ((setProc a.2 u.1 { a.2.procs u.1 with ci := some a.1 }).procs x).ppi
        = (a.2.procs x).ppi ∧
      ((setProc a.2 u.1 { a.2.procs u.1 with ci := some a.1 }).procs x).cpu
        = (a.2.procs x).cpu ∧
      (x ≠ u.1 → (setProc a.2 u.1 { a.2.procs u.1 with ci := some a.1 }).procs x
        = a.2.procs x) := by
    intro x
    by_cases e : x = u.1
    · subst e
      simp [setProc]
    · simp [setProc, Function.update_apply, e]
  generalize setProc a.2 u.1 { a.2.procs u.1 with ci := some a.1 } = s1
    at h wf1 hn1 hag1 hs1n hs1m hs1o hs1s hs1c hs1k hs1i hs1p
  have hsold : ∀ x, x < s.nprocs → a.2.procs x = s.procs x := by
    intro x hx
    rw [ai.procs_eq]
    exact u8 x hx
  cases hw : propagateStats proc fuel s1 pid (cachedPpi s pid) ppid det cnt with
  | none => rw [hw] at h; cases h
  | some r =>
    rw [hw] at h
    simp only [Option.map_some', Option.some.injEq] at h
    subst h
    obtain ⟨w1, w2, w3, w4, w8, w5, w6, w9, we⟩ := walk_names proc L n0 fuel s1 pid
      (cachedPpi s pid) ppid det cnt r wf1 hn1 hag1
      (by
        intro q hq
        refine ⟨(f2 q hq).1, ?_, ?_⟩
        · rw [hs1n, ai.nprocs_eq]
          exact lt_of_lt_of_le (f2 q hq).2 u9
        · rw [(hs1p q).1, hsold q (f2 q hq).2]
          exact fun h1 => hstart h1 q hq)
      (by
        intro k hk
        rw [hs1s k, a4 k, subByName_congr u5 u6 u6' k]
        exact hmark k hk) hL hw
    have hp1 : u.1 < s1.nprocs := by rw [hs1n]; exact hpa
    have hp3 : u.1 < r.2.nprocs := lt_of_lt_of_le hp1 we.nprocs_le
    have hrpid : (r.2.procs u.1).pid = pid := by
      rw [(we.proc_old u.1 hp1).1, (hs1p u.1).1]
      exact hapid
    have hne : ∀ x, x < s.nprocs → (s.procs x).pid ≠ pid → x ≠ u.1 := by
      intro x hx hnp e
      apply hnp
      rw [← hsold x hx, e]
      exact hapid
    refine ⟨?_, ?_, ?_, ?_, ?_, ?_, ?_, ?_, ?_, ?_⟩
    · exact named_of_names (s := r.2) rfl (fun _ => rfl) w2
    · refine setProc_agrees proc L n0 r.2 u.1 _ rfl ?_ ?_ ?_ ?_ w3
      · intro y hy
        exact (w9 y hy).1
      · intro hl
        simp only at hl ⊢
        rw [hrpid] at hl
        have hl' : (r.2.procs u.1).pid ∉ L := by rw [hrpid]; exact hl
        refine ⟨w3.ppid u.1 hx0 hp3 hl', w3.ci u.1 hx0 hp3 hl', ?_⟩
        intro y hy
        rw [(w9 y hy).2.2.1, w3.ppid u.1 hx0 hp3 hl', hrpid]
        exact hlook hl (w9 y hy).2.2.2
      · intro c hc
        exact w3.cin u.1 c hx0 hp3 hc
      · intro y hy
        rw [(w9 y hy).2.2.1]
        exact (w9 y hy).2.2.2
    · intro k hk
      show r.2.procInfos k = s.procInfos k ∨ _
      rcases w4 k with b | ⟨b, b'⟩
      · left; rw [b, hs1m, ai.map_eq, v3 k hk]
      · right
        refine ⟨b, ?_⟩
        rw [hs1m, ai.map_eq, v3 k hk] at b'
        exact b'
    · intro x hx
      have hx1 : x < s1.nprocs := by
        rw [hs1n, ai.nprocs_eq]; exact lt_of_lt_of_le hx u9
      have po := we.proc_old x hx1
      constructor
      · have e1 : ((setProc r.2 u.1 { r.2.procs u.1 with ppi := r.1, cpu := cpu }).procs x).pid
            = (r.2.procs x).pid := by
          by_cases e : x = u.1
          · subst e; simp [setProc]
          · simp [setProc, Function.update_apply, e]
        rw [e1, po.1, (hs1p x).1, hsold x hx]
      · intro hnp
        have e := hne x hx hnp
        have e1 : (setProc r.2 u.1 { r.2.procs u.1 with ppi := r.1, cpu := cpu }).procs x
            = r.2.procs x := by
          simp [setProc, Function.update_apply, e]
        rw [e1, po.2.2.1, po.2.2.2, (hs1p x).2.2.2 e, hsold x hx]
        exact ⟨rfl, rfl⟩
    · intro x hx hnp hnot
      have e := hne x hx hnp
      have hx1 : x < s1.nprocs := by
        rw [hs1n, ai.nprocs_eq]; exact lt_of_lt_of_le hx u9
      have e1 : (setProc r.2 u.1 { r.2.procs u.1 with ppi := r.1, cpu := cpu }).procs x
          = r.2.procs x := by
        simp [setProc, Function.update_apply, e]
      rw [e1, w8 x hx1 (by rw [(hs1p x).1, hsold x hx]; exact hnot), (hs1p x).2.2.2 e,
        hsold x hx]
    · intro x q hx hnp hq
      have e := hne x hx hnp
      have hx1 : x < s1.nprocs := by
        rw [hs1n, ai.nprocs_eq]; exact lt_of_lt_of_le hx u9
      have e1 : (setProc r.2 u.1 { r.2.procs u.1 with ppi := r.1, cpu := cpu }).procs x
          = r.2.procs x := by
        simp [setProc, Function.update_apply, e]
      rw [e1]
      exact we.ppi_some x q hx1 (by rw [(hs1p x).2.1, hsold x hx]; exact hq)
    · intro c hc
      show (r.2.cmds c).cmd = _
      have h0 : c < u.2.ncmds := by rw [u6]; exact hc
      have h1 : c < a.2.ncmds := lt_of_lt_of_le h0 ai.ncmds_le
      have h2 : c < s1.ncmds := by rw [hs1k]; exact h1
      rw [we.cmd_old c h2, hs1c, ai.cmd_old c h0, u5]
    · intro k
      show ownTotals r.2 k = _
      rw [w5 k, hs1o k, a3 k, ownTotals_congr u5 u6' k]
    · intro k
      show subByName r.2 k = _
      rw [w6 k, hs1s k, a4 k, subByName_congr u5 u6 u6' k]
    · show r.2.initCpuCounters = _
      rw [we.flags.1, hs1i, ai.flags.1, u7.1]

/-- A walk handed a record does not depend on the pid it is handed with it, as
long as that pid is above 1. -/
theorem propagateStats_pid (proc : Int → Option (String × Int)) (fuel : Nat) (s : Engine)
    (spid : Int) (q : Nat) (pid pid' : Int) (et ec : Nat) (h : 1 < pid) (h' : 1 < pid') :
    propagateStats proc fuel s spid (some q) pid et ec
      = propagateStats proc fuel s spid (some q) pid' et ec := by
  cases fuel with
  | zero => rfl
  | succ n =>
    have e1 : ¬ pid ≤ 1 := by omega
    have e2 : ¬ pid' ≤ 1 := by omega
    simp only [propagateStats, e1, e2, if_false, resolveProc]

/-- The record a cached parent link leads to has a pid above 1. -/
theorem cachedPpi_pid (proc : Int → Option (String × Int)) (L : List Int) (n0 : Nat)
    (s : Engine) (pid : Int) (hwf : WF s) (hag : Agrees proc L n0 s) (q : Nat)
    (hq : cachedPpi s pid = some q) : 1 < (s.procs q).pid := by
  cases hm : s.procInfos pid with
  | none => simp [cachedPpi, hm] at hq
  | some x =>
    simp only [cachedPpi, hm, Option.bind_some] at hq
    exact hag.par x q (hag.reg _ _ hm) (hwf.hmap _ _ hm) hq

/-- An `Exit` event is handled as if it carried the pid its walk starts from. -/
theorem goExitStats_start (proc : Int → Option (String × Int)) (L : List Int) (n0 : Nat)
    (fuel : Nat) (s : Engine) (pid ppid : Int) (cpu : Nat) (cmd : String)
    (hwf : WF s) (hag : Agrees proc L n0 s) :
    goExitStats proc fuel s pid ppid cpu cmd
      = goExitStats proc fuel s pid (Event.start s (.exit pid ppid cpu cmd)) cpu cmd := by
  simp only [Event.start, Event.ppid, Event.pid]
  by_cases h1 : ppid ≤ 1
  · simp only [h1, if_true]
  · simp only [h1, if_false]
    cases hq : cachedPpi s pid with
    | none => rfl
    | some q =>
      simp only
      rw [goExitStats_eq, goExitStats_eq, hq]
      rw [propagateStats_pid proc fuel _ pid q ppid (s.procs q).pid cpu 1 (by omega)
        (cachedPpi_pid proc L n0 s pid hwf hag q hq)]

/-- An `Update` event is handled as if it carried the pid its walk starts from. -/
theorem goUpdateStats_start (proc : Int → Option (String × Int)) (L : List Int) (n0 : Nat)
    (fuel : Nat) (s : Engine) (pid ppid : Int) (cpu : Nat) (cmd : String)
    (hwf : WF s) (hag : Agrees proc L n0 s) :
    goUpdateStats proc fuel s pid ppid cpu cmd
      = goUpdateStats proc fuel s pid (Event.start s (.update pid ppid cpu cmd)) cpu cmd := by
  simp only [Event.start, Event.ppid, Event.pid]
  by_cases h1 : ppid ≤ 1
  · simp only [h1, if_true]
  · simp only [h1, if_false]
    cases hq : cachedPpi s pid with
    | none => rfl
    | some q =>
      simp only
      have hu : ∀ a b : Int, updPre s pid a cpu = updPre s pid b cpu := by
        intro a b
        cases hm : s.procInfos pid with
        | none => simp [cachedPpi, hm] at hq
        | some x => simp [updPre, hm]
      rw [goUpdateStats_eq, goUpdateStats_eq, hq, hu ppid (s.procs q).pid]
      rw [propagateStats_pid proc fuel _ pid q ppid (s.procs q).pid _ _ (by omega)
        (cachedPpi_pid proc L n0 s pid hwf hag q hq)]

/-- The start of a walk fits the cached parent link. -/
theorem start_cached (s : Engine) (e : Event) (h : 1 < e.start s) :
    ∀ q, cachedPpi s e.pid = some q → (s.procs q).pid = e.start s := by
  intro q hq
  simp only [Event.start] at h ⊢
  by_cases h1 : e.ppid ≤ 1
  · simp only [h1, if_true] at h
    omega
  · simp only [h1, if_false, hq]

/-- The start of a walk is the parent pid the lookup gives for a pid whose
record agrees with the lookup. -/
theorem start_lookup (proc : Int → Option (String × Int)) (L : List Int) (n0 : Nat)
    (s : Engine) (e : Event) (hwf : WF s) (hag : Agrees proc L n0 s)
    (hlook : e.pid ∉ L → cachedPpi s e.pid = none → 1 < e.ppid →
      e.ppid = (lookupOf proc e.pid).2)
    (hl : e.pid ∉ L) (h : 1 < e.start s) : e.start s = (lookupOf proc e.pid).2 := by
  simp only [Event.start] at h ⊢
  by_cases h1 : e.ppid ≤ 1
  · simp only [h1, if_true] at h
    omega
  · simp only [h1, if_false] at h ⊢
    cases hq : cachedPpi s e.pid with
    | none => exact hlook hl hq (by omega)
    | some q =>
      simp only
      cases hm : s.procInfos e.pid with
      | none => simp [cachedPpi, hm] at hq
      | some x =>
        simp only [cachedPpi, hm, Option.bind_some] at hq
        have hx := hwf.hmap _ _ hm
        have hx0 := hag.reg _ _ hm
        have hk := hwf.hkey _ _ hm
        have hl' : (s.procs x).pid ∉ L := by rw [hk]; exact hl
        rw [hag.link x q hx0 hx hl' hq, hag.ppid x hx0 hx hl', hk]

/-- One event, by command name: the command named by `Event.ownName` gets the own
credit, the names of the lookup chain from `Event.start` get the subtree credit,
and what the handler leaves alone is listed for the events still to come. -/
theorem handle_names (proc : Int → Option (String × Int)) (L : List Int) (n0 : Nat)
    (fuel : Nat) (s : Engine) (e : Event) (s' : Engine)
    (hwf : WF s) (hn : Named s) (hag : Agrees proc L n0 s)
    (hnew : s.procInfos e.pid = none →
      e.pid ∈ L ∨ (e.isExit = true ∧ e.cmd = (lookupOf proc e.pid).1))
    (hlook : e.pid ∉ L → cachedPpi s e.pid = none → 1 < e.ppid →
      e.ppid = (lookupOf proc e.pid).2)
    (hmark : ∀ k, k ∈ chainNames proc fuel (e.start s) → (subByName s k).2.2 ≠ e.pid)
    (hL : ∀ x, x ∈ chainPids proc fuel (e.start s) → x ∉ L) (hcpu : e.cpu < U64)
    (h : handle proc fuel s e = some s') :
    Named s' ∧ Agrees proc L n0 s' ∧
    (∀ k, k ≠ e.pid → (s'.procInfos k = s.procInfos k ∨
      (k ∈ chainPids proc fuel (e.start s) ∧ s.procInfos k = none))) ∧
    (∀ x, x < s.nprocs → (s'.procs x).pid = (s.procs x).pid ∧
      ((s.procs x).pid ≠ e.pid →
        (s'.procs x).ci = (s.procs x).ci ∧ (s'.procs x).cpu = (s.procs x).cpu)) ∧
    (∀ x, x < s.nprocs → (s.procs x).pid ≠ e.pid →
      (s.procs x).pid ∉ chainPids proc fuel (e.start s) →
      (s'.procs x).ppi = (s.procs x).ppi) ∧
    (∀ x q, x < s.nprocs → (s.procs x).pid ≠ e.pid → (s.procs x).ppi = some q →
      (s'.procs x).ppi = some q) ∧
    (∀ c, c < s.ncmds → (s'.cmds c).cmd = (s.cmds c).cmd) ∧
    (∀ k, ownTotals s' k =
      creditIf (Event.count s) (Event.delta s) (fun e' => decide (e'.ownName s = k))
        (ownTotals s k) e) ∧
    (∀ k, subByName s' k =
      if k ∈ chainNames proc fuel (e.start s) then
        (((subByName s k).1 + e.count s) % U64, ((subByName s k).2.1 + e.delta s) % U64, e.pid)
      else subByName s k) ∧
    s'.initCpuCounters = s.initCpuCounters := by
  have hstart : 1 < e.start s → ∀ q, cachedPpi s e.pid = some q →
      (s.procs q).pid = e.start s := start_cached s e
  have hlk : e.pid ∉ L → 1 < e.start s → e.start s = (lookupOf proc e.pid).2 :=
    start_lookup proc L n0 s e hwf hag hlook
  have hsel : ∀ (k n : String) (t : Nat × Nat) (c d : Nat),
      (if k = n then ((t.1 + c) % U64, (t.2 + d) % U64) else t)
        = if decide (n = k) = true then ((t.1 + c) % U64, (t.2 + d) % U64) else t := by
    intro k n t c d
    by_cases hk : k = n
    · simp [hk]
    · have : ¬ n = k := fun h => hk h.symm
      simp [hk, this]
  cases e with
  | update pid ppid cpu cmd =>
    have h' : goUpdateStats proc fuel s pid (Event.start s (.update pid ppid cpu cmd)) cpu cmd
        = some s' := by
      rw [← goUpdateStats_start proc L n0 fuel s pid ppid cpu cmd hwf hag]
      exact h
    obtain ⟨h1, h2, h3, h4, h5, h5', h6, h7, h8, h9⟩ := goUpdateStats_names proc L n0 fuel s
      pid _ cpu cmd s' hwf hn hag
      (fun hm => (hnew hm).elim id (fun hx => by simp [Event.isExit] at hx))
      hlk hstart hmark hL hcpu h'
    refine ⟨h1, h2, h3, h4, h5, h5', h6, ?_, h8, h9⟩
    intro k
    rw [h7 k]
    exact hsel _ _ _ _ _
  | exit pid ppid cpu cmd =>
    have h' : goExitStats proc fuel s pid (Event.start s (.exit pid ppid cpu cmd)) cpu cmd
        = some s' := by
      rw [← goExitStats_start proc L n0 fuel s pid ppid cpu cmd hwf hag]
      exact h
    obtain ⟨h1, h2, h3, h4, h5, h5', h6, h7, h8, h9⟩ := goExitStats_names proc L n0 fuel s pid
      _ cpu cmd s' hwf hn hag hstart hmark hL hcpu h'
    refine ⟨h1, h2, h3, ?_, ?_, ?_, h6, ?_, h8, h9⟩
    · intro x hx
      exact ⟨(h4 x hx).1, fun _ => (h4 x hx).2⟩
    · intro x hx _ hnot
      exact h5 x hx hnot
    · intro x q hx _ hq
      exact h5' x q hx hq
    · intro k
      rw [h7 k]
      exact hsel _ _ _ _ _

theorem creditAll_congr (cnt det cnt' det' : Event → Nat) (sel sel' : Event → Bool) :
    ∀ (evs : List Event) (t : Nat × Nat),
      (∀ e, e ∈ evs → cnt e = cnt' e ∧ det e = det' e ∧ sel e = sel' e) →
      creditAll cnt det sel evs t = creditAll cnt' det' sel' evs t := by
  intro evs
  induction evs with
  | nil => intro t _; rfl
  | cons e es ih =>
    intro t h
    obtain ⟨a, b, c⟩ := h e (List.mem_cons_self _ _)
    simp only [creditAll, List.foldl_cons]
    have : creditIf cnt det sel t e = creditIf cnt' det' sel' t e := by
      simp only [creditIf, a, b, c]
    rw [this]
    exact ih _ (fun e' he' => h e' (List.mem_cons_of_mem _ he'))

/-- Crediting is insensitive to the order of the events. -/
theorem creditAll_perm (cnt det : Event → Nat) (sel : Event → Bool) (evs evs' : List Event)
    (hp : evs.Perm evs') (t : Nat × Nat) :
    creditAll cnt det sel evs t = creditAll cnt det sel evs' t := by
  unfold creditAll
  apply hp.foldl_eq'
  intro x _ y _ z
  simp only [creditIf]
  cases hx : sel x <;> cases hy : sel y
  · simp
  · simp
  · simp
  · simp only [if_true]
    refine Prod.ext ?_ ?_
    · simp only [U64]
      omega
    · simp only [U64]
      omega

/-- What an event would credit is not changed by the handling of an event of
another pid. -/
theorem handle_keeps (proc : Int → Option (String × Int)) (L : List Int) (n0 : Nat)
    (fuel : Nat) (s : Engine) (e : Event) (s' : Engine)
    (hwf : WF s) (hn : Named s) (hag : Agrees proc L n0 s)
    (hnew : s.procInfos e.pid = none →
      e.pid ∈ L ∨ (e.isExit = true ∧ e.cmd = (lookupOf proc e.pid).1))
    (hlook : e.pid ∉ L → cachedPpi s e.pid = none → 1 < e.ppid →
      e.ppid = (lookupOf proc e.pid).2)
    (hmark : ∀ k, k ∈ chainNames proc fuel (e.start s) → (subByName s k).2.2 ≠ e.pid)
    (hL : ∀ x, x ∈ chainPids proc fuel (e.start s) → x ∉ L) (hcpu : e.cpu < U64)
    (h : handle proc fuel s e = some s') (hwf' : WF s') (e' : Event) (hne : e'.pid ≠ e.pid)
    (hnew' : s.procInfos e'.pid = none →
      e'.pid ∈ L ∨ (e'.isExit = true ∧ e'.cmd = (lookupOf proc e'.pid).1))
    (hlook' : e'.pid ∉ L → cachedPpi s e'.pid = none → 1 < e'.ppid →
      e'.ppid = (lookupOf proc e'.pid).2)
    (hmark' : ∀ k, k ∈ chainNames proc fuel (e'.start s) → (subByName s k).2.2 ≠ e'.pid) :
    e'.count s' = e'.count s ∧ e'.delta s' = e'.delta s ∧ e'.ownName s' = e'.ownName s ∧
    e'.start s' = e'.start s ∧
    (s'.procInfos e'.pid = none →
      e'.pid ∈ L ∨ (e'.isExit = true ∧ e'.cmd = (lookupOf proc e'.pid).1)) ∧
    (e'.pid ∉ L → cachedPpi s' e'.pid = none → 1 < e'.ppid →
      e'.ppid = (lookupOf proc e'.pid).2) ∧
    (∀ k, k ∈ chainNames proc fuel (e'.start s') → (subByName s' k).2.2 ≠ e'.pid) := by
  obtain ⟨_, hag', r, p, p3, pm, c, _, b, i⟩ := handle_names proc L n0 fuel s e s' hwf hn hag
    hnew hlook hmark hL hcpu h
  have hfin : e'.start s' = e'.start s →
      ∀ k, k ∈ chainNames proc fuel (e'.start s') → (subByName s' k).2.2 ≠ e'.pid := by
    intro hst k hmem hk
    rw [hst] at hmem
    rw [b k] at hk
    split at hk
    · exact hne hk.symm
    · exact hmark' k hmem hk
  -- what a registry record of the pid in the new state says, the pid being outside `L`
  have hfit : e'.pid ∉ L → ∀ x, s'.procInfos e'.pid = some x →
      (∃ c', (s'.procs x).ci = some c' ∧ (s'.cmds c').cmd = (lookupOf proc e'.pid).1) ∧
      ∀ q', (s'.procs x).ppi = some q' → (s'.procs q').pid = (lookupOf proc e'.pid).2 := by
    intro hl x hm'
    have hx' := hwf'.hmap _ _ hm'
    have hx0 := hag'.reg _ _ hm'
    have hk' := hwf'.hkey _ _ hm'
    have hl' : (s'.procs x).pid ∉ L := by rw [hk']; exact hl
    refine ⟨?_, ?_⟩
    · obtain ⟨c', h1, h2⟩ := hag'.ci x hx0 hx' hl'
      exact ⟨c', h1, by rw [h2, hk']⟩
    · intro q' hq'
      rw [hag'.link x q' hx0 hx' hl' hq', hag'.ppid x hx0 hx' hl', hk']
  rcases r e'.pid hne with hreg | ⟨hon, hun⟩
  · have hrec : ∀ x, s.procInfos e'.pid = some x →
        x < s.nprocs ∧ (s.procs x).pid ≠ e.pid ∧
        (s'.procs x).ci = (s.procs x).ci ∧ (s'.procs x).cpu = (s.procs x).cpu := by
      intro x hx
      have h1 := hwf.hmap _ _ hx
      have h2 : (s.procs x).pid ≠ e.pid := by rw [hwf.hkey _ _ hx]; exact hne
      exact ⟨h1, h2, (p x h1).2 h2⟩
    have hci : cachedCi s' e'.pid = cachedCi s e'.pid := by
      simp only [cachedCi, hreg]
      cases hm : s.procInfos e'.pid with
      | none => rfl
      | some x => exact (hrec x hm).2.2.1
    have hcpu' : storedCpu s' e'.pid = storedCpu s e'.pid := by
      simp only [storedCpu, hreg]
      cases hm : s.procInfos e'.pid with
      | none => rfl
      | some x => simp only [Option.map_some']; rw [(hrec x hm).2.2.2]
    have hcnt : updCnt s' e'.pid = updCnt s e'.pid := by
      simp only [updCnt, hreg]
    have hmono : ∀ q, cachedPpi s e'.pid = some q → cachedPpi s' e'.pid = some q := by
      intro q hq
      cases hm : s.procInfos e'.pid with
      | none => simp [cachedPpi, hm] at hq
      | some x =>
        simp only [cachedPpi, hm, Option.bind_some] at hq
        simp only [cachedPpi, hreg, hm, Option.bind_some]
        exact pm x q (hrec x hm).1 (hrec x hm).2.1 hq
    have hnone : cachedPpi s' e'.pid = none → cachedPpi s e'.pid = none := by
      intro h0
      cases hq : cachedPpi s e'.pid with
      | none => rfl
      | some q => rw [hmono q hq] at h0; cases h0
    have hst : e'.start s' = e'.start s := by
      simp only [Event.start]
      by_cases h1 : e'.ppid ≤ 1
      · simp only [h1, if_true]
      · simp only [h1, if_false]
        cases hq : cachedPpi s e'.pid with
        | some q =>
          rw [hmono q hq]
          exact (p q (cachedPpi_lt s e'.pid hwf q hq)).1
        | none =>
          cases hq' : cachedPpi s' e'.pid with
          | none => rfl
          | some q' =>
            simp only
            cases hm : s.procInfos e'.pid with
            | none => simp [cachedPpi, hreg, hm] at hq'
            | some x =>
              obtain ⟨hx, hxe, _, _⟩ := hrec x hm
              have hm' : s'.procInfos e'.pid = some x := by rw [hreg]; exact hm
              have hs : (s.procs x).ppi = none := by
                simpa [cachedPpi, hm] using hq
              have hs' : (s'.procs x).ppi = some q' := by
                simpa [cachedPpi, hm'] using hq'
              by_cases hl : e'.pid ∈ L
              · have hoff : (s.procs x).pid ∉ chainPids proc fuel (e.start s) := by
                  rw [hwf.hkey _ _ hm]
                  intro hmem
                  exact hL _ hmem hl
                rw [p3 x hx hxe hoff, hs] at hs'
                cases hs'
              · rw [(hfit hl x hm').2 q' hs']
                exact (hlook' hl hq (by omega)).symm
    refine ⟨?_, ?_, ?_, hst, ?_, ?_, hfin hst⟩
    · cases e' with
      | update pid ppid cpu cmd => exact hcnt
      | exit pid ppid cpu cmd => rfl
    · cases e' with
      | update pid ppid cpu cmd =>
        simp only [Event.delta]
        simp only [Event.pid] at hcpu'
        rw [i, hcpu']
      | exit pid ppid cpu cmd => rfl
    · simp only [Event.ownName, hci]
      cases hc : cachedCi s e'.pid with
      | none => rfl
      | some c' =>
        simp only [creditName]
        exact c c' (cachedCi_lt s e'.pid hwf c' hc)
    · intro hm'
      rw [hreg] at hm'
      exact hnew' hm'
    · intro hl h0 h1
      exact hlook' hl (hnone h0) h1
  · -- the walk of `e` has met the pid of `e'`, which was not in the registry
    have hl : e'.pid ∉ L := hL _ hon
    have hex : e'.isExit = true ∧ e'.cmd = (lookupOf proc e'.pid).1 :=
      (hnew' hun).elim (fun hx => absurd hx hl) id
    have hq : cachedPpi s e'.pid = none := by simp [cachedPpi, hun]
    have hc : cachedCi s e'.pid = none := by simp [cachedCi, hun]
    have hst : e'.start s' = e'.start s := by
      simp only [Event.start]
      by_cases h1 : e'.ppid ≤ 1
      · simp only [h1, if_true]
      · simp only [h1, if_false, hq]
        cases hm' : s'.procInfos e'.pid with
        | none => simp [cachedPpi, hm']
        | some x =>
          have hcp : cachedPpi s' e'.pid = (s'.procs x).ppi := by
            unfold cachedPpi
            rw [hm']
            rfl
          rw [hcp]
          cases hq' : (s'.procs x).ppi with
          | none => rfl
          | some q' =>
            show (s'.procs q').pid = e'.ppid
            rw [(hfit hl x hm').2 q' hq']
            exact (hlook' hl hq (by omega)).symm
    refine ⟨?_, ?_, ?_, hst, fun _ => Or.inr hex, fun _ _ h1 => hlook' hl hq h1, hfin hst⟩
    · cases e' with
      | update pid ppid cpu cmd => simp [Event.isExit] at hex
      | exit pid ppid cpu cmd => rfl
    · cases e' with
      | update pid ppid cpu cmd => simp [Event.isExit] at hex
      | exit pid ppid cpu cmd => rfl
    · simp only [Event.ownName, hc, creditName]
      cases hm' : s'.procInfos e'.pid with
      | none => simp [cachedCi, hm']
      | some x =>
        obtain ⟨c', h1, h2⟩ := (hfit hl x hm').1
        have hcc : cachedCi s' e'.pid = some c' := by
          unfold cachedCi
          rw [hm']
          exact h1
        rw [hcc]
        show (s'.cmds c').cmd = e'.cmd
        rw [h2]
        exact hex.2.symm


/-- A run of events of pairwise distinct pids that fit the state: the invariants
are kept and the totals of every command name are the initial ones credited
event by event, each credit computed in the initial state. -/
theorem run_names (proc : Int → Option (String × Int)) (L : List Int) (n0 : Nat)
    (fuel : Nat) :
    ∀ (evs : List Event) (s s' : Engine), WF s → Named s → Agrees proc L n0 s →
      (evs.map Event.pid).Nodup →
      (∀ e, e ∈ evs → ∀ k, k ∈ chainNames proc fuel (e.start s) →
        (subByName s k).2.2 ≠ e.pid) →
      (∀ e, e ∈ evs → ∀ x, x ∈ chainPids proc fuel (e.start s) → x ∉ L) →
      (∀ e, e ∈ evs → s.procInfos e.pid = none →
        e.pid ∈ L ∨ (e.isExit = true ∧ e.cmd = (lookupOf proc e.pid).1)) →
      (∀ e, e ∈ evs → e.pid ∉ L → cachedPpi s e.pid = none → 1 < e.ppid →
        e.ppid = (lookupOf proc e.pid).2) →
      (∀ e, e ∈ evs → e.cpu < U64) →
      run proc fuel s evs = some s' →
      WF s' ∧ Named s' ∧ Agrees proc L n0 s' ∧ ∀ k,
        ownTotals s' k =
          creditAll (Event.count s) (Event.delta s) (fun e => decide (e.ownName s = k)) evs
            (ownTotals s k) ∧
        ((subByName s' k).1, (subByName s' k).2.1) =
          creditAll (Event.count s) (Event.delta s)
            (fun e => decide (k ∈ chainNames proc fuel (e.start s))) evs
            ((subByName s k).1, (subByName s k).2.1) := by
  intro evs
  induction evs with
  | nil =>
    intro s s' hwf hn hag _ _ _ _ _ _ h
    simp only [run, Option.some.injEq] at h
    subst h
    exact ⟨hwf, hn, hag, fun _ => ⟨rfl, rfl⟩⟩
  | cons e es ih =>
    intro s s' hwf hn hag hnd hmark hL hnew hlook hcpu h
    simp only [run] at h
    cases h1 : handle proc fuel s e with
    | none => rw [h1] at h; cases h
    | some s1 =>
      rw [h1] at h
      simp only at h
      simp only [List.map_cons, List.nodup_cons] at hnd
      have he : e ∈ e :: es := List.mem_cons_self _ _
      have hes : ∀ e', e' ∈ es → e' ∈ e :: es := fun e' he' => List.mem_cons_of_mem _ he'
      have hne : ∀ e', e' ∈ es → e'.pid ≠ e.pid := by
        intro e' he' heq
        exact hnd.1 (by rw [← heq]; exact List.mem_map_of_mem _ he')
      obtain ⟨n1, a1, _, _, _, _, _, o1, b1, i1⟩ := handle_names proc L n0 fuel s e s1 hwf hn
        hag (hnew e he) (hlook e he) (hmark e he) (hL e he) (hcpu e he) h1
      have hwf1 : WF s1 := handle_wf proc fuel s s1 e hwf (hcpu e he) h1
      have keep : ∀ e', e' ∈ es → _ := fun e' he' =>
        handle_keeps proc L n0 fuel s e s1 hwf hn hag (hnew e he) (hlook e he)
          (hmark e he) (hL e he) (hcpu e he) h1 hwf1 e' (hne e' he') (hnew e' (hes e' he'))
          (hlook e' (hes e' he')) (hmark e' (hes e' he'))
      obtain ⟨w, wn, wa, t⟩ := ih s1 s' hwf1 n1 a1 hnd.2
        (fun e' he' => (keep e' he').2.2.2.2.2.2)
        (fun e' he' => by rw [(keep e' he').2.2.2.1]; exact hL e' (hes e' he'))
        (fun e' he' => (keep e' he').2.2.2.2.1)
        (fun e' he' => (keep e' he').2.2.2.2.2.1)
        (fun e' he' => hcpu e' (hes e' he')) h
      refine ⟨w, wn, wa, ?_⟩
      intro k
      obtain ⟨t1, t2⟩ := t k
      refine ⟨?_, ?_⟩
      · rw [t1, o1 k]
        simp only [creditAll, List.foldl_cons]
        exact creditAll_congr _ _ _ _ _ _ es _ (fun e' he' =>
          ⟨(keep e' he').1, (keep e' he').2.1, by
            simp only [(keep e' he').2.2.1]⟩)
      · rw [t2, b1 k]
        simp only [creditAll, List.foldl_cons]
        have hhead : ((if k ∈ chainNames proc fuel (e.start s) then
              (((subByName s k).1 + e.count s) % U64,
                ((subByName s k).2.1 + e.delta s) % U64, e.pid)
            else subByName s k).1,
            (if k ∈ chainNames proc fuel (e.start s) then
              (((subByName s k).1 + e.count s) % U64,
                ((subByName s k).2.1 + e.delta s) % U64, e.pid)
            else subByName s k).2.1)
            = creditIf (Event.count s) (Event.delta s)
                (fun e => decide (k ∈ chainNames proc fuel (e.start s)))
                ((subByName s k).1, (subByName s k).2.1) e := by
          simp only [creditIf, decide_eq_true_eq]
          split <;> rfl
        rw [hhead]
        exact creditAll_congr _ _ _ _ _ _ es _ (fun e' he' =>
          ⟨(keep e' he').1, (keep e' he').2.1, by
            simp only [(keep e' he').2.2.2.1]⟩)

/-- A run of events returns when the process tree is acyclic and the parent
links carried by the `Update` events fit it. -/
theorem run_total (proc : Int → Option (String × Int)) (rank : Int → Nat)
    (ha : Acyclic rank proc) (fuel : Nat) (hf : ∀ k, rank k + 2 ≤ fuel) :
    ∀ (evs : List Event) (s : Engine), WF s → Ranked rank s →
      (∀ e, e ∈ evs → e.cpu < U64) →
      (∀ e, e ∈ evs → e.isExit = false → 1 < e.ppid → rank e.ppid < rank e.pid) →
      ∃ s', run proc fuel s evs = some s' ∧ WF s' ∧ Ranked rank s' := by
  intro evs
  induction evs with
  | nil => intro s hwf hr _ _; exact ⟨s, rfl, hwf, hr⟩
  | cons e es ih =>
    intro s hwf hr hcpu hev
    have he : e ∈ e :: es := List.mem_cons_self _ _
    have hstep : ∃ s1, handle proc fuel s e = some s1 ∧ WF s1 ∧ Ranked rank s1 := by
      cases e with
      | update pid ppid cpu cmd =>
        obtain ⟨s1, h1, r1⟩ := goUpdateStats_total proc rank ha fuel hf s pid ppid cpu cmd
          hwf hr (hcpu _ he) (hev _ he rfl)
        exact ⟨s1, h1, handle_wf proc fuel s s1 _ hwf (hcpu _ he) h1, r1⟩
      | exit pid ppid cpu cmd =>
        exact goExitStats_total proc rank ha fuel hf s pid ppid cpu cmd hwf hr (hcpu _ he)
    obtain ⟨s1, h1, w1, r1⟩ := hstep
    obtain ⟨s', h', w', r'⟩ := ih s1 w1 r1 (fun e he => hcpu e (List.mem_cons_of_mem _ he))
      (fun e he => hev e (List.mem_cons_of_mem _ he))
    exact ⟨s', by simp only [run, h1]; exact h', w', r'⟩

theorem Engine.empty_named : Named Engine.empty := by
  refine ⟨?_⟩
  intros
  simp_all [Engine.empty, mapGet]

theorem Engine.empty_agrees (proc : Int → Option (String × Int)) (L : List Int) :
    Agrees proc L 0 Engine.empty := by
  refine ⟨?_, ?_, ?_, ?_, ?_, ?_, ?_, ?_⟩ <;> intros <;> simp_all [Engine.empty]

/-- The state `clearCounters` leaves when nothing is re-seeded: registry and
ledger are empty, the records left in the heaps are out of use, so the
invariants hold with the base at the next free address. -/
theorem cleared_agrees (proc : Int → Option (String × Int)) (L : List Int) (fuel : Nat)
    (s s0 : Engine) (hwf : WF s) (h : clearCounters proc fuel s [] = some s0) :
    WF s0 ∧ Named s0 ∧ Agrees proc L s.nprocs s0 ∧ (∀ rank, Ranked rank s → Ranked rank s0) ∧
    (∀ k, s0.procInfos k = none) ∧ s0.cmdInfos = [] := by
  simp only [clearCounters, updateLongLivedStats, Option.some.injEq] at h
  subst h
  refine ⟨⟨?_, ?_, hwf.hppi, hwf.hci, ?_, hwf.hu64⟩, ⟨?_⟩,
    ⟨le_refl _, ?_, ?_, ?_, ?_, ?_, ?_, ?_⟩, fun _ hr => ⟨hr.hobj, hr.hlink⟩,
    fun _ => rfl, rfl⟩
  · intro k p h; cases h
  · intro k p h; cases h
  · intro k c h; simp [mapGet] at h
  · intro k c h; simp [mapGet] at h
  · intro k x h; cases h
  all_goals
    intros
    simp only at *
    omega

theorem chainRank_acyclic : Acyclic chainRank chainProc := by
  intro pid r hr hlt
  unfold chainProc at hr
  split at hr
  · next h5 => cases hr; subst h5; decide
  · split at hr
    · cases hr; simp at hlt
    · cases hr

theorem chainRank_le (k : Int) : chainRank k + 2 ≤ 4 := by
  unfold chainRank
  split <;> [skip; split] <;> omega

/-- The walk of an event of a pid that is not in the registry starts from the
parent pid the event carries. -/
theorem start_new (s : Engine) (e : Event) (h : s.procInfos e.pid = none) :
    e.start s = e.ppid := by
  simp [Event.start, cachedPpi, h]

/-- A walk does not consult the lookup for a pid of the registry: two lookups
that differ only at pids of the registry give the same walk. -/
theorem propagateStats_lookup (proc proc' : Int → Option (String × Int)) (spid : Int)
    (et ec : Nat) :
    ∀ (n : Nat) (s : Engine) (pi : Option Nat) (pid : Int), WF s →
      (∀ p, pi = some p → p < s.nprocs) →
      (∀ k, proc' k ≠ proc k → (s.procInfos k).isSome = true) →
      propagateStats proc' n s spid pi pid et ec = propagateStats proc n s spid pi pid et ec := by
  intro n
  induction n with
  | zero => intro s pi pid _ _ _; rfl
  | succ n ih =>
    intro s pi pid hwf hpi hd
    simp only [propagateStats]
    by_cases hpid : pid ≤ 1
    · simp only [hpid, if_true]
    · simp only [hpid, if_false]
      have hres : resolveProc proc' s pi pid = resolveProc proc s pi pid := by
        cases pi with
        | some p => rfl
        | none =>
          cases hm : s.procInfos pid with
          | some p => simp only [resolveProc, hm]
          | none =>
            have hp : proc' pid = proc pid := by
              by_contra hne
              have := hd pid hne
              rw [hm] at this
              cases this
            simp only [resolveProc, hm, readProcStat, hp]
      rw [hres]
      obtain ⟨ha1, ha2, _, _, _⟩ := resolveProc_ext proc s pi pid spid et ec hpi hwf
      generalize resolveProc proc s pi pid = a at ha1 ha2
      have hwf1 : WF a.2 := ha1.wf hwf
      obtain ⟨hc1, _, hc3, hc4, _, _⟩ := creditSub_ext proc a.2 spid a.1 et ec ha2 hwf1
      have hwf2 : WF (creditSub a.2 spid a.1 et ec) := hc1.wf hwf1
      have hd2 : ∀ k, proc' k ≠ proc k →
          ((creditSub a.2 spid a.1 et ec).procInfos k).isSome = true := by
        intro k hk
        have h1 := hd k hk
        cases hm : s.procInfos k with
        | none => rw [hm] at h1; cases h1
        | some x => rw [hc3, ha1.map_mono k x hm]; rfl
      generalize creditSub a.2 spid a.1 et ec = s2 at hwf2 hd2 hc4
      by_cases hpp : (s2.procs a.1).ppid = 0
      · simp only [hpp, ne_eq, not_true_eq_false, if_false]
      · simp only [ne_eq, hpp, not_false_eq_true, if_true]
        cases hq : (s2.procs a.1).ppi with
        | some q =>
          simp only
          rw [ih s2 (some q) _ hwf2
            (by intro p hp; cases hp; exact hwf2.hppi a.1 q (by rw [hc4]; exact ha2) hq) hd2]
        | none =>
          simp only
          rw [ih s2 none _ hwf2 (by intro p hp; cases hp) hd2]

/-- An event is handled alike under two lookups that differ only at pids of the
registry other than the pid of an `Exit` event. -/
theorem handle_lookup (proc proc' : Int → Option (String × Int)) (fuel : Nat) (s : Engine)
    (e : Event) (hwf : WF s) (hcpu : e.cpu < U64)
    (hd : ∀ k, proc' k ≠ proc k →
      (s.procInfos k).isSome = true ∧ (e.isExit = true → e.pid ≠ k)) :
    handle proc' fuel s e = handle proc fuel s e := by
  cases e with
  | update pid ppid cpu cmd =>
    simp only [handle]
    rw [goUpdateStats_eq, goUpdateStats_eq]
    obtain ⟨u1, u2, _, _, _, _, u9, _, u11, _, u13, _⟩ := updPre_spec s pid ppid cpu hwf
    have hdet : specDelta s.initCpuCounters (storedCpu s pid) cpu < U64 :=
      lt_of_le_of_lt (specDelta_le _ _ _) hcpu
    have hcnt : updCnt s pid < U64 :=
      lt_of_le_of_lt (updCnt_le s pid) (by simp [U64])
    generalize specDelta s.initCpuCounters (storedCpu s pid) cpu = det at hdet ⊢
    generalize updCnt s pid = cnt at hcnt ⊢
    generalize updPre s pid ppid cpu = u at u1 u2 u9 u11 u13 ⊢
    have hinc := incCmd_inc u.2 (u.2.procs u.1).ci cmd det cnt u1
      (fun c hc => u1.hci u.1 c u2 hc) hdet hcnt
    generalize incCmd u.2 (u.2.procs u.1).ci cmd det cnt = a at hinc ⊢
    have hpa : u.1 < a.2.nprocs := by rw [hinc.nprocs_eq]; exact u2
    have wf1 : WF (setProc a.2 u.1 { a.2.procs u.1 with ci := some a.1 }) :=
      setProc_wf hinc.wf u.1 _ rfl
        (fun q hq => hinc.wf.hppi u.1 q hpa hq)
        (by intro c hc; cases hc; exact hinc.target)
    rw [propagateStats_lookup proc proc' pid det cnt fuel _ (cachedPpi s pid) ppid wf1
      (by
        intro p hp
        show p < a.2.nprocs
        rw [hinc.nprocs_eq]
        exact lt_of_lt_of_le (cachedPpi_lt s pid hwf p hp) u9)
      (by
        intro k hk
        show (a.2.procInfos k).isSome = true
        rw [hinc.map_eq]
        have h1 := (hd k hk).1
        cases hm : s.procInfos k with
        | none => rw [hm] at h1; cases h1
        | some x => rw [u11 k x hm]; rfl)]
  | exit pid ppid cpu cmd =>
    simp only [handle]
    rw [goExitStats_eq, goExitStats_eq]
    have hinc := incCmd_inc (exitPre s pid) (cachedCi s pid) cmd cpu 1 (exitPre_wf s pid hwf)
      (cachedCi_lt s pid hwf) hcpu (by simp [U64])
    generalize incCmd (exitPre s pid) (cachedCi s pid) cmd cpu 1 = a at hinc ⊢
    rw [propagateStats_lookup proc proc' pid cpu 1 fuel a.2 (cachedPpi s pid) ppid hinc.wf
      (by
        intro p hp
        rw [hinc.nprocs_eq]
        exact cachedPpi_lt s pid hwf p hp)
      (by
        intro k hk
        rw [hinc.map_eq]
        have h1 := (hd k hk).1
        have h2 : pid ≠ k := (hd k hk).2 rfl
        have h3 : k ≠ pid := fun h => h2 h.symm
        simp only [exitPre, Function.update_apply, h3, if_false]
        exact h1)]

/-- An event removes from the registry at most its own pid, and only when it is
an `Exit`. -/
theorem handle_registry (proc : Int → Option (String × Int)) (fuel : Nat) (s s' : Engine)
    (e : Event) (hwf : WF s) (hcpu : e.cpu < U64) (h : handle proc fuel s e = some s')
    (k : Int) (hk : (s.procInfos k).isSome = true) (hne : e.isExit = true → e.pid ≠ k) :
    (s'.procInfos k).isSome = true := by
  cases hm : s.procInfos k with
  | none => rw [hm] at hk; cases hk
  | some x =>
    cases e with
    | update pid ppid cpu cmd =>
      obtain ⟨p, c0, hu⟩ := goUpdateStats_spec proc fuel s pid ppid cpu cmd s' hwf hcpu h
      rw [hu.map_mono k x hm]
      rfl
    | exit pid ppid cpu cmd =>
      obtain ⟨c0, sm, hinc, hext, _⟩ := goExitStats_spec proc fuel s pid ppid cpu cmd s' hwf
        hcpu h
      have h2 : pid ≠ k := hne rfl
      have h3 : k ≠ pid := fun h => h2 h.symm
      have h4 : sm.procInfos k = some x := by
        rw [hinc.map_eq]
        simp only [exitPre, Function.update_apply, h3, if_false]
        exact hm
      rw [hext.map_mono k x h4]
      rfl

/-- A run of events is the same under two lookups that differ only at pids that
are in the registry and have no `Exit` event in the run. -/
theorem run_lookup (proc proc' : Int → Option (String × Int)) (fuel : Nat) :
    ∀ (evs : List Event) (s : Engine), WF s → (∀ e, e ∈ evs → e.cpu < U64) →
      (∀ k, proc' k ≠ proc k →
        (s.procInfos k).isSome = true ∧ ∀ e, e ∈ evs → e.isExit = true → e.pid ≠ k) →
      run proc' fuel s evs = run proc fuel s evs := by
  intro evs
  induction evs with
  | nil => intro s _ _ _; rfl
  | cons e es ih =>
    intro s hwf hcpu hd
    have he : e ∈ e :: es := List.mem_cons_self _ _
    simp only [run]
    rw [handle_lookup proc proc' fuel s e hwf (hcpu e he)
      (fun k hk => ⟨(hd k hk).1, (hd k hk).2 e he⟩)]
    cases h1 : handle proc fuel s e with
    | none => rfl
    | some s1 =>
      simp only
      exact ih s1 (handle_wf proc fuel s s1 e hwf (hcpu e he) h1)
        (fun e' he' => hcpu e' (List.mem_cons_of_mem _ he'))
        (fun k hk => ⟨handle_registry proc fuel s s1 e hwf (hcpu e he) h1 k (hd k hk).1
            ((hd k hk).2 e he),
          fun e' he' => (hd k hk).2 e' (List.mem_cons_of_mem _ he')⟩)

/-- The invariant `Agrees` for another table and another list of exempted pids:
a record of a pid outside the new list was not exempted and the two tables give
the same answer for its pid, or the record says what the new table gives. -/
theorem agrees_view {proc view : Int → Option (String × Int)} {L L' : List Int} {n0 : Nat}
    {s : Engine} (h : Agrees proc L n0 s)
    (h1 : ∀ x, x < s.nprocs → (s.procs x).pid ∉ L' →
      ((s.procs x).pid ∉ L ∧ lookupOf view (s.procs x).pid = lookupOf proc (s.procs x).pid) ∨
      ((s.procs x).ppid = (lookupOf view (s.procs x).pid).2 ∧
        (s.procs x).ci.map (fun c => (s.cmds c).cmd) = some (lookupOf view (s.procs x).pid).1 ∧
        ((s.procs x).ppi = none ∨
          (s.procs x).ppi.map (fun y => (s.procs y).pid) = some (s.procs x).ppid))) :
    Agrees view L' n0 s where
  base := h.base
  reg := h.reg
  up := h.up
  cin := h.cin
  par := h.par
  ppid := by
    intro x hx hx' hl
    rcases h1 x hx' hl with ⟨a, b⟩ | ⟨a, _, _⟩
    · rw [b]; exact h.ppid x hx hx' a
    · exact a
  ci := by
    intro x hx hx' hl
    rcases h1 x hx' hl with ⟨a, b⟩ | ⟨_, a, _⟩
    · rw [b]; exact h.ci x hx hx' a
    · cases hc : (s.procs x).ci with
      | none => rw [hc] at a; cases a
      | some c =>
        rw [hc] at a
        exact ⟨c, rfl, Option.some.inj a⟩
  link := by
    intro x y hx hx' hl hy
    rcases h1 x hx' hl with ⟨a, _⟩ | ⟨_, _, a⟩
    · exact h.link x y hx hx' a hy
    · rcases a with a | a
      · rw [hy] at a; cases a
      · rw [hy] at a
        exact Option.some.inj a

/-- C11, refuted as stated: the final totals depend on the order of the events.
In each pair the same two events are processed in either order, from the same
state (the empty one, or the one the events listed first lead to) and under the
same lookup (the chain 5 → 6 → root, every other pid unknown to it).
(1) Two events of one pid: two `Update` events of pid 7 with the values 100 and
150 leave the own time of "x" at 150 in this order and at 250 in the other.
(2) An `Update` of a pid not in the registry that lies on the ancestor chain of
another event: the own count of "b" is 1 when the `Update` of pid 5 comes first
and 0 when the walk of pid 10 has created the record of pid 5 before.
(3) An `Exit` of such a pid that carries another command name than the lookup
gives: the own credit goes to "zz" or to "b".
(4) An `Exit` of a pid whose registry record disagrees with the lookup and that
lies on the chain of another event: the walk of pid 20 goes through the record
of pid 10 and credits "a", "b", "c", or through a record made from the lookup
and credits "".
(5) An event whose pid is the marker of a command on its chain: the `Exit` of
pid 10 after its `Update` credits no ancestor unless the `Exit` of pid 11 has
overwritten the marker in between.
(6) An event of pid 0, the marker of a fresh command record.
(7) An `Update` of a registered pid with no cached parent link (the `Update` with
parent pid 1 has removed it) that carries another parent pid than the lookup
gives: the walk of pid 11 through the record of pid 5 ends in "c" or in "". -/
theorem events_order_counterexample :
    ((run chainProc 5 Engine.empty [.update 7 1 100 "x", .update 7 1 150 "x"]).map
        (fun s => ownTotals s "x") = some (1, 150) ∧
      (run chainProc 5 Engine.empty [.update 7 1 150 "x", .update 7 1 100 "x"]).map
        (fun s => ownTotals s "x") = some (1, 250)) ∧
    ((run chainProc 5 Engine.empty [.update 5 6 40 "b", .update 10 5 100 "a"]).map
        (fun s => (ownTotals s "b", subTotals s "c")) = some ((1, 40), (2, 140)) ∧
      (run chainProc 5 Engine.empty [.update 10 5 100 "a", .update 5 6 40 "b"]).map
        (fun s => (ownTotals s "b", subTotals s "c")) = some ((0, 40), (1, 140))) ∧
    ((run chainProc 5 Engine.empty [.exit 5 6 40 "zz", .exit 10 5 100 "a"]).map
        (fun s => (ownTotals s "zz", ownTotals s "b")) = some ((1, 40), (0, 0)) ∧
      (run chainProc 5 Engine.empty [.exit 10 5 100 "a", .exit 5 6 40 "zz"]).map
        (fun s => (ownTotals s "zz", ownTotals s "b")) = some ((0, 0), (1, 40))) ∧
    (((run chainProc 5 Engine.empty [.update 10 5 100 "a", .exit 11 5 1 "q"]).bind
        (fun s0 => (run chainProc 5 s0 [.exit 10 5 150 "a", .exit 20 10 7 "z"]).map
          (fun s => (subTotals s "a", subTotals s "b", subTotals s "")))
          = some ((0, 0), (3, 251), (1, 7))) ∧
      ((run chainProc 5 Engine.empty [.update 10 5 100 "a", .exit 11 5 1 "q"]).bind
        (fun s0 => (run chainProc 5 s0 [.exit 20 10 7 "z", .exit 10 5 150 "a"]).map
          (fun s => (subTotals s "a", subTotals s "b", subTotals s "")))
          = some ((1, 7), (4, 258), (0, 0)))) ∧
    (((run chainProc 5 Engine.empty [.update 10 5 100 "a"]).bind
        (fun s0 => (run chainProc 5 s0 [.exit 10 5 150 "a", .exit 11 5 20 "a"]).map
          (fun s => subTotals s "b")) = some (2, 120)) ∧
      ((run chainProc 5 Engine.empty [.update 10 5 100 "a"]).bind
        (fun s0 => (run chainProc 5 s0 [.exit 11 5 20 "a", .exit 10 5 150 "a"]).map
          (fun s => subTotals s "b")) = some (3, 270))) ∧
    ((run chainProc 5 Engine.empty [.exit 0 5 7 "b", .exit 11 5 20 "a"]).map
        (fun s => subTotals s "b") = some (1, 20) ∧
      (run chainProc 5 Engine.empty [.exit 11 5 20 "a", .exit 0 5 7 "b"]).map
        (fun s => subTotals s "b") = some (2, 27)) ∧
    (((run chainProc 5 Engine.empty
          [.update 5 6 40 "b", .exit 13 6 1 "q", .update 5 1 50 "b"]).bind
        (fun s0 => (run chainProc 5 s0 [.update 5 99 60 "b", .exit 11 5 20 "a"]).map
          (fun s => (subTotals s "c", subTotals s ""))) = some ((2, 41), (1, 30))) ∧
      ((run chainProc 5 Engine.empty
          [.update 5 6 40 "b", .exit 13 6 1 "q", .update 5 1 50 "b"]).bind
        (fun s0 => (run chainProc 5 s0 [.exit 11 5 20 "a", .update 5 99 60 "b"]).map
          (fun s => (subTotals s "c", subTotals s ""))) = some ((3, 71), (0, 0)))) := by
  refine ⟨⟨?_, ?_⟩, ⟨?_, ?_⟩, ⟨?_, ?_⟩, ⟨?_, ?_⟩, ⟨?_, ?_⟩, ⟨?_, ?_⟩, ⟨?_, ?_⟩⟩ <;> decide

/-- C11, amended: order independence holds for events that fit the state.  Take a
well-formed state whose ledger entries lead to command records of their name
and whose process records in use (those from address `n0` on, what
`clearCounters` orphaned lying below) agree, except for the pids of a list `L`,
with a table `view` that is the metadata lookup `proc` except at pids that are in
the registry and have no `Exit` event in the sequence (the lookup is not
consulted for them).  Take a finite sequence of `Update` and `Exit` events with cpu
values below `2^64` such that
(a) the pids of the events are pairwise distinct;
(b) no command name on the ancestor chain an event walks has the pid of that
event as its marker, a name without ledger entry counting with the marker 0 of
a fresh record; the chain is the one `view` gives from `Event.start`, the pid of
the record cached as parent of the event's pid, or the parent pid the event
carries when no record is cached or that parent pid is at most 1 (no walk
then);
(c) no pid of `L` lies on such a chain;
(d) a pid that is not in the registry is in `L`, unless its event is an `Exit`
that carries the command name the lookup gives for the pid;
(e) an event of a pid outside `L` with no cached parent link that carries a
parent pid above 1 carries the parent pid `view` gives for its pid.
Events of pids in the registry are admitted, also on the chains of other
events.  Then processing the events in any permutation, under the same lookup,
yields identical final own and subtree totals for every command name (in
particular two such events commute); and all these runs return when the lookup
describes an acyclic process tree within the recursion budget that the parent
links of the state and of the `Update` events fit. -/
theorem events_commute (proc view : Int → Option (String × Int)) (fuel : Nat) (L : List Int)
    (n0 : Nat) (s : Engine) (evs evs' : List Event) (hp : evs.Perm evs')
    (hwf : WF s) (hn : Named s)
    (hview : ∀ k, view k ≠ proc k →
      (s.procInfos k).isSome = true ∧ ∀ e, e ∈ evs → e.isExit = true → e.pid ≠ k)
    (hag : Agrees view L n0 s)
    (hnd : (evs.map Event.pid).Nodup)
    (hmark : ∀ e, e ∈ evs → ∀ k, k ∈ chainNames view fuel (e.start s) →
      (subByName s k).2.2 ≠ e.pid)
    (hchain : ∀ e, e ∈ evs → ∀ x, x ∈ chainPids view fuel (e.start s) → x ∉ L)
    (hnew : ∀ e, e ∈ evs → s.procInfos e.pid = none →
      e.pid ∈ L ∨ (e.isExit = true ∧ e.cmd = (lookupOf view e.pid).1))
    (hlook : ∀ e, e ∈ evs → e.pid ∉ L → cachedPpi s e.pid = none → 1 < e.ppid →
      e.ppid = (lookupOf view e.pid).2)
    (hcpu : ∀ e, e ∈ evs → e.cpu < U64) :
    (∀ t t', run proc fuel s evs = some t → run proc fuel s evs' = some t' →
      ∀ k, ownTotals t' k = ownTotals t k ∧ subTotals t' k = subTotals t k) ∧
    (∀ rank, Acyclic rank proc → (∀ k, rank k + 2 ≤ fuel) → Ranked rank s →
      (∀ e, e ∈ evs → e.isExit = false → 1 < e.ppid → rank e.ppid < rank e.pid) →
      ∃ t t', run proc fuel s evs = some t ∧ run proc fuel s evs' = some t') := by
  have hmem : ∀ e, e ∈ evs' → e ∈ evs := fun e he => hp.mem_iff.2 he
  have hpm : (evs.map Event.pid).Perm (evs'.map Event.pid) := hp.map _
  constructor
  · intro t t' h h'
    rw [← run_lookup proc view fuel evs s hwf hcpu hview] at h
    rw [← run_lookup proc view fuel evs' s hwf (fun e he => hcpu e (hmem e he))
      (fun k hk => ⟨(hview k hk).1, fun e he => (hview k hk).2 e (hmem e he)⟩)] at h'
    obtain ⟨w, _, _, f⟩ := run_names view L n0 fuel evs s t hwf hn hag hnd hmark hchain hnew
      hlook hcpu h
    obtain ⟨w', _, _, f'⟩ := run_names view L n0 fuel evs' s t' hwf hn hag
      (hpm.nodup_iff.1 hnd) (fun e he => hmark e (hmem e he))
      (fun e he => hchain e (hmem e he)) (fun e he => hnew e (hmem e he))
      (fun e he => hlook e (hmem e he)) (fun e he => hcpu e (hmem e he)) h'
    intro k
    refine ⟨?_, ?_⟩
    · rw [(f' k).1, (f k).1]
      exact (creditAll_perm _ _ _ evs evs' hp _).symm
    · rw [subTotals_byName t' w' k, subTotals_byName t w k, (f' k).2, (f k).2]
      exact (creditAll_perm _ _ _ evs evs' hp _).symm
  · intro rank ha hf hr hev
    obtain ⟨t, h, _⟩ := run_total proc rank ha fuel hf evs s hwf hr hcpu hev
    obtain ⟨t', h', _⟩ := run_total proc rank ha fuel hf evs' s hwf hr
      (fun e he => hcpu e (hmem e he)) (fun e he => hev e (hmem e he))
    exact ⟨t, t', h, h'⟩


/-- C11, amended, on a state reached after a window reset: an `Exit`, then
`clearCounters`, then an `Update` of pid 10 and an `Exit` of pid 11 below the
chain 5 → 6 → root.  The lookup does not know pid 10; its registry record says
command "a" below pid 5 (the table `chainView`).  From there an `Update` of the
registered pid 10, an `Exit` of its new child 20, an `Update` of pid 5, which is in
the registry and on the chains of pid 10 and pid 20, and an `Exit` of the new
pid 12 are processed in one order and in the reverse one: both runs return and
give the same own and subtree totals for every command. -/
theorem events_commute_witness :
    ∃ s0 s t t',
      (run chainProc 4 Engine.empty [.exit 13 5 1 "q"]).bind
        (fun x => clearCounters chainProc 4 x []) = some s0 ∧
      run chainProc 4 s0 [.update 10 5 100 "a", .exit 11 5 20 "a"] = some s ∧
      run chainProc 4 s
        [.update 10 5 160 "a", .exit 20 10 7 "z", .update 5 6 40 "zz", .exit 12 6 7 "d"]
        = some t ∧
      run chainProc 4 s
        [.exit 12 6 7 "d", .update 5 6 40 "zz", .exit 20 10 7 "z", .update 10 5 160 "a"]
        = some t' ∧
      ∀ k, ownTotals t' k = ownTotals t k ∧ subTotals t' k = subTotals t k := by
  obtain ⟨sp, hsp, wsp, rsp⟩ := run_total chainProc chainRank chainRank_acyclic 4 chainRank_le
    [.exit 13 5 1 "q"] Engine.empty Engine.empty_wf (Engine.empty_ranked _) (by decide)
    (by decide)
  obtain ⟨s0, h0⟩ : ∃ s0, clearCounters chainProc 4 sp [] = some s0 := ⟨_, rfl⟩
  obtain ⟨w0, n0, a0, r0, m0, l0⟩ := cleared_agrees chainProc [10, 11] 4 sp s0 wsp h0
  obtain ⟨s, hs, ws, rs⟩ := run_total chainProc chainRank chainRank_acyclic 4 chainRank_le
    [.update 10 5 100 "a", .exit 11 5 20 "a"] s0 w0 (r0 _ rsp) (by decide) (by decide)
  have hsub0 : ∀ k, subByName s0 k = (0, 0, 0) := by
    intro k
    simp [subByName, l0, mapGet]
  obtain ⟨_, ns, as, _⟩ := run_names chainProc [10, 11] sp.nprocs 4
    [.update 10 5 100 "a", .exit 11 5 20 "a"] s0 s w0 n0 a0 (by decide)
    (by
      intro e he k _
      rw [hsub0 k]
      simp only [List.mem_cons, List.mem_singleton, List.not_mem_nil, or_false] at he
      rcases he with rfl | rfl <;> decide)
    (by
      intro e he
      rw [start_new s0 e (m0 _)]
      simp only [List.mem_cons, List.mem_singleton, List.not_mem_nil, or_false] at he
      rcases he with rfl | rfl <;> decide)
    (by
      intro e he _
      simp only [List.mem_cons, List.mem_singleton, List.not_mem_nil, or_false] at he
      rcases he with rfl | rfl <;> exact Or.inl (by decide))
    (by
      intro e he hl
      simp only [List.mem_cons, List.mem_singleton, List.not_mem_nil, or_false] at he
      rcases he with rfl | rfl <;> exact absurd (by decide) hl)
    (by decide) hs
  have key : (((run chainProc 4 Engine.empty [.exit 13 5 1 "q"]).bind
        (fun x => clearCounters chainProc 4 x [])).bind
        (fun x => run chainProc 4 x [.update 10 5 100 "a", .exit 11 5 20 "a"])).all
      (fun s => decide (
        (s.procInfos 10).isSome = true ∧
        (∀ x, x < s.nprocs → (s.procs x).pid ∉ [20, 12] →
          ((s.procs x).pid ∉ [10, 11] ∧
            lookupOf chainView (s.procs x).pid = lookupOf chainProc (s.procs x).pid) ∨
          ((s.procs x).ppid = (lookupOf chainView (s.procs x).pid).2 ∧
            (s.procs x).ci.map (fun c => (s.cmds c).cmd)
              = some (lookupOf chainView (s.procs x).pid).1 ∧
            ((s.procs x).ppi = none ∨
              (s.procs x).ppi.map (fun y => (s.procs y).pid) = some (s.procs x).ppid))))) = true := by
    decide
  have key' : (((run chainProc 4 Engine.empty [.exit 13 5 1 "q"]).bind
        (fun x => clearCounters chainProc 4 x [])).bind
        (fun x => run chainProc 4 x [.update 10 5 100 "a", .exit 11 5 20 "a"])).all
      (fun s => decide (
        (∀ e, e ∈ [Event.update 10 5 160 "a", Event.exit 20 10 7 "z",
            Event.update 5 6 40 "zz", Event.exit 12 6 7 "d"] →
          ∀ k, k ∈ chainNames chainView 4 (e.start s) → (subByName s k).2.2 ≠ e.pid) ∧
        (∀ e, e ∈ [Event.update 10 5 160 "a", Event.exit 20 10 7 "z",
            Event.update 5 6 40 "zz", Event.exit 12 6 7 "d"] →
          ∀ x, x ∈ chainPids chainView 4 (e.start s) → x ∉ [20, 12]) ∧
        (∀ e, e ∈ [Event.update 10 5 160 "a", Event.exit 20 10 7 "z",
            Event.update 5 6 40 "zz", Event.exit 12 6 7 "d"] →
          s.procInfos e.pid = none →
          e.pid ∈ [20, 12] ∨ (e.isExit = true ∧ e.cmd = (lookupOf chainView e.pid).1)) ∧
        (∀ e, e ∈ [Event.update 10 5 160 "a", Event.exit 20 10 7 "z",
            Event.update 5 6 40 "zz", Event.exit 12 6 7 "d"] →
          e.pid ∉ [20, 12] → cachedPpi s e.pid = none → 1 < e.ppid →
          e.ppid = (lookupOf chainView e.pid).2))) = true := by
    decide
  rw [hsp, Option.some_bind, h0, Option.some_bind, hs] at key key'
  obtain ⟨k0, kv⟩ := of_decide_eq_true key
  obtain ⟨k1, k2, k3, k4⟩ := of_decide_eq_true key'
  have hview : ∀ k, chainView k ≠ chainProc k →
      (s.procInfos k).isSome = true ∧
      ∀ e, e ∈ [Event.update 10 5 160 "a", Event.exit 20 10 7 "z",
          Event.update 5 6 40 "zz", Event.exit 12 6 7 "d"] → e.isExit = true → e.pid ≠ k := by
    intro k hk
    have hk10 : k = 10 := by
      by_contra hne
      exact hk (by simp [chainView, hne])
    subst hk10
    exact ⟨k0, by decide⟩
  have h := events_commute chainProc chainView 4 [20, 12] sp.nprocs s
    [.update 10 5 160 "a", .exit 20 10 7 "z", .update 5 6 40 "zz", .exit 12 6 7 "d"]
    [.exit 12 6 7 "d", .update 5 6 40 "zz", .exit 20 10 7 "z", .update 10 5 160 "a"]
    (List.reverse_perm
      ([Event.exit 12 6 7 "d", Event.update 5 6 40 "zz", Event.exit 20 10 7 "z",
        Event.update 10 5 160 "a"] : List Event))
    ws ns hview (agrees_view as kv) (by decide) k1 k2 k3 k4 (by decide)
  obtain ⟨t, t', h1, h2⟩ := h.2 chainRank chainRank_acyclic chainRank_le rs (by decide)
  exact ⟨s0, s, t, t', by rw [hsp]; exact h0, hs, h1, h2, h.1 t t' h1 h2⟩



/-- C12, evaluated: in the state reached by an `Update` of pid 10 (parent chain
5 → 6 → root, commands "b" and "c"), the `Exit` of pid 10 with 150 more units, and
likewise a second `Update` of pid 10 with delta 60, leaves the subtree totals of the
ancestor commands "b" and "c" at `(1, 100)`: the marker `spid` of these records still
names pid 10, so the walk of the second event credits none of them. -/
theorem same_pid_events_not_credited :
    (run chainProc 3 Engine.empty [.update 10 5 100 "a"]).map
        (fun s => (subTotals s "b", subTotals s "c")) = some ((1, 100), (1, 100)) ∧
    (run chainProc 3 Engine.empty [.update 10 5 100 "a", .exit 10 5 150 "a"]).map
        (fun s => (subTotals s "b", subTotals s "c")) = some ((1, 100), (1, 100)) ∧
    (run chainProc 3 Engine.empty [.update 10 5 100 "a", .update 10 5 160 "a"]).map
        (fun s => (subTotals s "b", subTotals s "c")) = some ((1, 100), (1, 100)) ∧
    (run chainProc 3 Engine.empty [.update 10 5 100 "a", .exit 10 5 150 "a"]).map
        (fun s => (ledger s "a").map (fun r => (r.ec, r.et))) = some (some (2, 250)) := by
  decide


end Topfast
